import Mathlib

/-!
# RNA secondary structure prediction (hairpins and pseudoknots)

A shallow embedding of `src/main.cpp` and a verification of its dynamic
programme.

Conventions of the embedding.

* The global arrays of the source are total functions on indices
  (`Tab2`, `Tab4`), all zero before `solve` is called (C++ globals are
  zero-initialised).  An assignment `t[a][b] = v` is `set2 t a b v`.
* Scores are C++ `int`; they are embedded as `Int` with exact sums. The program is
  embedded a second time with its three sums reduced to the 32-bit range
  (`lcs_cell32`, `pseudoknot_step32`, `structure_step32`, `solve32`);
  `solve_tables32_eq` shows that for `N ≤ 100` and configured scores of absolute
  value at most `M` with `100 * M < 2 ^ 31` (the source ships `M = 1`) both compute
  the same tables, and `tables_range` bounds every table entry by `M * N`.
* The tables of the source have `MAX_SEQ_LENGTH + 1` entries in each dimension; the
  tables of the embedding are unbounded. The program is embedded a third time with a
  guard at every table access (`solve_checked`, `restore_checked`, `main_checked`);
  `main_checked_eq` shows that for sequences of length at most `MAX_SEQ_LENGTH` no
  guard fails, and `solve_checked_none` that beyond that length one does.
* Array indices are `Nat`.  Every index expression of the source is written so
  that natural-number subtraction agrees with the integer subtraction of the
  source on the values the program produces: `e - s + 1` becomes `e + 1 - s`,
  `e - j + 1` becomes `e + 1 - j`, `k - i + 1` becomes `k + 1 - i`.
* `for (int i = a; i <= b; i++)` is `forLe a b`, `for (int i = a; i < b; i++)`
  is `forLt a b`; a loop with `break` is `loopBreak`, whose body answers
  `none` to leave the loop.
* The `while` loop of `get_lcs_element` and the recursion of `restore` take a
  fuel argument and answer `none` when it is used up; termination is proved
  separately.
-/

namespace RNA

/-! # Part I: definitions

The embedding of the source comes first, then the closed forms and invariants of its
loops, then the vocabulary of the specification (stems, admissible structures). -/

/-- The constant `MAX_SEQ_LENGTH`. -/
def MAX_SEQ_LENGTH : Nat := 100

/-- The record `pk_info` of the source. -/
structure pk_info where
  i : Nat
  k : Nat
  j : Nat
deriving DecidableEq, Repr

/-- The three "argument parameters" of the source. -/
structure Config where
  isWobblePairAllowed : Bool
  wobblePairScore : Int
  watsonCrickPairScore : Int

/-- The values the source gives to its argument parameters. -/
def defaultConfig : Config := ⟨false, 1, 1⟩

/-- A two-dimensional table. -/
abbrev Tab2 (α : Type) := Nat → Nat → α

/-- A four-dimensional table. -/
abbrev Tab4 (α : Type) := Nat → Nat → Nat → Nat → α

/-- The assignment `t[a][b] = v`. -/
def set2 {α : Type} (t : Tab2 α) (a b : Nat) (v : α) : Tab2 α :=
  fun x y => if x = a ∧ y = b then v else t x y

/-- The assignment `t[a][b][c][d] = v`. -/
def set4 {α : Type} (t : Tab4 α) (a b c d : Nat) (v : α) : Tab4 α :=
  fun x y z w => if x = a ∧ y = b ∧ z = c ∧ w = d then v else t x y z w

/-- The loop `for (int i = a; i <= b; i++) body`. -/
def forLe {σ : Type} (a b : Nat) (body : Nat → σ → σ) (st : σ) : σ :=
  (List.range' a (b + 1 - a)).foldl (fun st i => body i st) st

/-- The loop `for (int i = a; i < b; i++) body`. -/
def forLt {σ : Type} (a b : Nat) (body : Nat → σ → σ) (st : σ) : σ :=
  (List.range' a (b - a)).foldl (fun st i => body i st) st

/-- A loop over the given index values whose body may `break` (answer `none`). -/
def loopBreak {σ : Type} (body : Nat → σ → Option σ) : List Nat → σ → σ
  | [], st => st
  | j :: js, st =>
    match body j st with
    | none => st
    | some st1 => loopBreak body js st1

/-- The character `seq[i]` of the (padded) sequence. -/
def charAt (seq : List Char) (i : Nat) : Char := seq.getD i (Char.ofNat 0)

/-! ## Pair scorer: the first loop nest of `solve` -/

/-- The body of the match-matrix loops of `solve` at `(i, j)`. -/
def match_cell (cfg : Config) (seq : List Char) (i j : Nat) (m : Tab2 Int) : Tab2 Int :=
  let a := charAt seq i
  let b := charAt seq j
  let m1 :=
    if (a = 'A' ∧ b = 'U') ∨ (a = 'U' ∧ b = 'A') ∨ (a = 'C' ∧ b = 'G') ∨ (a = 'G' ∧ b = 'C') then
      set2 (set2 m j i cfg.watsonCrickPairScore) i j cfg.watsonCrickPairScore
    else m
  if cfg.isWobblePairAllowed then
    if (a = 'G' ∧ b = 'U') ∨ (a = 'U' ∧ b = 'G') then
      set2 (set2 m1 j i cfg.wobblePairScore) i j cfg.wobblePairScore
    else m1
  else m1

/-- The match matrix built by `solve`. -/
def build_match (cfg : Config) (seq : List Char) (seq_len : Nat) : Tab2 Int :=
  forLe 1 seq_len (fun i m => forLe (i + 1) seq_len (fun j m => match_cell cfg seq i j m) m)
    (fun _ _ => 0)

/-! ## Interval aligner: `lcs` -/

/-- The body of the inner loop of `lcs` after the `break` test. -/
def lcs_cell (s e i j : Nat) (mat : Tab2 Int) (st : Tab4 Int × Tab4 Int) :
    Tab4 Int × Tab4 Int :=
  let dp0 := set4 st.1 s e i j (st.1 s e (i - 1) j)
  let rs0 := set4 st.2 s e i j 0
  let st1 : Tab4 Int × Tab4 Int :=
    if dp0 s e i j < dp0 s e i (j - 1) then
      (set4 dp0 s e i j (dp0 s e i (j - 1)), set4 rs0 s e i j 1)
    else (dp0, rs0)
  if st1.1 s e i j < st1.1 s e (i - 1) (j - 1) + mat (s + i - 1) (e + 1 - j) then
    (set4 st1.1 s e i j (st1.1 s e (i - 1) (j - 1) + mat (s + i - 1) (e + 1 - j)),
      set4 st1.2 s e i j 2)
  else st1

/-- The function `lcs(s, e, match)`, acting on `(lcs_dp, lcs_restore)`. -/
def lcs (s e : Nat) (mat : Tab2 Int) (st : Tab4 Int × Tab4 Int) : Tab4 Int × Tab4 Int :=
  let len := e + 1 - s
  forLe 1 len (fun i st =>
    loopBreak (fun j st => if i + j > len then none else some (lcs_cell s e i j mat st))
      (List.range' 1 len) st) st

/-- The pre-computation loops of `solve`: `lcs(i, j, match)` for `1 ≤ i ≤ j ≤ seq_len`. -/
def lcs_phase (mat : Tab2 Int) (seq_len : Nat) (st : Tab4 Int × Tab4 Int) :
    Tab4 Int × Tab4 Int :=
  forLe 1 seq_len (fun i st => forLe i seq_len (fun j st => lcs i j mat st) st) st

/-! ## Hairpin optimizer -/

/-- The body of the `k` loop of the hairpin loops, on `(hairpin, hairpin_restore)`. -/
def hairpin_step (lcs_dp : Tab4 Int) (s e len k : Nat) (st : Tab2 Int × Tab2 Nat) :
    Tab2 Int × Tab2 Nat :=
  if st.1 s e < lcs_dp s e k (len - k) then
    (set2 st.1 s e (lcs_dp s e k (len - k)), set2 st.2 s e k)
  else st

/-- The hairpin loops of `solve`. -/
def hairpin_phase (lcs_dp : Tab4 Int) (seq_len : Nat) (st : Tab2 Int × Tab2 Nat) :
    Tab2 Int × Tab2 Nat :=
  forLe 1 seq_len (fun s st =>
    forLe (s + 1) seq_len (fun e st =>
      forLe 0 (e + 1 - s) (fun k st => hairpin_step lcs_dp s e (e + 1 - s) k st) st) st) st

/-! ## Pseudoknot optimizer -/

/-- The body of the innermost pseudoknot loop, on `(pseudoknot, pseudoknot_restore)`. -/
def pseudoknot_step (lcs_dp : Tab4 Int) (s e i j k : Nat) (st : Tab2 Int × Tab2 pk_info) :
    Tab2 Int × Tab2 pk_info :=
  if st.1 s e < lcs_dp s j (i - s) (j - k) + lcs_dp i e (k + 1 - i) (e - j) then
    (set2 st.1 s e (lcs_dp s j (i - s) (j - k) + lcs_dp i e (k + 1 - i) (e - j)),
      set2 st.2 s e ⟨i, k, j⟩)
  else st

/-- The pseudoknot loops of `solve`. -/
def pseudoknot_phase (lcs_dp : Tab4 Int) (seq_len : Nat) (st : Tab2 Int × Tab2 pk_info) :
    Tab2 Int × Tab2 pk_info :=
  forLe 1 seq_len (fun s st =>
    forLe (s + 3) seq_len (fun e st =>
      forLt (s + 1) e (fun i st =>
        forLt (s + 1) e (fun j st =>
          forLt i j (fun k st => pseudoknot_step lcs_dp s e i j k st) st) st) st) st) st

/-! ## Structure composer -/

/-- The body of the split loop, on `(structure, structure_restore)`. -/
def structure_step (s e k : Nat) (st : Tab2 Int × Tab2 Int) : Tab2 Int × Tab2 Int :=
  if st.1 s e < st.1 s k + st.1 (k + 1) e then
    (set2 st.1 s e (st.1 s k + st.1 (k + 1) e), set2 st.2 s e (k : Int))
  else st

/-- The body of the structure loops for the interval `[s, e]`. -/
def structure_cell (hairpin pseudoknot : Tab2 Int) (s e : Nat) (st : Tab2 Int × Tab2 Int) :
    Tab2 Int × Tab2 Int :=
  let sd := set2 st.1 s e (hairpin s e)
  let sr := set2 st.2 s e (-1)
  let st1 : Tab2 Int × Tab2 Int :=
    if sd s e < pseudoknot s e then (set2 sd s e (pseudoknot s e), set2 sr s e (-2))
    else (sd, sr)
  forLt s e (fun k st => structure_step s e k st) st1

/-- The structure loops of `solve`. -/
def structure_phase (hairpin pseudoknot : Tab2 Int) (seq_len : Nat) (st : Tab2 Int × Tab2 Int) :
    Tab2 Int × Tab2 Int :=
  forLe 2 seq_len (fun l st =>
    forLe 1 (seq_len + 1 - l) (fun s st =>
      structure_cell hairpin pseudoknot s (s + l - 1) st) st) st

/-! ## `solve` -/

/-- The global tables of the source (the local `match` of `solve` is kept as well). -/
structure Tables where
  mat : Tab2 Int
  lcs_dp : Tab4 Int
  lcs_restore : Tab4 Int
  pseudoknot : Tab2 Int
  pseudoknot_restore : Tab2 pk_info
  hairpin : Tab2 Int
  hairpin_restore : Tab2 Nat
  structure_dp : Tab2 Int
  structure_restore : Tab2 Int

/-- The tables after `solve(seq)` has run on zero-initialised globals. -/
def solve_tables (cfg : Config) (seq : List Char) (seq_len : Nat) : Tables :=
  let mat := build_match cfg seq seq_len
  let l := lcs_phase mat seq_len (fun _ _ _ _ => 0, fun _ _ _ _ => 0)
  let h := hairpin_phase l.1 seq_len (fun _ _ => 0, fun _ _ => 0)
  let p := pseudoknot_phase l.1 seq_len (fun _ _ => 0, fun _ _ => ⟨0, 0, 0⟩)
  let t := structure_phase h.1 p.1 seq_len (fun _ _ => 0, fun _ _ => 0)
  { mat := mat, lcs_dp := l.1, lcs_restore := l.2, pseudoknot := p.1,
    pseudoknot_restore := p.2, hairpin := h.1, hairpin_restore := h.2,
    structure_dp := t.1, structure_restore := t.2 }

/-- The value returned by `solve(seq)`: `structure[1][seq_len]`. -/
def solve (cfg : Config) (seq : List Char) (seq_len : Nat) : Int :=
  (solve_tables cfg seq seq_len).structure_dp 1 seq_len

/-! ## Reconstruction -/

/-- The loop of `get_lcs_element(s, e, l, r)`; `acc` is the vector `restored`. -/
def get_lcs_loop (T : Tables) (s e : Nat) :
    Nat → Nat → Nat → List (Nat × Nat) → Option (List (Nat × Nat))
  | 0, l, r, acc => if l ≠ 0 ∧ r ≠ 0 then none else some acc
  | fuel + 1, l, r, acc =>
    if l ≠ 0 ∧ r ≠ 0 then
      if T.lcs_restore s e l r = 0 then get_lcs_loop T s e fuel (l - 1) r acc
      else if T.lcs_restore s e l r = 1 then get_lcs_loop T s e fuel l (r - 1) acc
      else get_lcs_loop T s e fuel (l - 1) (r - 1) (acc ++ [(s + l - 1, e + 1 - r)])
    else some acc

/-- The function `get_lcs_element(s, e, l, r)`. -/
def get_lcs_element (T : Tables) (s e l r : Nat) (acc : List (Nat × Nat)) :
    Option (List (Nat × Nat)) :=
  get_lcs_loop T s e (l + r) l r acc

/-- The function `restore(l, r)`, with a bound `fuel` on the recursion depth. -/
def restore (T : Tables) : Nat → Nat → Nat → List (Nat × Nat) → Option (List (Nat × Nat))
  | 0, _, _, _ => none
  | fuel + 1, l, r, acc =>
    let len := r + 1 - l
    if T.structure_restore l r = -1 then
      get_lcs_element T l r (T.hairpin_restore l r) (len - T.hairpin_restore l r) acc
    else if T.structure_restore l r = -2 then
      let p := T.pseudoknot_restore l r
      match get_lcs_element T l p.j (p.i - l) (p.j - p.k) acc with
      | none => none
      | some acc1 => get_lcs_element T p.i r (p.k + 1 - p.i) (r - p.j) acc1
    else
      let k := (T.structure_restore l r).toNat
      match (if l + 1 ≤ k ∧ l ≥ 1 then restore T fuel l k acc else some acc) with
      | none => none
      | some acc1 => if k + 2 ≤ r ∧ k + 1 ≥ 1 then restore T fuel (k + 1) r acc1 else some acc1

/-! ## Notation renderer -/

/-- The order of `std::pair<int,int>` used by `sort`. -/
def pairLE (p q : Nat × Nat) : Prop := p.1 < q.1 ∨ (p.1 = q.1 ∧ p.2 ≤ q.2)

instance : DecidableRel pairLE := fun p q => by unfold pairLE; infer_instance

/-- The body of the outer loop of `get_dot_braket_notation` at index `i`. -/
def render_step (restored : List (Nat × Nat)) (i : Nat) (ret : List Char) : List Char :=
  let p := restored.getD i (0, 0)
  let l := p.1 - 1
  let r := p.2 - 1
  let pk := (List.range i).any (fun j => decide (l < (restored.getD j (0, 0)).2 ∧
    (restored.getD j (0, 0)).2 < r))
  if !pk then (ret.set l '(').set r ')' else (ret.set l '{').set r '}'

/-- The function `get_dot_braket_notation()`: the string returned and the sorted `restored`. -/
def get_dot_braket_notation (seq_len : Nat) (restored : List (Nat × Nat)) :
    List Char × List (Nat × Nat) :=
  let ret := List.replicate seq_len '.'
  let sorted := restored.insertionSort pairLE
  (forLt 0 sorted.length (fun i ret => render_step sorted i ret) ret, sorted)

/-! ## `main` -/

/-- What `main` prints: the score, the bracket string and the pair list. -/
structure Output where
  mfe : Int
  dots : List Char
  restored : List (Nat × Nat)
deriving DecidableEq

/-- The function `main` on the input token `input`, without its printing. -/
def main (cfg : Config) (input : List Char) : Option Output :=
  let seq_len := input.length
  let seq := ' ' :: input
  let mfe := solve cfg seq seq_len
  match restore (solve_tables cfg seq seq_len) (seq_len + 1) 1 seq_len [] with
  | none => none
  | some restored =>
    let out := get_dot_braket_notation seq_len restored
    some ⟨mfe, out.1, out.2⟩

/-! ## The match matrix in closed form -/

/-- The score of two symbols under the pairing rules (what `match_cell` assigns). -/
def symScore (cfg : Config) (a b : Char) : Int :=
  if cfg.isWobblePairAllowed = true ∧ ((a = 'G' ∧ b = 'U') ∨ (a = 'U' ∧ b = 'G')) then
    cfg.wobblePairScore
  else if (a = 'A' ∧ b = 'U') ∨ (a = 'U' ∧ b = 'A') ∨ (a = 'C' ∧ b = 'G') ∨
      (a = 'G' ∧ b = 'C') then
    cfg.watsonCrickPairScore
  else 0

/-- The match matrix in closed form. -/
def matchVal (cfg : Config) (seq : List Char) (n : Nat) : Tab2 Int :=
  fun x y => if 1 ≤ x ∧ 1 ≤ y ∧ x ≤ n ∧ y ≤ n ∧ x ≠ y then
    symScore cfg (charAt seq x) (charAt seq y) else 0

/-! ## The alignment table in closed form -/

/-- The recurrence of the interval aligner on the interval `[s, e]`. -/
def lcsVal (mat : Tab2 Int) (s e : Nat) : Nat → Nat → Int
  | 0, _ => 0
  | _ + 1, 0 => 0
  | i + 1, j + 1 =>
    max (max (lcsVal mat s e i (j + 1)) (lcsVal mat s e (i + 1) j))
      (lcsVal mat s e i j + mat (s + i) (e - j))

/-- The decision recorded by `lcs_cell` in terms of the recurrence values. -/
def lcsDec (mat : Tab2 Int) (s e i j : Nat) : Int :=
  if max (lcsVal mat s e (i - 1) j) (lcsVal mat s e i (j - 1)) <
      lcsVal mat s e (i - 1) (j - 1) + mat (s + i - 1) (e + 1 - j) then 2
  else if lcsVal mat s e (i - 1) j < lcsVal mat s e i (j - 1) then 1
  else 0

/-- The tables after `lcs` has filled the rows before `i0` and the row `i0` before column
`j0` of the interval `[s, e]`. -/
def lcsFill (mat : Tab2 Int) (s e i0 j0 : Nat) (st : Tab4 Int × Tab4 Int) :
    Tab4 Int × Tab4 Int :=
  (fun a b x y =>
      if a = s ∧ b = e ∧ 1 ≤ x ∧ 1 ≤ y ∧ x + y ≤ e + 1 - s ∧ (x < i0 ∨ (x = i0 ∧ y < j0)) then
        lcsVal mat s e x y else st.1 a b x y,
    fun a b x y =>
      if a = s ∧ b = e ∧ 1 ≤ x ∧ 1 ≤ y ∧ x + y ≤ e + 1 - s ∧ (x < i0 ∨ (x = i0 ∧ y < j0)) then
        lcsDec mat s e x y else st.2 a b x y)

/-- The tables `(lcs_dp, lcs_restore)` after the calls `lcs(a, b, match)` for the intervals
before `(i0, j0)` in the order of the pre-computation loops. -/
def lcsUpTo (mat : Tab2 Int) (n i0 j0 : Nat) : Tab4 Int × Tab4 Int :=
  (fun a b x y =>
      if 1 ≤ a ∧ a ≤ b ∧ b ≤ n ∧ (a < i0 ∨ (a = i0 ∧ b < j0)) ∧
          1 ≤ x ∧ 1 ≤ y ∧ x + y ≤ b + 1 - a then
        lcsVal mat a b x y else 0,
    fun a b x y =>
      if 1 ≤ a ∧ a ≤ b ∧ b ≤ n ∧ (a < i0 ∨ (a = i0 ∧ b < j0)) ∧
          1 ≤ x ∧ 1 ≤ y ∧ x + y ≤ b + 1 - a then
        lcsDec mat a b x y else 0)

/-- The tables `(lcs_dp, lcs_restore)` when the pre-computation loops of `solve` are done. -/
def lcsTab (mat : Tab2 Int) (n : Nat) : Tab4 Int × Tab4 Int := lcsUpTo mat n (n + 1) 0

/-! ## Loops that work on one cell of a pair of tables -/

/-- The cell `(s, e)` of a pair of tables. -/
def getc {α β : Type} (st : Tab2 α × Tab2 β) (s e : Nat) : α × β := (st.1 s e, st.2 s e)

/-- The pair of tables with the cell `(s, e)` replaced. -/
def putc {α β : Type} (st : Tab2 α × Tab2 β) (s e : Nat) (c : α × β) : Tab2 α × Tab2 β :=
  (set2 st.1 s e c.1, set2 st.2 s e c.2)

/-- The pair of tables in which the cells `(s, e)` with `1 ≤ s`, `lo s ≤ e ≤ n` that come
before `(s0, e0)` hold `cell s e z`, and every other cell holds `z`. -/
def cellsUpTo {α β : Type} (z : α × β) (cell : Nat → Nat → α × β → α × β) (lo : Nat → Nat)
    (n s0 e0 : Nat) : Tab2 α × Tab2 β :=
  (fun s e => if 1 ≤ s ∧ lo s ≤ e ∧ e ≤ n ∧ (s < s0 ∨ (s = s0 ∧ e < e0)) then (cell s e z).1
      else z.1,
    fun s e => if 1 ≤ s ∧ lo s ≤ e ∧ e ≤ n ∧ (s < s0 ∨ (s = s0 ∧ e < e0)) then (cell s e z).2
      else z.2)

/-! ## The hairpin and pseudoknot loops on one cell -/

/-- The body of the `k` loop of the hairpin loops on the cell `(hairpin[s][e],
hairpin_restore[s][e])`. -/
def hairpinCellStep (lcs_dp : Tab4 Int) (s e len k : Nat) (c : Int × Nat) : Int × Nat :=
  if c.1 < lcs_dp s e k (len - k) then (lcs_dp s e k (len - k), k) else c

/-- The `k` loop of the hairpin loops on the cell of `[s, e]`. -/
def hairpinCell (lcs_dp : Tab4 Int) (s e : Nat) (c : Int × Nat) : Int × Nat :=
  forLe 0 (e + 1 - s) (fun k c => hairpinCellStep lcs_dp s e (e + 1 - s) k c) c

/-- The body of the innermost pseudoknot loop on the cell of `[s, e]`. -/
def pkCellStep (lcs_dp : Tab4 Int) (s e i j k : Nat) (c : Int × pk_info) : Int × pk_info :=
  if c.1 < lcs_dp s j (i - s) (j - k) + lcs_dp i e (k + 1 - i) (e - j) then
    (lcs_dp s j (i - s) (j - k) + lcs_dp i e (k + 1 - i) (e - j), ⟨i, k, j⟩)
  else c

/-- The `i`, `j`, `k` loops of the pseudoknot loops on the cell of `[s, e]`. -/
def pkCell (lcs_dp : Tab4 Int) (s e : Nat) (c : Int × pk_info) : Int × pk_info :=
  forLt (s + 1) e (fun i c =>
    forLt (s + 1) e (fun j c =>
      forLt i j (fun k c => pkCellStep lcs_dp s e i j k c) c) c) c

/-- The score of the two stems of a pseudoknot candidate `(i, k, j)` of `[s, e]`. -/
def pkVal (lcs_dp : Tab4 Int) (s e i k j : Nat) : Int :=
  lcs_dp s j (i - s) (j - k) + lcs_dp i e (k + 1 - i) (e - j)

/-- The state of a pseudoknot cell when the candidates in `D` have been tried. -/
def pkGood (lcs_dp : Tab4 Int) (s e : Nat) (c : Int × pk_info) (D : Nat → Nat → Nat → Prop) :
    Prop :=
  0 ≤ c.1 ∧
  (c = (0, ⟨0, 0, 0⟩) ∨ (0 < c.1 ∧ s < c.2.i ∧ c.2.i ≤ c.2.k ∧ c.2.k < c.2.j ∧ c.2.j < e ∧
    pkVal lcs_dp s e c.2.i c.2.k c.2.j = c.1)) ∧
  ∀ i k j, D i k j → pkVal lcs_dp s e i k j ≤ c.1

/-! ## The structure loops -/

/-- The body of the split loop on the cell `(structure[s][e], structure_restore[s][e])`,
reading the other cells from `T1`. -/
def splitStep (T1 : Tab2 Int) (s e k : Nat) (c : Int × Int) : Int × Int :=
  if c.1 < T1 s k + T1 (k + 1) e then (T1 s k + T1 (k + 1) e, (k : Int)) else c

/-- The body of the structure loops on the cell of `[s, e]`. -/
def structCell (h p T1 : Tab2 Int) (s e : Nat) : Int × Int :=
  forLt s e (fun k c => splitStep T1 s e k c) (if h s e < p s e then (p s e, -2) else (h s e, -1))

/-- The state of `(structure, structure_restore)` when the intervals of length below `l`
and those of length `l` that start before `s0` have been processed. -/
def structInv (h p : Tab2 Int) (n l s0 : Nat) (st : Tab2 Int × Tab2 Int) : Prop :=
  (∀ s e, ¬ (1 ≤ s ∧ s < e ∧ e ≤ n ∧ (e + 1 - s < l ∨ (e + 1 - s = l ∧ s < s0))) →
    getc st s e = (0, 0)) ∧
  (∀ s e, 1 ≤ s → s < e → e ≤ n → (e + 1 - s < l ∨ (e + 1 - s = l ∧ s < s0)) →
    getc st s e = structCell h p st.1 s e)

/-! ## The tables after `solve` -/

/-- What the loops of `solve` have established about the tables for a sequence of
length `n`. -/
structure Solved (T : Tables) (n : Nat) : Prop where
  lcs_dp : ∀ a b x y, 1 ≤ a → a ≤ b → b ≤ n → x + y ≤ b + 1 - a →
    T.lcs_dp a b x y = lcsVal T.mat a b x y
  lcs_restore : ∀ a b x y, 1 ≤ a → a ≤ b → b ≤ n → 1 ≤ x → 1 ≤ y → x + y ≤ b + 1 - a →
    T.lcs_restore a b x y = lcsDec T.mat a b x y
  hairpin : ∀ s e, 1 ≤ s → s < e → e ≤ n →
    (T.hairpin s e, T.hairpin_restore s e) = hairpinCell T.lcs_dp s e (0, 0)
  hairpin_zero : ∀ s e, ¬ (1 ≤ s ∧ s < e ∧ e ≤ n) →
    (T.hairpin s e, T.hairpin_restore s e) = (0, 0)
  pseudoknot : ∀ s e, 1 ≤ s → s + 3 ≤ e → e ≤ n →
    (T.pseudoknot s e, T.pseudoknot_restore s e) = pkCell T.lcs_dp s e (0, ⟨0, 0, 0⟩)
  pseudoknot_zero : ∀ s e, ¬ (1 ≤ s ∧ s + 3 ≤ e ∧ e ≤ n) →
    (T.pseudoknot s e, T.pseudoknot_restore s e) = (0, ⟨0, 0, 0⟩)
  structure_cell : ∀ s e, 1 ≤ s → s < e → e ≤ n →
    (T.structure_dp s e, T.structure_restore s e) =
      structCell T.hairpin T.pseudoknot T.structure_dp s e
  structure_zero : ∀ s e, ¬ (1 ≤ s ∧ s < e ∧ e ≤ n) →
    (T.structure_dp s e, T.structure_restore s e) = (0, 0)

/-! ## Reconstruction -/

/-- The total score of a list of pairs. -/
def pairSum (mat : Tab2 Int) (out : List (Nat × Nat)) : Int :=
  (out.map (fun p => mat p.1 p.2)).sum

/-- Two pairs share no position. -/
def disjointPairs (p q : Nat × Nat) : Prop :=
  p.1 ≠ q.1 ∧ p.1 ≠ q.2 ∧ p.2 ≠ q.1 ∧ p.2 ≠ q.2

/-- The second pair encloses the first. -/
def enclosedBy (p q : Nat × Nat) : Prop := q.1 < p.1 ∧ p.2 < q.2

/-- What `restore(l, r)` pushes for an interval `1 ≤ l < r ≤ n`. -/
structure RestoreOut (T : Tables) (l r : Nat) (out : List (Nat × Nat)) : Prop where
  sum_eq : pairSum T.mat out = T.structure_dp l r
  bounds : ∀ p ∈ out, l ≤ p.1 ∧ p.1 < p.2 ∧ p.2 ≤ r ∧ 0 < T.mat p.1 p.2
  disjoint : out.Pairwise disjointPairs
  nested_of_hairpin : T.structure_restore l r = -1 → out.Pairwise enclosedBy

/-! ## The notation renderer -/

/-- The flag `pk` that `get_dot_braket_notation` computes for the pair at index `i`. -/
def pkFlag (L : List (Nat × Nat)) (i : Nat) : Bool :=
  (List.range i).any (fun j => decide ((L.getD i (0, 0)).1 - 1 < (L.getD j (0, 0)).2 ∧
    (L.getD j (0, 0)).2 < (L.getD i (0, 0)).2 - 1))

/-- The opening bracket written for a pair whose flag is `b`. -/
def openCh (b : Bool) : Char := if b then '{' else '('

/-- The closing bracket written for a pair whose flag is `b`. -/
def closeCh (b : Bool) : Char := if b then '}' else ')'

/-- The state of the string after the pairs before index `i` have been written. -/
def renderInv (n : Nat) (L : List (Nat × Nat)) (i : Nat) (ret : List Char) : Prop :=
  ret.length = n ∧
  (∀ x, x < i → x < L.length →
    ret[(L.getD x (0, 0)).1 - 1]? = some (openCh (pkFlag L x)) ∧
    ret[(L.getD x (0, 0)).2 - 1]? = some (closeCh (pkFlag L x))) ∧
  (∀ q, q < n → (∀ x, x < i → x < L.length →
      (L.getD x (0, 0)).1 - 1 ≠ q ∧ (L.getD x (0, 0)).2 - 1 ≠ q) → ret[q]? = some '.')

/-! ### Sorting the recovered pairs -/

instance : IsTotal (Nat × Nat) pairLE :=
  ⟨fun p q => by unfold pairLE; omega⟩

instance : IsTrans (Nat × Nat) pairLE :=
  ⟨fun p q r => by unfold pairLE; omega⟩

/-! ## The whole run -/

/-- Two pairs cross: the second starts inside the first and ends after it. -/
def crossing (p q : Nat × Nat) : Prop := p.1 < q.1 ∧ q.1 < p.2 ∧ p.2 < q.2

/-- What `main` computes on the input token `input`. -/
structure MainOut (cfg : Config) (input : List Char) (out : Output) : Prop where
  mfe_eq : out.mfe = solve cfg (' ' :: input) input.length
  perm : ∃ out0, restore (solve_tables cfg (' ' :: input) input.length) (input.length + 1) 1
    input.length [] = some out0 ∧ out.restored.Perm out0
  sum_eq : pairSum (build_match cfg (' ' :: input) input.length) out.restored = out.mfe
  bounds : ∀ p ∈ out.restored, 1 ≤ p.1 ∧ p.1 < p.2 ∧ p.2 ≤ input.length ∧
    0 < build_match cfg (' ' :: input) input.length p.1 p.2
  disjoint : out.restored.Pairwise disjointPairs
  ascending : out.restored.Pairwise (fun p q => p.1 < q.1)
  hairpin_no_crossing : (solve_tables cfg (' ' :: input) input.length).structure_restore 1
    input.length = -1 → ∀ p ∈ out.restored, ∀ q ∈ out.restored, ¬ crossing p q
  render : renderInv input.length out.restored out.restored.length out.dots

/-! ## The calls made by `main` -/

/-- The tables after the call `solve(seq)` of `main` on the input token `input`. -/
def run_tables (cfg : Config) (input : List Char) : Tables :=
  solve_tables cfg (' ' :: input) input.length

/-- The match matrix that the call `solve(seq)` of `main` builds. -/
def run_match (cfg : Config) (input : List Char) : Tab2 Int :=
  build_match cfg (' ' :: input) input.length

/-- The value `mfe` that the call `solve(seq)` of `main` returns. -/
def run_score (cfg : Config) (input : List Char) : Int :=
  solve cfg (' ' :: input) input.length

/-- The vector `restored` after the call `restore(1, seq_len)` of `main`. -/
def run_restore (cfg : Config) (input : List Char) (fuel : Nat) : Option (List (Nat × Nat)) :=
  restore (run_tables cfg input) fuel 1 input.length []

/-- The symbol at the 1-indexed position `i` of the input. -/
def symbolAt (input : List Char) (i : Nat) : Char := charAt (' ' :: input) i

/-- The two symbols form a Watson-Crick pair. -/
def isWatsonCrick (a b : Char) : Prop :=
  (a = 'A' ∧ b = 'U') ∨ (a = 'U' ∧ b = 'A') ∨ (a = 'C' ∧ b = 'G') ∨ (a = 'G' ∧ b = 'C')

/-- The two symbols form a wobble pair. -/
def isWobble (a b : Char) : Prop := (a = 'G' ∧ b = 'U') ∨ (a = 'U' ∧ b = 'G')

instance (a b : Char) : Decidable (isWatsonCrick a b) := by unfold isWatsonCrick; infer_instance

instance (a b : Char) : Decidable (isWobble a b) := by unfold isWobble; infer_instance

/-! ## Stems: what the alignment table maximises -/

/-- A stem: a set of pairs that are mutually nested (`a1 < a2` implies `b1 > b2`) with no
left position and no right position used twice. -/
def IsStem (P : Finset (Nat × Nat)) : Prop :=
  (∀ p ∈ P, ∀ q ∈ P, p.1 < q.1 → q.2 < p.2) ∧
  (∀ p ∈ P, ∀ q ∈ P, p.1 = q.1 → p = q) ∧
  (∀ p ∈ P, ∀ q ∈ P, p.2 = q.2 → p = q)

/-- Every pair has its left end among the first `i` positions of `[s, e]` and its right end
among the last `j` positions. -/
def InArms (s e i j : Nat) (P : Finset (Nat × Nat)) : Prop :=
  ∀ p ∈ P, s ≤ p.1 ∧ p.1 < s + i ∧ e < p.2 + j ∧ p.2 ≤ e

/-- The total score of a set of pairs. -/
def stemScore (mat : Tab2 Int) (P : Finset (Nat × Nat)) : Int :=
  ∑ p ∈ P, mat p.1 p.2

/-! ## Admissible structures: what the structure table maximises -/

/-- What one sub-interval of an admissible structure carries: nothing, a hairpin (one
stem) or a pseudoknot (the candidate `(i, k, j)` and its two stems). -/
inductive Block where
  | empty : Block
  | hairpin (P : Finset (Nat × Nat)) : Block
  | pseudoknot (i k j : Nat) (P1 P2 : Finset (Nat × Nat)) : Block

/-- The pairs of a block. -/
def Block.pairs : Block → Finset (Nat × Nat)
  | Block.empty => ∅
  | Block.hairpin P => P
  | Block.pseudoknot _ _ _ P1 P2 => P1 ∪ P2

/-- The block fits the sub-interval `[s, e]`: a hairpin is a stem inside `[s, e]`; a
pseudoknot has `s < i ≤ k < j < e`, a stem with left ends in `[s, i - 1]` and right ends
in `[k + 1, j]`, and a stem with left ends in `[i, k]` and right ends in `[j + 1, e]`. -/
def Block.ok (s e : Nat) : Block → Prop
  | Block.empty => True
  | Block.hairpin P => IsStem P ∧ ∀ p ∈ P, s ≤ p.1 ∧ p.1 < p.2 ∧ p.2 ≤ e
  | Block.pseudoknot i k j P1 P2 =>
    s < i ∧ i ≤ k ∧ k < j ∧ j < e ∧
    IsStem P1 ∧ (∀ p ∈ P1, s ≤ p.1 ∧ p.1 ≤ i - 1 ∧ k + 1 ≤ p.2 ∧ p.2 ≤ j) ∧
    IsStem P2 ∧ (∀ p ∈ P2, i ≤ p.1 ∧ p.1 ≤ k ∧ j + 1 ≤ p.2 ∧ p.2 ≤ e)

/-- A structure on `[s, e]`: the consecutive sub-intervals, each given by its last
position and what it carries. The list is admissible when the sub-intervals partition
`[s, e]` and every block fits its sub-interval. -/
def Admissible : Nat → Nat → List (Nat × Block) → Prop
  | s, e, [] => e + 1 = s
  | s, e, (m, B) :: rest => s ≤ m ∧ m ≤ e ∧ B.ok s m ∧ Admissible (m + 1) e rest

/-- The pairs of a structure. -/
def allPairs : List (Nat × Block) → Finset (Nat × Nat)
  | [] => ∅
  | (_, B) :: rest => B.pairs ∪ allPairs rest

/-- The total pairing score of a structure. -/
def totalScore (mat : Tab2 Int) (S : List (Nat × Block)) : Int :=
  stemScore mat (allPairs S)

/-! ## The source with its array bounds

The same program once more, with a guard in front of every table access: the index
expressions of the source are evaluated as integers and must lie within the declared
size of the array. `none` now also means that a guard failed, that is, that the source
would access an array out of its bounds. The guards of the reconstruction also ask
that a decision cell read lies in the region that `lcs` wrote, that the pseudoknot triple
read was recorded, and that a recursive call is on a strictly shorter interval of length
at least 2; the guards of the structure loops ask that the entries read already hold
their final value (the ghost parameter `fin`). -/

/-- The integer `x` is an index of an array with `n + 1` entries. -/
def idxIn (n : Nat) (x : Int) : Prop := 0 ≤ x ∧ x ≤ (n : Int)

/-- The integer `x` is an index of a global table (`MAX_SEQ_LENGTH + 1` entries). -/
def cap (x : Int) : Prop := idxIn MAX_SEQ_LENGTH x

/-- An index pair of a two-dimensional global table. -/
def cap2 (a b : Int) : Prop := cap a ∧ cap b

/-- An index tuple of a four-dimensional global table. -/
def cap4 (a b c d : Int) : Prop := cap a ∧ cap b ∧ cap c ∧ cap d

instance (n : Nat) (x : Int) : Decidable (idxIn n x) := by unfold idxIn; infer_instance

instance (x : Int) : Decidable (cap x) := by unfold cap; infer_instance

instance (a b : Int) : Decidable (cap2 a b) := by unfold cap2; infer_instance

instance (a b c d : Int) : Decidable (cap4 a b c d) := by unfold cap4; infer_instance

/-- A loop over the given index values whose body may fail. -/
def loopM {σ : Type} (body : Nat → σ → Option σ) : List Nat → σ → Option σ
  | [], st => some st
  | i :: is, st =>
    match body i st with
    | none => none
    | some st1 => loopM body is st1

/-- The loop `for (int i = a; i <= b; i++) body` with a body that may fail. -/
def forLeM {σ : Type} (a b : Nat) (body : Nat → σ → Option σ) (st : σ) : Option σ :=
  loopM body (List.range' a (b + 1 - a)) st

/-- The loop `for (int i = a; i < b; i++) body` with a body that may fail. -/
def forLtM {σ : Type} (a b : Nat) (body : Nat → σ → Option σ) (st : σ) : Option σ :=
  loopM body (List.range' a (b - a)) st

/-- A loop that starts with `if (brk j) break;` and whose body may fail. -/
def loopBreakM {σ : Type} (brk : Nat → Prop) [DecidablePred brk] (body : Nat → σ → Option σ) :
    List Nat → σ → Option σ
  | [], st => some st
  | j :: js, st =>
    if brk j then some st
    else
      match body j st with
      | none => none
      | some st1 => loopBreakM brk body js st1

/-- The body of the match-matrix loops: `seq[i]`, `seq[j]`, `match[i][j]`, `match[j][i]`;
the string and the vector have `seq_len + 1` entries. -/
def match_cell_chk (cfg : Config) (seq : List Char) (seq_len i j : Nat) (m : Tab2 Int) :
    Option (Tab2 Int) :=
  if idxIn seq_len (i : Int) ∧ idxIn seq_len (j : Int) then some (match_cell cfg seq i j m)
  else none

/-- The match-matrix loops of `solve`, guarded. -/
def build_match_chk (cfg : Config) (seq : List Char) (seq_len : Nat) : Option (Tab2 Int) :=
  forLeM 1 seq_len (fun i m =>
    forLeM (i + 1) seq_len (fun j m => match_cell_chk cfg seq seq_len i j m) m) (fun _ _ => 0)

/-- The body of the inner loop of `lcs`: the cells `[s][e][i][j]`, `[s][e][i-1][j]`,
`[s][e][i][j-1]`, `[s][e][i-1][j-1]` of `lcs_dp` and `lcs_restore`, and
`match[s+i-1][e-j+1]`. -/
def lcs_cell_chk (seq_len s e i j : Nat) (mat : Tab2 Int) (st : Tab4 Int × Tab4 Int) :
    Option (Tab4 Int × Tab4 Int) :=
  if cap4 s e i j ∧ cap4 s e ((i : Int) - 1) j ∧ cap4 s e i ((j : Int) - 1) ∧
      cap4 s e ((i : Int) - 1) ((j : Int) - 1) ∧
      idxIn seq_len ((s : Int) + i - 1) ∧ idxIn seq_len ((e : Int) - j + 1) then
    some (lcs_cell s e i j mat st)
  else none

/-- The function `lcs(s, e, match)`, guarded. -/
def lcs_chk (seq_len s e : Nat) (mat : Tab2 Int) (st : Tab4 Int × Tab4 Int) :
    Option (Tab4 Int × Tab4 Int) :=
  forLeM 1 (e + 1 - s) (fun i st =>
    loopBreakM (fun j => i + j > e + 1 - s) (fun j st => lcs_cell_chk seq_len s e i j mat st)
      (List.range' 1 (e + 1 - s)) st) st

/-- The pre-computation loops of `solve`, guarded. -/
def lcs_phase_chk (mat : Tab2 Int) (seq_len : Nat) (st : Tab4 Int × Tab4 Int) :
    Option (Tab4 Int × Tab4 Int) :=
  forLeM 1 seq_len (fun i st => forLeM i seq_len (fun j st => lcs_chk seq_len i j mat st) st) st

/-- The body of the `k` loop of the hairpin loops: `hairpin[s][e]`, `hairpin_restore[s][e]`
and `lcs_dp[s][e][k][len-k]`. -/
def hairpin_step_chk (lcs_dp : Tab4 Int) (s e len k : Nat) (st : Tab2 Int × Tab2 Nat) :
    Option (Tab2 Int × Tab2 Nat) :=
  if cap2 s e ∧ cap4 s e k ((len : Int) - k) then some (hairpin_step lcs_dp s e len k st)
  else none

/-- The hairpin loops of `solve`, guarded. -/
def hairpin_phase_chk (lcs_dp : Tab4 Int) (seq_len : Nat) (st : Tab2 Int × Tab2 Nat) :
    Option (Tab2 Int × Tab2 Nat) :=
  forLeM 1 seq_len (fun s st =>
    forLeM (s + 1) seq_len (fun e st =>
      forLeM 0 (e + 1 - s) (fun k st => hairpin_step_chk lcs_dp s e (e + 1 - s) k st) st) st) st

/-- The body of the innermost pseudoknot loop: `pseudoknot[s][e]`,
`pseudoknot_restore[s][e]`, `lcs_dp[s][j][i-s][j-k]` and `lcs_dp[i][e][k-i+1][e-j]`. -/
def pseudoknot_step_chk (lcs_dp : Tab4 Int) (s e i j k : Nat) (st : Tab2 Int × Tab2 pk_info) :
    Option (Tab2 Int × Tab2 pk_info) :=
  if cap2 s e ∧ cap4 s j ((i : Int) - s) ((j : Int) - k) ∧
      cap4 i e ((k : Int) - i + 1) ((e : Int) - j) then
    some (pseudoknot_step lcs_dp s e i j k st)
  else none

/-- The pseudoknot loops of `solve`, guarded. -/
def pseudoknot_phase_chk (lcs_dp : Tab4 Int) (seq_len : Nat) (st : Tab2 Int × Tab2 pk_info) :
    Option (Tab2 Int × Tab2 pk_info) :=
  forLeM 1 seq_len (fun s st =>
    forLeM (s + 3) seq_len (fun e st =>
      forLtM (s + 1) e (fun i st =>
        forLtM (s + 1) e (fun j st =>
          forLtM i j (fun k st => pseudoknot_step_chk lcs_dp s e i j k st) st) st) st) st) st

/-- The body of the split loop: `structure[s][e]`, `structure_restore[s][e]`,
`structure[s][k]` and `structure[k+1][e]`; the two entries read must hold their final
value, given by `fin`. -/
def structure_step_chk (fin : Tab2 Int) (s e k : Nat) (st : Tab2 Int × Tab2 Int) :
    Option (Tab2 Int × Tab2 Int) :=
  if cap2 s e ∧ cap2 s k ∧ cap2 ((k : Int) + 1) e ∧
      st.1 s k = fin s k ∧ st.1 (k + 1) e = fin (k + 1) e then
    some (structure_step s e k st)
  else none

/-- The statements of the body of the structure loops before its split loop. -/
def structure_init (hairpin pseudoknot : Tab2 Int) (s e : Nat) (st : Tab2 Int × Tab2 Int) :
    Tab2 Int × Tab2 Int :=
  let sd := set2 st.1 s e (hairpin s e)
  let sr := set2 st.2 s e (-1)
  if sd s e < pseudoknot s e then (set2 sd s e (pseudoknot s e), set2 sr s e (-2))
  else (sd, sr)

/-- The body of the structure loops for the interval `[s, e]`, guarded. -/
def structure_cell_chk (fin hairpin pseudoknot : Tab2 Int) (s e : Nat)
    (st : Tab2 Int × Tab2 Int) : Option (Tab2 Int × Tab2 Int) :=
  if cap2 s e then
    forLtM s e (fun k st => structure_step_chk fin s e k st)
      (structure_init hairpin pseudoknot s e st)
  else none

/-- The structure loops of `solve`, guarded. -/
def structure_phase_chk (fin hairpin pseudoknot : Tab2 Int) (seq_len : Nat)
    (st : Tab2 Int × Tab2 Int) : Option (Tab2 Int × Tab2 Int) :=
  forLeM 2 seq_len (fun l st =>
    forLeM 1 (seq_len + 1 - l) (fun s st =>
      structure_cell_chk fin hairpin pseudoknot s (s + l - 1) st) st) st

/-- The function `solve(seq)` on zero-initialised globals, guarded; the last guard is for
`return structure[1][seq_len]`. -/
def solve_checked (cfg : Config) (seq : List Char) (seq_len : Nat) : Option Tables :=
  match build_match_chk cfg seq seq_len with
  | none => none
  | some mat =>
    match lcs_phase_chk mat seq_len (fun _ _ _ _ => 0, fun _ _ _ _ => 0) with
    | none => none
    | some l =>
      match hairpin_phase_chk l.1 seq_len (fun _ _ => 0, fun _ _ => 0) with
      | none => none
      | some h =>
        match pseudoknot_phase_chk l.1 seq_len (fun _ _ => 0, fun _ _ => ⟨0, 0, 0⟩) with
        | none => none
        | some p =>
          match structure_phase_chk (structure_phase h.1 p.1 seq_len (fun _ _ => 0, fun _ _ => 0)).1
              h.1 p.1 seq_len (fun _ _ => 0, fun _ _ => 0) with
          | none => none
          | some t =>
            if cap2 1 seq_len then
              some { mat := mat, lcs_dp := l.1, lcs_restore := l.2, pseudoknot := p.1,
                     pseudoknot_restore := p.2, hairpin := h.1, hairpin_restore := h.2,
                     structure_dp := t.1, structure_restore := t.2 }
            else none

/-- The loop of `get_lcs_element(s, e, l, r)`, guarded: the decision cell read lies in the
table and in the region that `lcs` wrote, that is, `lcs(s, e)` was called
(`1 ≤ s`, `e ≤ seq_len`) and `l, r ≥ 1`, `l + r ≤ e - s + 1`. -/
def get_lcs_loop_chk (T : Tables) (seq_len s e : Nat) :
    Nat → Nat → Nat → List (Nat × Nat) → Option (List (Nat × Nat))
  | 0, l, r, acc => if l ≠ 0 ∧ r ≠ 0 then none else some acc
  | fuel + 1, l, r, acc =>
    if l ≠ 0 ∧ r ≠ 0 then
      if cap4 s e l r ∧ 1 ≤ s ∧ e ≤ seq_len ∧ (l : Int) + r ≤ (e : Int) - s + 1 then
        if T.lcs_restore s e l r = 0 then get_lcs_loop_chk T seq_len s e fuel (l - 1) r acc
        else if T.lcs_restore s e l r = 1 then get_lcs_loop_chk T seq_len s e fuel l (r - 1) acc
        else get_lcs_loop_chk T seq_len s e fuel (l - 1) (r - 1) (acc ++ [(s + l - 1, e + 1 - r)])
      else none
    else some acc

/-- The function `get_lcs_element(s, e, l, r)`, guarded. -/
def get_lcs_element_chk (T : Tables) (seq_len s e l r : Nat) (acc : List (Nat × Nat)) :
    Option (List (Nat × Nat)) :=
  get_lcs_loop_chk T seq_len s e (l + r) l r acc

/-- The function `restore(l, r)`, guarded: `structure_restore[l][r]`, `hairpin_restore[l][r]`
and `pseudoknot_restore[l][r]` lie in the tables; the arm sizes handed to
`get_lcs_element` are not negative; the pseudoknot triple is read only where it was
recorded (`pseudoknot_restore[l][r]` is assigned exactly when `pseudoknot[l][r]` is raised
above its initial 0); a recursive call is on an interval of length at least 2 that is
strictly shorter than `[l, r]`. -/
def restore_checked (T : Tables) (seq_len : Nat) : Nat → Nat → Nat → List (Nat × Nat) →
    Option (List (Nat × Nat))
  | 0, _, _, _ => none
  | fuel + 1, l, r, acc =>
    if cap2 l r then
      if T.structure_restore l r = -1 then
        if 0 ≤ (r : Int) - l + 1 - T.hairpin_restore l r then
          get_lcs_element_chk T seq_len l r (T.hairpin_restore l r)
            (r + 1 - l - T.hairpin_restore l r) acc
        else none
      else if T.structure_restore l r = -2 then
        let p := T.pseudoknot_restore l r
        if 0 < T.pseudoknot l r ∧ 0 ≤ (p.i : Int) - l ∧ 0 ≤ (p.j : Int) - p.k ∧
            0 ≤ (p.k : Int) - p.i + 1 ∧ 0 ≤ (r : Int) - p.j then
          match get_lcs_element_chk T seq_len l p.j (p.i - l) (p.j - p.k) acc with
          | none => none
          | some acc1 => get_lcs_element_chk T seq_len p.i r (p.k + 1 - p.i) (r - p.j) acc1
        else none
      else
        if 0 ≤ T.structure_restore l r then
          let k := (T.structure_restore l r).toNat
          match (if l + 1 ≤ k ∧ l ≥ 1 then
              (if 2 ≤ (k : Int) - l + 1 ∧ (k : Int) - l + 1 < (r : Int) - l + 1 then
                restore_checked T seq_len fuel l k acc else none)
            else some acc) with
          | none => none
          | some acc1 =>
            if k + 2 ≤ r ∧ k + 1 ≥ 1 then
              (if 2 ≤ (r : Int) - (k + 1) + 1 ∧ (r : Int) - (k + 1) + 1 < (r : Int) - l + 1 then
                restore_checked T seq_len fuel (k + 1) r acc1 else none)
            else some acc1
        else none
    else none

/-- The function `main` with the guarded `solve` and `restore`. -/
def main_checked (cfg : Config) (input : List Char) : Option Output :=
  match solve_checked cfg (' ' :: input) input.length with
  | none => none
  | some T =>
    match restore_checked T input.length (input.length + 1) 1 input.length [] with
    | none => none
    | some restored =>
      let out := get_dot_braket_notation input.length restored
      some ⟨T.structure_dp 1 input.length, out.1, out.2⟩

/-! ## The source with 32-bit scores

The program once more, with the three sums that `solve` forms computed as the `int` of
the source: the exact sum reduced to the 32-bit two's-complement range. (Signed overflow
is undefined in the language; the reduction is what the two's-complement targets of the
source compute, and whatever an overflowing run does, the value that `solve` returns is
an `int`.) The match-matrix loops and the hairpin loops form no sum and are shared with
the embedding above. -/

/-- The 32-bit two's-complement value of the integer `x`. -/
def wrap32 (x : Int) : Int := (x + 2147483648) % 4294967296 - 2147483648

/-- The sum `a + b` of two `int` values, as an `int`. -/
def add32 (a b : Int) : Int := wrap32 (a + b)

/-- The body of the inner loop of `lcs` after the `break` test, with `int` sums. -/
def lcs_cell32 (s e i j : Nat) (mat : Tab2 Int) (st : Tab4 Int × Tab4 Int) :
    Tab4 Int × Tab4 Int :=
  let dp0 := set4 st.1 s e i j (st.1 s e (i - 1) j)
  let rs0 := set4 st.2 s e i j 0
  let st1 : Tab4 Int × Tab4 Int :=
    if dp0 s e i j < dp0 s e i (j - 1) then
      (set4 dp0 s e i j (dp0 s e i (j - 1)), set4 rs0 s e i j 1)
    else (dp0, rs0)
  if st1.1 s e i j < add32 (st1.1 s e (i - 1) (j - 1)) (mat (s + i - 1) (e + 1 - j)) then
    (set4 st1.1 s e i j (add32 (st1.1 s e (i - 1) (j - 1)) (mat (s + i - 1) (e + 1 - j))),
      set4 st1.2 s e i j 2)
  else st1

/-- The function `lcs(s, e, match)` with `int` sums. -/
def lcs32 (s e : Nat) (mat : Tab2 Int) (st : Tab4 Int × Tab4 Int) : Tab4 Int × Tab4 Int :=
  let len := e + 1 - s
  forLe 1 len (fun i st =>
    loopBreak (fun j st => if i + j > len then none else some (lcs_cell32 s e i j mat st))
      (List.range' 1 len) st) st

/-- The pre-computation loops of `solve` with `int` sums. -/
def lcs_phase32 (mat : Tab2 Int) (seq_len : Nat) (st : Tab4 Int × Tab4 Int) :
    Tab4 Int × Tab4 Int :=
  forLe 1 seq_len (fun i st => forLe i seq_len (fun j st => lcs32 i j mat st) st) st

/-- The body of the innermost pseudoknot loop with `int` sums. -/
def pseudoknot_step32 (lcs_dp : Tab4 Int) (s e i j k : Nat) (st : Tab2 Int × Tab2 pk_info) :
    Tab2 Int × Tab2 pk_info :=
  if st.1 s e < add32 (lcs_dp s j (i - s) (j - k)) (lcs_dp i e (k + 1 - i) (e - j)) then
    (set2 st.1 s e (add32 (lcs_dp s j (i - s) (j - k)) (lcs_dp i e (k + 1 - i) (e - j))),
      set2 st.2 s e ⟨i, k, j⟩)
  else st

/-- The pseudoknot loops of `solve` with `int` sums. -/
def pseudoknot_phase32 (lcs_dp : Tab4 Int) (seq_len : Nat) (st : Tab2 Int × Tab2 pk_info) :
    Tab2 Int × Tab2 pk_info :=
  forLe 1 seq_len (fun s st =>
    forLe (s + 3) seq_len (fun e st =>
      forLt (s + 1) e (fun i st =>
        forLt (s + 1) e (fun j st =>
          forLt i j (fun k st => pseudoknot_step32 lcs_dp s e i j k st) st) st) st) st) st

/-- The body of the split loop with `int` sums. -/
def structure_step32 (s e k : Nat) (st : Tab2 Int × Tab2 Int) : Tab2 Int × Tab2 Int :=
  if st.1 s e < add32 (st.1 s k) (st.1 (k + 1) e) then
    (set2 st.1 s e (add32 (st.1 s k) (st.1 (k + 1) e)), set2 st.2 s e (k : Int))
  else st

/-- The body of the structure loops for the interval `[s, e]` with `int` sums. -/
def structure_cell32 (hairpin pseudoknot : Tab2 Int) (s e : Nat) (st : Tab2 Int × Tab2 Int) :
    Tab2 Int × Tab2 Int :=
  let sd := set2 st.1 s e (hairpin s e)
  let sr := set2 st.2 s e (-1)
  let st1 : Tab2 Int × Tab2 Int :=
    if sd s e < pseudoknot s e then (set2 sd s e (pseudoknot s e), set2 sr s e (-2))
    else (sd, sr)
  forLt s e (fun k st => structure_step32 s e k st) st1

/-- The structure loops of `solve` with `int` sums. -/
def structure_phase32 (hairpin pseudoknot : Tab2 Int) (seq_len : Nat)
    (st : Tab2 Int × Tab2 Int) : Tab2 Int × Tab2 Int :=
  forLe 2 seq_len (fun l st =>
    forLe 1 (seq_len + 1 - l) (fun s st =>
      structure_cell32 hairpin pseudoknot s (s + l - 1) st) st) st

/-- The tables after `solve(seq)` has run on zero-initialised globals, with `int` sums. -/
def solve_tables32 (cfg : Config) (seq : List Char) (seq_len : Nat) : Tables :=
  let mat := build_match cfg seq seq_len
  let l := lcs_phase32 mat seq_len (fun _ _ _ _ => 0, fun _ _ _ _ => 0)
  let h := hairpin_phase l.1 seq_len (fun _ _ => 0, fun _ _ => 0)
  let p := pseudoknot_phase32 l.1 seq_len (fun _ _ => 0, fun _ _ => ⟨0, 0, 0⟩)
  let t := structure_phase32 h.1 p.1 seq_len (fun _ _ => 0, fun _ _ => 0)
  { mat := mat, lcs_dp := l.1, lcs_restore := l.2, pseudoknot := p.1,
    pseudoknot_restore := p.2, hairpin := h.1, hairpin_restore := h.2,
    structure_dp := t.1, structure_restore := t.2 }

/-- The `int` returned by `solve(seq)`: `structure[1][seq_len]`. -/
def solve32 (cfg : Config) (seq : List Char) (seq_len : Nat) : Int :=
  (solve_tables32 cfg seq seq_len).structure_dp 1 seq_len

/-- The `int` returned by the call `solve(seq)` of `main` on the input token `input`. -/
def run_score32 (cfg : Config) (input : List Char) : Int :=
  solve32 cfg (' ' :: input) input.length

/-- The entries of the alignment table lie between 0 and `M` times the first arm
length. -/
def lcsBounded (M : Int) (st : Tab4 Int × Tab4 Int) : Prop :=
  ∀ a b x y, 0 ≤ st.1 a b x y ∧ st.1 a b x y ≤ M * (x : Int)

/-- The entries of a table of intervals lie between 0 and `M` times the interval
length. -/
def tabBounded (M : Int) (t : Tab2 Int) : Prop :=
  ∀ a b, 0 ≤ t a b ∧ t a b ≤ M * ((b + 1 - a : Nat) : Int)

/-! # Part II: theorems -/

/-! ## Generic facts about the loops -/

theorem foldl_range'_inv {σ : Type} (f : σ → Nat → σ) (P : Nat → σ → Prop) (a : Nat) :
    ∀ (n : Nat) (st : σ), P a st →
      (∀ i st, a ≤ i → i < a + n → P i st → P (i + 1) (f st i)) →
      P (a + n) ((List.range' a n).foldl f st) := by
  intro n
  induction n with
  | zero => intro st h0 _; simpa using h0
  | succ n ih =>
    intro st h0 hstep
    rw [List.range'_concat, List.foldl_append]
    simp only [List.foldl_cons, List.foldl_nil, one_mul]
    have h1 := ih st h0 (fun i st hi hlt hP => hstep i st hi (by omega) hP)
    exact hstep (a + n) _ (by omega) (by omega) h1

theorem forLe_inv {σ : Type} (P : Nat → σ → Prop) (a b : Nat) (body : Nat → σ → σ) (st : σ)
    (hab : a ≤ b + 1) (h0 : P a st)
    (hstep : ∀ i st, a ≤ i → i ≤ b → P i st → P (i + 1) (body i st)) :
    P (b + 1) (forLe a b body st) := by
  have h := foldl_range'_inv (fun st i => body i st) P a (b + 1 - a) st h0
    (fun i st hi hlt hP => hstep i st hi (by omega) hP)
  have e : a + (b + 1 - a) = b + 1 := by omega
  rw [e] at h
  exact h

theorem forLe_empty {σ : Type} (a b : Nat) (body : Nat → σ → σ) (st : σ) (hab : b < a) :
    forLe a b body st = st := by
  have e : b + 1 - a = 0 := by omega
  simp [forLe, e]

theorem forLt_inv {σ : Type} (P : Nat → σ → Prop) (a b : Nat) (body : Nat → σ → σ) (st : σ)
    (hab : a ≤ b) (h0 : P a st)
    (hstep : ∀ i st, a ≤ i → i < b → P i st → P (i + 1) (body i st)) :
    P b (forLt a b body st) := by
  have h := foldl_range'_inv (fun st i => body i st) P a (b - a) st h0
    (fun i st hi hlt hP => hstep i st hi (by omega) hP)
  have e : a + (b - a) = b := by omega
  rw [e] at h
  exact h

theorem forLt_empty {σ : Type} (a b : Nat) (body : Nat → σ → σ) (st : σ) (hab : b ≤ a) :
    forLt a b body st = st := by
  have e : b - a = 0 := by omega
  simp [forLt, e]

/-- A closed form `g` of the state reached by a `for (i = a; i <= b; i++)` loop. -/
theorem forLe_eq {σ : Type} (a b : Nat) (body : Nat → σ → σ) (st : σ) (g : Nat → σ)
    (hab : a ≤ b + 1) (h0 : g a = st)
    (hstep : ∀ i, a ≤ i → i ≤ b → body i (g i) = g (i + 1)) :
    forLe a b body st = g (b + 1) :=
  forLe_inv (fun i st => st = g i) a b body st hab h0.symm
    (fun i st hi hb hP => by subst hP; exact hstep i hi hb)

/-- A closed form `g` of the state reached by a `for (i = a; i < b; i++)` loop. -/
theorem forLt_eq {σ : Type} (a b : Nat) (body : Nat → σ → σ) (st : σ) (g : Nat → σ)
    (hab : a ≤ b) (h0 : g a = st)
    (hstep : ∀ i, a ≤ i → i < b → body i (g i) = g (i + 1)) :
    forLt a b body st = g b :=
  forLt_inv (fun i st => st = g i) a b body st hab h0.symm
    (fun i st hi hb hP => by subst hP; exact hstep i hi hb)

/-- A loop that breaks as soon as `c j` holds runs the body on the indices before. -/
theorem loopBreak_range' {σ : Type} (c : Nat → Prop) [DecidablePred c] (g : Nat → σ → σ) :
    ∀ (m a n : Nat) (st : σ), m ≤ n → (∀ j, a ≤ j → j < a + m → ¬ c j) →
      (m < n → c (a + m)) →
      loopBreak (fun j st => if c j then none else some (g j st)) (List.range' a n) st =
        (List.range' a m).foldl (fun st j => g j st) st := by
  intro m
  induction m with
  | zero =>
    intro a n st _ _ h2
    cases n with
    | zero => simp [loopBreak]
    | succ n =>
      have hc : c a := by simpa using h2 (by omega)
      simp [List.range'_succ, loopBreak, hc]
  | succ m ih =>
    intro a n st hmn h1 h2
    cases n with
    | zero => omega
    | succ n =>
      have hc : ¬ c a := h1 a (by omega) (by omega)
      rw [List.range'_succ, List.range'_succ]
      simp only [loopBreak, hc, if_false, List.foldl_cons]
      apply ih (a + 1) n (g a st) (by omega)
      · intro j hj hlt; exact h1 j (by omega) (by omega)
      · intro hlt
        have := h2 (by omega)
        have e : a + 1 + m = a + (m + 1) := by omega
        rw [e]; exact this

/-! ## The match matrix in closed form -/

theorem symScore_comm (cfg : Config) (a b : Char) : symScore cfg a b = symScore cfg b a := by
  unfold symScore
  have h1 : ((a = 'G' ∧ b = 'U') ∨ (a = 'U' ∧ b = 'G')) ↔
      ((b = 'G' ∧ a = 'U') ∨ (b = 'U' ∧ a = 'G')) := by tauto
  have h2 : ((a = 'A' ∧ b = 'U') ∨ (a = 'U' ∧ b = 'A') ∨ (a = 'C' ∧ b = 'G') ∨
      (a = 'G' ∧ b = 'C')) ↔ ((b = 'A' ∧ a = 'U') ∨ (b = 'U' ∧ a = 'A') ∨ (b = 'C' ∧ a = 'G') ∨
      (b = 'G' ∧ a = 'C')) := by tauto
  simp only [h1, h2]

/-- The effect of `match_cell` on a matrix that is still zero at `(i, j)` and `(j, i)`. -/
theorem match_cell_eq (cfg : Config) (seq : List Char) (i j : Nat) (m : Tab2 Int)
    (h1 : m i j = 0) (h2 : m j i = 0) :
    match_cell cfg seq i j m =
      set2 (set2 m j i (symScore cfg (charAt seq i) (charAt seq j))) i j
        (symScore cfg (charAt seq i) (charAt seq j)) := by
  have key : ∀ v : Int, v = 0 → set2 (set2 m j i v) i j v = m := by
    intro v hv; subst hv
    funext x y
    simp only [set2]
    split_ifs with h3 h4
    · rw [h3.1, h3.2, h1]
    · rw [h4.1, h4.2, h2]
    · rfl
  unfold match_cell symScore
  cases hw : cfg.isWobblePairAllowed
  · simp only [Bool.false_eq_true, false_and, if_false]
    split_ifs with h
    · rfl
    · exact (key 0 rfl).symm
  · simp only [true_and, if_true]
    by_cases hg : (charAt seq i = 'G' ∧ charAt seq j = 'U') ∨
        (charAt seq i = 'U' ∧ charAt seq j = 'G')
    · simp only [hg, if_true]
      split_ifs with h
      · funext x y
        simp only [set2]
        split_ifs <;> rfl
      · rfl
    · simp only [hg, if_false]
      split_ifs with h
      · rfl
      · exact (key 0 rfl).symm

/-- The match-matrix loops of `solve` compute `matchVal`. -/
theorem build_match_eq (cfg : Config) (seq : List Char) (n : Nat) :
    build_match cfg seq n = matchVal cfg seq n := by
  unfold build_match
  -- closed form after the rows `1 .. i - 1`
  let G : Nat → Tab2 Int := fun i x y =>
    if 1 ≤ x ∧ 1 ≤ y ∧ x ≤ n ∧ y ≤ n ∧ x ≠ y ∧ (x < i ∨ y < i) then
      symScore cfg (charAt seq x) (charAt seq y) else 0
  have hG : forLe 1 n (fun i m => forLe (i + 1) n (fun j m => match_cell cfg seq i j m) m)
      (fun _ _ => 0) = G (n + 1) := by
    apply forLe_eq 1 n _ _ G (by omega)
    · funext x y
      simp only [G]
      split_ifs with h
      · omega
      · rfl
    · intro i hi hin
      -- closed form after the columns `i + 1 .. j - 1` of row `i`
      let g : Nat → Tab2 Int := fun j x y =>
        if 1 ≤ x ∧ 1 ≤ y ∧ x ≤ n ∧ y ≤ n ∧ x ≠ y ∧
            (x < i ∨ y < i ∨ (x = i ∧ y < j) ∨ (y = i ∧ x < j)) then
          symScore cfg (charAt seq x) (charAt seq y) else 0
      have hg : forLe (i + 1) n (fun j m => match_cell cfg seq i j m) (G i) = g (n + 1) := by
        apply forLe_eq (i + 1) n _ _ g (by omega)
        · funext x y
          simp only [g, G]
          congr 1
          apply propext
          constructor
          · rintro ⟨h1, h2, h3, h4, h5, h6⟩
            refine ⟨h1, h2, h3, h4, h5, ?_⟩
            omega
          · rintro ⟨h1, h2, h3, h4, h5, h6⟩
            refine ⟨h1, h2, h3, h4, h5, ?_⟩
            omega
        · intro j hj hjn
          rw [match_cell_eq]
          · funext x y
            simp only [g, set2]
            by_cases hxy : x = i ∧ y = j
            · obtain ⟨rfl, rfl⟩ := hxy
              rw [if_pos ⟨rfl, rfl⟩, if_pos]
              omega
            · rw [if_neg hxy]
              by_cases hyx : x = j ∧ y = i
              · obtain ⟨rfl, rfl⟩ := hyx
                rw [if_pos ⟨rfl, rfl⟩, if_pos, symScore_comm]
                omega
              · rw [if_neg hyx]
                congr 1
                apply propext
                constructor
                · rintro ⟨h1, h2, h3, h4, h5, h6⟩
                  refine ⟨h1, h2, h3, h4, h5, ?_⟩
                  omega
                · rintro ⟨h1, h2, h3, h4, h5, h6⟩
                  refine ⟨h1, h2, h3, h4, h5, ?_⟩
                  omega
          · simp only [g]
            rw [if_neg]; omega
          · simp only [g]
            rw [if_neg]; omega
      rw [hg]
      funext x y
      simp only [g, G]
      congr 1
      apply propext
      constructor
      · rintro ⟨h1, h2, h3, h4, h5, h6⟩
        refine ⟨h1, h2, h3, h4, h5, ?_⟩
        omega
      · rintro ⟨h1, h2, h3, h4, h5, h6⟩
        refine ⟨h1, h2, h3, h4, h5, ?_⟩
        omega
  rw [hG]
  funext x y
  simp only [G, matchVal]
  congr 1
  apply propext
  constructor
  · rintro ⟨h1, h2, h3, h4, h5, h6⟩
    exact ⟨h1, h2, h3, h4, h5⟩
  · rintro ⟨h1, h2, h3, h4, h5⟩
    refine ⟨h1, h2, h3, h4, h5, ?_⟩
    omega

/-! ## The alignment table in closed form -/

theorem lcsVal_zero_left (mat : Tab2 Int) (s e j : Nat) : lcsVal mat s e 0 j = 0 := by
  simp [lcsVal]

theorem lcsVal_zero_right (mat : Tab2 Int) (s e i : Nat) : lcsVal mat s e i 0 = 0 := by
  cases i <;> simp [lcsVal]

theorem lcsVal_step (mat : Tab2 Int) (s e i j : Nat) (hi : 1 ≤ i) (hj : 1 ≤ j) :
    lcsVal mat s e i j =
      max (max (lcsVal mat s e (i - 1) j) (lcsVal mat s e i (j - 1)))
        (lcsVal mat s e (i - 1) (j - 1) + mat (s + i - 1) (e + 1 - j)) := by
  obtain ⟨i, rfl⟩ : ∃ a, i = a + 1 := ⟨i - 1, by omega⟩
  obtain ⟨j, rfl⟩ : ∃ b, j = b + 1 := ⟨j - 1, by omega⟩
  have e1 : e + 1 - (j + 1) = e - j := by omega
  have e2 : s + (i + 1) - 1 = s + i := by omega
  simp only [lcsVal, Nat.add_sub_cancel, e1, e2]

theorem set4_set4 {α : Type} (t : Tab4 α) (a b c d : Nat) (v w : α) :
    set4 (set4 t a b c d v) a b c d w = set4 t a b c d w := by
  funext x y z u
  simp only [set4]
  split_ifs <;> rfl

theorem set4_same {α : Type} (t : Tab4 α) (a b c d : Nat) (v : α) :
    set4 t a b c d v a b c d = v := by
  simp [set4]

theorem set4_other {α : Type} (t : Tab4 α) (a b c d x y z u : Nat) (v : α)
    (h : ¬ (x = a ∧ y = b ∧ z = c ∧ u = d)) : set4 t a b c d v x y z u = t x y z u := by
  simp only [set4, if_neg h]

/-- The effect of the body of `lcs` on the cell `(i, j)`. -/
theorem lcs_cell_eq (s e i j : Nat) (mat : Tab2 Int) (st : Tab4 Int × Tab4 Int)
    (hi : 1 ≤ i) (hj : 1 ≤ j) :
    lcs_cell s e i j mat st =
      (set4 st.1 s e i j
          (max (max (st.1 s e (i - 1) j) (st.1 s e i (j - 1)))
            (st.1 s e (i - 1) (j - 1) + mat (s + i - 1) (e + 1 - j))),
        set4 st.2 s e i j
          (if max (st.1 s e (i - 1) j) (st.1 s e i (j - 1)) <
              st.1 s e (i - 1) (j - 1) + mat (s + i - 1) (e + 1 - j) then 2
            else if st.1 s e (i - 1) j < st.1 s e i (j - 1) then 1 else 0)) := by
  have n1 : ¬ (s = s ∧ e = e ∧ i = i ∧ j - 1 = j) := by omega
  have n2 : ¬ (s = s ∧ e = e ∧ i - 1 = i ∧ j - 1 = j) := by omega
  unfold lcs_cell
  simp only [set4_same, set4_other _ _ _ _ _ _ _ _ _ _ n1, set4_other _ _ _ _ _ _ _ _ _ _ n2,
    set4_set4]
  by_cases h1 : st.1 s e (i - 1) j < st.1 s e i (j - 1)
  · simp only [h1, if_true, set4_same, set4_other _ _ _ _ _ _ _ _ _ _ n2, set4_set4]
    have m1 : max (st.1 s e (i - 1) j) (st.1 s e i (j - 1)) = st.1 s e i (j - 1) :=
      max_eq_right (le_of_lt h1)
    rw [m1]
    by_cases h2 : st.1 s e i (j - 1) < st.1 s e (i - 1) (j - 1) + mat (s + i - 1) (e + 1 - j)
    · simp only [h2, if_true, max_eq_right (le_of_lt h2)]
    · simp only [h2, if_false, max_eq_left (not_lt.mp h2)]
  · simp only [h1, if_false, set4_same, set4_other _ _ _ _ _ _ _ _ _ _ n2, set4_set4]
    have m1 : max (st.1 s e (i - 1) j) (st.1 s e i (j - 1)) = st.1 s e (i - 1) j :=
      max_eq_left (not_lt.mp h1)
    rw [m1]
    by_cases h2 : st.1 s e (i - 1) j < st.1 s e (i - 1) (j - 1) + mat (s + i - 1) (e + 1 - j)
    · simp only [h2, if_true, max_eq_right (le_of_lt h2)]
    · simp only [h2, if_false, max_eq_left (not_lt.mp h2)]

theorem lcsFill_congr (mat : Tab2 Int) (s e i0 j0 i1 j1 : Nat) (st : Tab4 Int × Tab4 Int)
    (h : ∀ x y, 1 ≤ x → 1 ≤ y → x + y ≤ e + 1 - s →
      ((x < i0 ∨ (x = i0 ∧ y < j0)) ↔ (x < i1 ∨ (x = i1 ∧ y < j1)))) :
    lcsFill mat s e i0 j0 st = lcsFill mat s e i1 j1 st := by
  have key : ∀ a b x y : Nat,
      (a = s ∧ b = e ∧ 1 ≤ x ∧ 1 ≤ y ∧ x + y ≤ e + 1 - s ∧ (x < i0 ∨ (x = i0 ∧ y < j0))) =
      (a = s ∧ b = e ∧ 1 ≤ x ∧ 1 ≤ y ∧ x + y ≤ e + 1 - s ∧ (x < i1 ∨ (x = i1 ∧ y < j1))) := by
    intro a b x y
    apply propext
    constructor
    · rintro ⟨h1, h2, h3, h4, h5, h6⟩
      exact ⟨h1, h2, h3, h4, h5, (h x y h3 h4 h5).1 h6⟩
    · rintro ⟨h1, h2, h3, h4, h5, h6⟩
      exact ⟨h1, h2, h3, h4, h5, (h x y h3 h4 h5).2 h6⟩
  unfold lcsFill
  congr 1
  · funext a b x y
    simp only [key a b x y]
  · funext a b x y
    simp only [key a b x y]

/-- The value read by `lcs` at a cell of the closed form that is filled or on the border. -/
theorem lcsFill_read (mat : Tab2 Int) (s e i0 j0 x y : Nat) (st : Tab4 Int × Tab4 Int)
    (hz : ∀ i j, i = 0 ∨ j = 0 → st.1 s e i j = 0)
    (h : x = 0 ∨ y = 0 ∨ (x + y ≤ e + 1 - s ∧ (x < i0 ∨ (x = i0 ∧ y < j0)))) :
    (lcsFill mat s e i0 j0 st).1 s e x y = lcsVal mat s e x y := by
  simp only [lcsFill]
  split_ifs with h1
  · rfl
  · rcases Nat.eq_zero_or_pos x with hx | hx
    · subst hx; rw [lcsVal_zero_left]; exact hz 0 y (Or.inl rfl)
    · rcases Nat.eq_zero_or_pos y with hy | hy
      · subst hy; rw [lcsVal_zero_right]; exact hz x 0 (Or.inr rfl)
      · exfalso; apply h1
        rcases h with h | h | h
        · omega
        · omega
        · exact ⟨trivial, trivial, hx, hy, h.1, h.2⟩

theorem lcs_cell_fill (mat : Tab2 Int) (s e i j : Nat) (st : Tab4 Int × Tab4 Int)
    (hz : ∀ i j, i = 0 ∨ j = 0 → st.1 s e i j = 0)
    (hi : 1 ≤ i) (hj : 1 ≤ j) (hij : i + j ≤ e + 1 - s) :
    lcs_cell s e i j mat (lcsFill mat s e i j st) = lcsFill mat s e i (j + 1) st := by
  rw [lcs_cell_eq _ _ _ _ _ _ hi hj]
  rw [lcsFill_read mat s e i j (i - 1) j st hz (by omega),
    lcsFill_read mat s e i j i (j - 1) st hz (by omega),
    lcsFill_read mat s e i j (i - 1) (j - 1) st hz (by omega)]
  rw [← lcsVal_step mat s e i j hi hj]
  have hd : (if max (lcsVal mat s e (i - 1) j) (lcsVal mat s e i (j - 1)) <
      lcsVal mat s e (i - 1) (j - 1) + mat (s + i - 1) (e + 1 - j) then (2 : Int)
      else if lcsVal mat s e (i - 1) j < lcsVal mat s e i (j - 1) then 1 else 0) =
      lcsDec mat s e i j := rfl
  rw [hd]
  unfold lcsFill
  congr 1
  · funext a b x y
    simp only [set4]
    by_cases hc : a = s ∧ b = e ∧ x = i ∧ y = j
    · obtain ⟨rfl, rfl, rfl, rfl⟩ := hc
      rw [if_pos ⟨rfl, rfl, rfl, rfl⟩, if_pos]
      exact ⟨rfl, rfl, hi, hj, hij, Or.inr ⟨rfl, by omega⟩⟩
    · rw [if_neg hc]
      congr 1
      apply propext
      constructor
      · rintro ⟨h1, h2, h3, h4, h5, h6⟩
        refine ⟨h1, h2, h3, h4, h5, ?_⟩
        omega
      · rintro ⟨h1, h2, h3, h4, h5, h6⟩
        refine ⟨h1, h2, h3, h4, h5, ?_⟩
        omega
  · funext a b x y
    simp only [set4]
    by_cases hc : a = s ∧ b = e ∧ x = i ∧ y = j
    · obtain ⟨rfl, rfl, rfl, rfl⟩ := hc
      rw [if_pos ⟨rfl, rfl, rfl, rfl⟩, if_pos]
      exact ⟨rfl, rfl, hi, hj, hij, Or.inr ⟨rfl, by omega⟩⟩
    · rw [if_neg hc]
      congr 1
      apply propext
      constructor
      · rintro ⟨h1, h2, h3, h4, h5, h6⟩
        refine ⟨h1, h2, h3, h4, h5, ?_⟩
        omega
      · rintro ⟨h1, h2, h3, h4, h5, h6⟩
        refine ⟨h1, h2, h3, h4, h5, ?_⟩
        omega

/-- The tables after `lcs(s, e, match)`: the cells of the region `i, j ≥ 1`,
`i + j ≤ len` of the interval hold the recurrence, every other cell is unchanged. -/
theorem lcs_eq (mat : Tab2 Int) (s e : Nat) (st : Tab4 Int × Tab4 Int)
    (hz : ∀ i j, i = 0 ∨ j = 0 → st.1 s e i j = 0) :
    lcs s e mat st = lcsFill mat s e (e + 1 - s + 1) 0 st := by
  unfold lcs
  simp only
  have h0 : lcsFill mat s e 1 0 st = st := by
    unfold lcsFill
    apply Prod.ext
    · funext a b x y
      simp only
      rw [if_neg]; omega
    · funext a b x y
      simp only
      rw [if_neg]; omega
  refine forLe_eq 1 (e + 1 - s) _ st (fun i => lcsFill mat s e i 0 st) (by omega) h0 ?_
  intro i hi hin
  simp only
  rw [loopBreak_range' (fun j => i + j > e + 1 - s) (fun j st => lcs_cell s e i j mat st)
    (e + 1 - s - i) 1 (e + 1 - s) _ (by omega) (by intro j h1 h2; omega) (by intro h1; omega)]
  have h2 := forLe_eq 1 (e + 1 - s - i) (fun j st => lcs_cell s e i j mat st)
    (lcsFill mat s e i 0 st) (fun j => lcsFill mat s e i j st) (by omega)
    (by apply lcsFill_congr; intro x y h1 h2 h3; omega)
    (by intro j hj hjn; exact lcs_cell_fill mat s e i j st hz (by omega) hj (by omega))
  have h3 : forLe 1 (e + 1 - s - i) (fun j st => lcs_cell s e i j mat st)
      (lcsFill mat s e i 0 st) =
      List.foldl (fun st j => lcs_cell s e i j mat st) (lcsFill mat s e i 0 st)
        (List.range' 1 (e + 1 - s - i)) := by
    simp [forLe]
  rw [← h3, h2]
  apply lcsFill_congr
  intro x y h1 h2 h3
  omega

theorem lcsUpTo_congr (mat : Tab2 Int) (n i0 j0 i1 j1 : Nat)
    (h : ∀ a b, 1 ≤ a → a ≤ b → b ≤ n →
      ((a < i0 ∨ (a = i0 ∧ b < j0)) ↔ (a < i1 ∨ (a = i1 ∧ b < j1)))) :
    lcsUpTo mat n i0 j0 = lcsUpTo mat n i1 j1 := by
  have key : ∀ a b x y : Nat,
      (1 ≤ a ∧ a ≤ b ∧ b ≤ n ∧ (a < i0 ∨ (a = i0 ∧ b < j0)) ∧
          1 ≤ x ∧ 1 ≤ y ∧ x + y ≤ b + 1 - a) ↔
      (1 ≤ a ∧ a ≤ b ∧ b ≤ n ∧ (a < i1 ∨ (a = i1 ∧ b < j1)) ∧
          1 ≤ x ∧ 1 ≤ y ∧ x + y ≤ b + 1 - a) := by
    intro a b x y
    constructor
    · rintro ⟨h1, h2, h3, h4, h5⟩
      exact ⟨h1, h2, h3, (h a b h1 h2 h3).1 h4, h5⟩
    · rintro ⟨h1, h2, h3, h4, h5⟩
      exact ⟨h1, h2, h3, (h a b h1 h2 h3).2 h4, h5⟩
  unfold lcsUpTo
  congr 1
  · funext a b x y
    exact if_congr (key a b x y) rfl rfl
  · funext a b x y
    exact if_congr (key a b x y) rfl rfl

theorem lcs_upTo (mat : Tab2 Int) (n i j : Nat) (hi : 1 ≤ i) (hij : i ≤ j) (hj : j ≤ n) :
    lcs i j mat (lcsUpTo mat n i j) = lcsUpTo mat n i (j + 1) := by
  rw [lcs_eq]
  · unfold lcsFill lcsUpTo
    congr 1
    · funext a b x y
      simp only
      by_cases hc : a = i ∧ b = j
      · obtain ⟨rfl, rfl⟩ := hc
        by_cases hr : 1 ≤ x ∧ 1 ≤ y ∧ x + y ≤ b + 1 - a
        · rw [if_pos, if_pos]
          · exact ⟨hi, hij, hj, by omega, hr⟩
          · exact ⟨rfl, rfl, hr.1, hr.2.1, hr.2.2, by omega⟩
        · rw [if_neg, if_neg, if_neg]
          · rintro ⟨h1, h2, h3, h4, h5⟩; exact hr h5
          · rintro ⟨h1, h2, h3, h4, h5⟩; omega
          · rintro ⟨h1, h2, h3, h4, h5, h6⟩; exact hr ⟨h3, h4, h5⟩
      · rw [if_neg]
        · apply if_congr _ rfl rfl
          constructor
          · rintro ⟨h1, h2, h3, h4, h5⟩
            exact ⟨h1, h2, h3, by omega, h5⟩
          · rintro ⟨h1, h2, h3, h4, h5⟩
            exact ⟨h1, h2, h3, by omega, h5⟩
        · rintro ⟨h1, h2, h3⟩; exact hc ⟨h1, h2⟩
    · funext a b x y
      simp only
      by_cases hc : a = i ∧ b = j
      · obtain ⟨rfl, rfl⟩ := hc
        by_cases hr : 1 ≤ x ∧ 1 ≤ y ∧ x + y ≤ b + 1 - a
        · rw [if_pos, if_pos]
          · exact ⟨hi, hij, hj, by omega, hr⟩
          · exact ⟨rfl, rfl, hr.1, hr.2.1, hr.2.2, by omega⟩
        · rw [if_neg, if_neg, if_neg]
          · rintro ⟨h1, h2, h3, h4, h5⟩; exact hr h5
          · rintro ⟨h1, h2, h3, h4, h5⟩; omega
          · rintro ⟨h1, h2, h3, h4, h5, h6⟩; exact hr ⟨h3, h4, h5⟩
      · rw [if_neg]
        · apply if_congr _ rfl rfl
          constructor
          · rintro ⟨h1, h2, h3, h4, h5⟩
            exact ⟨h1, h2, h3, by omega, h5⟩
          · rintro ⟨h1, h2, h3, h4, h5⟩
            exact ⟨h1, h2, h3, by omega, h5⟩
        · rintro ⟨h1, h2, h3⟩; exact hc ⟨h1, h2⟩
  · intro x y hxy
    simp only [lcsUpTo]
    rw [if_neg]
    omega

theorem lcs_phase_eq (mat : Tab2 Int) (n : Nat) :
    lcs_phase mat n (fun _ _ _ _ => 0, fun _ _ _ _ => 0) = lcsTab mat n := by
  unfold lcs_phase lcsTab
  have h0 : lcsUpTo mat n 1 0 = (fun _ _ _ _ => 0, fun _ _ _ _ => 0) := by
    unfold lcsUpTo
    apply Prod.ext
    · funext a b x y
      simp only
      rw [if_neg]; omega
    · funext a b x y
      simp only
      rw [if_neg]; omega
  refine forLe_eq 1 n _ _ (fun i => lcsUpTo mat n i 0) (by omega) h0 ?_
  intro i hi hin
  simp only
  have h2 := forLe_eq i n (fun j st => lcs i j mat st) (lcsUpTo mat n i 0)
    (fun j => lcsUpTo mat n i j) (by omega)
    (by apply lcsUpTo_congr; intro a b h1 h2 h3; omega)
    (by intro j hj hjn; exact lcs_upTo mat n i j hi hj hjn)
  rw [h2]
  apply lcsUpTo_congr
  intro a b h1 h2 h3
  omega

theorem lcsTab_dp (mat : Tab2 Int) (n a b x y : Nat) (ha : 1 ≤ a) (hab : a ≤ b) (hb : b ≤ n)
    (h : x + y ≤ b + 1 - a) : (lcsTab mat n).1 a b x y = lcsVal mat a b x y := by
  simp only [lcsTab, lcsUpTo]
  split_ifs with h1
  · rfl
  · rcases Nat.eq_zero_or_pos x with hx | hx
    · subst hx; rw [lcsVal_zero_left]
    · rcases Nat.eq_zero_or_pos y with hy | hy
      · subst hy; rw [lcsVal_zero_right]
      · exfalso; apply h1
        exact ⟨ha, hab, hb, by omega, hx, hy, h⟩

theorem lcsTab_restore (mat : Tab2 Int) (n a b x y : Nat) (ha : 1 ≤ a) (hab : a ≤ b)
    (hb : b ≤ n) (hx : 1 ≤ x) (hy : 1 ≤ y) (h : x + y ≤ b + 1 - a) :
    (lcsTab mat n).2 a b x y = lcsDec mat a b x y := by
  simp only [lcsTab, lcsUpTo]
  rw [if_pos]
  exact ⟨ha, hab, hb, by omega, hx, hy, h⟩

/-! ## Loops that work on one cell of a pair of tables -/

theorem set2_same {α : Type} (t : Tab2 α) (a b : Nat) (v : α) : set2 t a b v a b = v := by
  simp [set2]

theorem set2_other {α : Type} (t : Tab2 α) (a b x y : Nat) (v : α) (h : ¬ (x = a ∧ y = b)) :
    set2 t a b v x y = t x y := by
  simp only [set2, if_neg h]

theorem set2_set2 {α : Type} (t : Tab2 α) (a b : Nat) (v w : α) :
    set2 (set2 t a b v) a b w = set2 t a b w := by
  funext x y
  simp only [set2]
  split_ifs <;> rfl

theorem set2_self {α : Type} (t : Tab2 α) (a b : Nat) : set2 t a b (t a b) = t := by
  funext x y
  simp only [set2]
  split_ifs with h
  · rw [h.1, h.2]
  · rfl

theorem putc_getc {α β : Type} (st : Tab2 α × Tab2 β) (s e : Nat) :
    putc st s e (getc st s e) = st := by
  simp [putc, getc, set2_self]

theorem getc_putc {α β : Type} (st : Tab2 α × Tab2 β) (s e : Nat) (c : α × β) :
    getc (putc st s e c) s e = c := by
  simp [putc, getc, set2_same]

theorem putc_putc {α β : Type} (st : Tab2 α × Tab2 β) (s e : Nat) (c d : α × β) :
    putc (putc st s e c) s e d = putc st s e d := by
  simp [putc, set2_set2]

/-- A fold whose steps rewrite the cell `(s, e)` only is a fold on that cell. -/
theorem local_foldl {α β : Type} (s e : Nat) (f : Tab2 α × Tab2 β → Nat → Tab2 α × Tab2 β)
    (g : α × β → Nat → α × β)
    (h : ∀ st k, f st k = putc st s e (g (getc st s e) k)) :
    ∀ (l : List Nat) (st : Tab2 α × Tab2 β),
      l.foldl f st = putc st s e (l.foldl g (getc st s e)) := by
  intro l
  induction l with
  | nil => intro st; simp [putc_getc]
  | cons k ks ih =>
    intro st
    simp only [List.foldl_cons]
    rw [ih, h, getc_putc, putc_putc]

theorem local_forLe {α β : Type} (s e a b : Nat)
    (body : Nat → Tab2 α × Tab2 β → Tab2 α × Tab2 β) (g : Nat → α × β → α × β)
    (h : ∀ k st, body k st = putc st s e (g k (getc st s e))) (st : Tab2 α × Tab2 β) :
    forLe a b body st = putc st s e (forLe a b g (getc st s e)) :=
  local_foldl s e (fun st k => body k st) (fun c k => g k c) (fun st k => h k st) _ st

theorem local_forLt {α β : Type} (s e a b : Nat)
    (body : Nat → Tab2 α × Tab2 β → Tab2 α × Tab2 β) (g : Nat → α × β → α × β)
    (h : ∀ k st, body k st = putc st s e (g k (getc st s e))) (st : Tab2 α × Tab2 β) :
    forLt a b body st = putc st s e (forLt a b g (getc st s e)) :=
  local_foldl s e (fun st k => body k st) (fun c k => g k c) (fun st k => h k st) _ st

theorem cellsUpTo_congr {α β : Type} (z : α × β) (cell : Nat → Nat → α × β → α × β)
    (lo : Nat → Nat) (n s0 e0 s1 e1 : Nat)
    (h : ∀ s e, 1 ≤ s → lo s ≤ e → e ≤ n →
      ((s < s0 ∨ (s = s0 ∧ e < e0)) ↔ (s < s1 ∨ (s = s1 ∧ e < e1)))) :
    cellsUpTo z cell lo n s0 e0 = cellsUpTo z cell lo n s1 e1 := by
  have key : ∀ s e : Nat,
      (1 ≤ s ∧ lo s ≤ e ∧ e ≤ n ∧ (s < s0 ∨ (s = s0 ∧ e < e0))) ↔
      (1 ≤ s ∧ lo s ≤ e ∧ e ≤ n ∧ (s < s1 ∨ (s = s1 ∧ e < e1))) := by
    intro s e
    constructor
    · rintro ⟨h1, h2, h3, h4⟩
      exact ⟨h1, h2, h3, (h s e h1 h2 h3).1 h4⟩
    · rintro ⟨h1, h2, h3, h4⟩
      exact ⟨h1, h2, h3, (h s e h1 h2 h3).2 h4⟩
  unfold cellsUpTo
  congr 1
  · funext s e
    exact if_congr (key s e) rfl rfl
  · funext s e
    exact if_congr (key s e) rfl rfl

theorem putc_cellsUpTo {α β : Type} (z : α × β) (cell : Nat → Nat → α × β → α × β)
    (lo : Nat → Nat) (n s e : Nat) (hs : 1 ≤ s) (hlo : lo s ≤ e) (he : e ≤ n) :
    putc (cellsUpTo z cell lo n s e) s e (cell s e (getc (cellsUpTo z cell lo n s e) s e)) =
      cellsUpTo z cell lo n s (e + 1) := by
  have hg : getc (cellsUpTo z cell lo n s e) s e = z := by
    simp only [getc, cellsUpTo]
    rw [if_neg (by omega), if_neg (by omega)]
  rw [hg]
  unfold putc cellsUpTo
  congr 1
  · funext x y
    simp only [set2]
    by_cases hc : x = s ∧ y = e
    · obtain ⟨rfl, rfl⟩ := hc
      rw [if_pos ⟨rfl, rfl⟩, if_pos]
      exact ⟨hs, hlo, he, by omega⟩
    · rw [if_neg hc]
      apply if_congr _ rfl rfl
      constructor
      · rintro ⟨h1, h2, h3, h4⟩
        exact ⟨h1, h2, h3, by omega⟩
      · rintro ⟨h1, h2, h3, h4⟩
        exact ⟨h1, h2, h3, by omega⟩
  · funext x y
    simp only [set2]
    by_cases hc : x = s ∧ y = e
    · obtain ⟨rfl, rfl⟩ := hc
      rw [if_pos ⟨rfl, rfl⟩, if_pos]
      exact ⟨hs, hlo, he, by omega⟩
    · rw [if_neg hc]
      apply if_congr _ rfl rfl
      constructor
      · rintro ⟨h1, h2, h3, h4⟩
        exact ⟨h1, h2, h3, by omega⟩
      · rintro ⟨h1, h2, h3, h4⟩
        exact ⟨h1, h2, h3, by omega⟩

/-- Two nested loops over the intervals `1 ≤ s`, `lo s ≤ e ≤ n` whose body rewrites the
cell `(s, e)` only, started on constant tables. -/
theorem cells_loop_eq {α β : Type} (z : α × β) (cell : Nat → Nat → α × β → α × β)
    (lo : Nat → Nat) (n : Nat) (body : Nat → Nat → Tab2 α × Tab2 β → Tab2 α × Tab2 β)
    (hbody : ∀ s e st, body s e st = putc st s e (cell s e (getc st s e))) :
    forLe 1 n (fun s st => forLe (lo s) n (fun e st => body s e st) st)
        (fun _ _ => z.1, fun _ _ => z.2) =
      cellsUpTo z cell lo n (n + 1) 0 := by
  have h0 : cellsUpTo z cell lo n 1 0 = (fun _ _ => z.1, fun _ _ => z.2) := by
    unfold cellsUpTo
    apply Prod.ext
    · funext s e
      simp only
      rw [if_neg]; omega
    · funext s e
      simp only
      rw [if_neg]; omega
  refine forLe_eq 1 n _ _ (fun s => cellsUpTo z cell lo n s 0) (by omega) h0 ?_
  intro s hs hsn
  simp only
  by_cases hlo : lo s ≤ n + 1
  · have h2 := forLe_eq (lo s) n (fun e st => body s e st) (cellsUpTo z cell lo n s 0)
      (fun e => cellsUpTo z cell lo n s e) hlo
      (by
        apply cellsUpTo_congr
        intro a b h1 h2 h3
        constructor
        · rintro (h | ⟨rfl, h⟩)
          · exact Or.inl h
          · omega
        · rintro (h | ⟨rfl, h⟩)
          · exact Or.inl h
          · omega)
      (by intro e he hen; simp only; rw [hbody]; exact putc_cellsUpTo z cell lo n s e hs he hen)
    rw [h2]
    apply cellsUpTo_congr
    intro a b h1 h2 h3
    omega
  · rw [forLe_empty _ _ _ _ (by omega)]
    apply cellsUpTo_congr
    intro a b h1 h2 h3
    constructor
    · intro h; omega
    · intro h
      rcases h with h | h
      · rcases Nat.lt_succ_iff_lt_or_eq.mp h with h' | h'
        · exact Or.inl h'
        · subst h'; omega
      · omega

/-! ## The hairpin and pseudoknot loops on one cell -/

theorem hairpin_step_local (lcs_dp : Tab4 Int) (s e len k : Nat) (st : Tab2 Int × Tab2 Nat) :
    hairpin_step lcs_dp s e len k st =
      putc st s e (hairpinCellStep lcs_dp s e len k (getc st s e)) := by
  unfold hairpin_step hairpinCellStep
  simp only [getc]
  split_ifs with h
  · rfl
  · exact (putc_getc st s e).symm

theorem pseudoknot_step_local (lcs_dp : Tab4 Int) (s e i j k : Nat)
    (st : Tab2 Int × Tab2 pk_info) :
    pseudoknot_step lcs_dp s e i j k st =
      putc st s e (pkCellStep lcs_dp s e i j k (getc st s e)) := by
  unfold pseudoknot_step pkCellStep
  simp only [getc]
  split_ifs with h
  · rfl
  · exact (putc_getc st s e).symm

/-- The tables `(hairpin, hairpin_restore)` when the hairpin loops of `solve` are done. -/
theorem hairpin_phase_eq (lcs_dp : Tab4 Int) (n : Nat) :
    hairpin_phase lcs_dp n (fun _ _ => 0, fun _ _ => 0) =
      cellsUpTo (0, 0) (hairpinCell lcs_dp) (fun s => s + 1) n (n + 1) 0 := by
  unfold hairpin_phase
  refine cells_loop_eq ((0 : Int), (0 : Nat)) (hairpinCell lcs_dp) (fun s => s + 1) n
    (fun s e st => forLe 0 (e + 1 - s) (fun k st => hairpin_step lcs_dp s e (e + 1 - s) k st) st)
    ?_
  intro s e st
  exact local_forLe s e 0 (e + 1 - s) _ _ (fun k st => hairpin_step_local lcs_dp s e _ k st) st

/-- The tables `(pseudoknot, pseudoknot_restore)` when the pseudoknot loops are done. -/
theorem pseudoknot_phase_eq (lcs_dp : Tab4 Int) (n : Nat) :
    pseudoknot_phase lcs_dp n (fun _ _ => 0, fun _ _ => ⟨0, 0, 0⟩) =
      cellsUpTo (0, ⟨0, 0, 0⟩) (pkCell lcs_dp) (fun s => s + 3) n (n + 1) 0 := by
  unfold pseudoknot_phase
  refine cells_loop_eq ((0 : Int), (⟨0, 0, 0⟩ : pk_info)) (pkCell lcs_dp) (fun s => s + 3) n
    (fun s e st => forLt (s + 1) e (fun i st =>
        forLt (s + 1) e (fun j st =>
          forLt i j (fun k st => pseudoknot_step lcs_dp s e i j k st) st) st) st) ?_
  intro s e st
  refine local_forLt s e (s + 1) e _ _ (fun i st => ?_) st
  refine local_forLt s e (s + 1) e _ _ (fun j st => ?_) st
  exact local_forLt s e i j _ _ (fun k st => pseudoknot_step_local lcs_dp s e i j k st) st

theorem forLt_inv_max {σ : Type} (P : Nat → σ → Prop) (a b : Nat) (body : Nat → σ → σ)
    (st : σ) (h0 : P a st)
    (hstep : ∀ i st, a ≤ i → i < b → P i st → P (i + 1) (body i st)) :
    P (max a b) (forLt a b body st) := by
  by_cases hab : a ≤ b
  · rw [max_eq_right hab]
    exact forLt_inv P a b body st hab h0 hstep
  · rw [max_eq_left (by omega), forLt_empty _ _ _ _ (by omega)]
    exact h0

/-- What the `k` loop of the hairpin loops leaves in the cell of `[s, e]`: the largest
entry `lcs_dp[s][e][k][len - k]` (at least 0) and the first `k` that attains it. -/
theorem hairpinCell_spec (lcs_dp : Tab4 Int) (s e : Nat) :
    0 ≤ (hairpinCell lcs_dp s e (0, 0)).1 ∧
    (∀ k, k ≤ e + 1 - s →
      lcs_dp s e k (e + 1 - s - k) ≤ (hairpinCell lcs_dp s e (0, 0)).1) ∧
    (hairpinCell lcs_dp s e (0, 0) = (0, 0) ∨
      ((hairpinCell lcs_dp s e (0, 0)).2 ≤ e + 1 - s ∧
        0 < (hairpinCell lcs_dp s e (0, 0)).1 ∧
        lcs_dp s e (hairpinCell lcs_dp s e (0, 0)).2
          (e + 1 - s - (hairpinCell lcs_dp s e (0, 0)).2) = (hairpinCell lcs_dp s e (0, 0)).1 ∧
        ∀ k, k < (hairpinCell lcs_dp s e (0, 0)).2 →
          lcs_dp s e k (e + 1 - s - k) < (hairpinCell lcs_dp s e (0, 0)).1)) := by
  have h := forLe_inv (fun m (c : Int × Nat) =>
      0 ≤ c.1 ∧ (∀ k, k < m → lcs_dp s e k (e + 1 - s - k) ≤ c.1) ∧
      (c = (0, 0) ∨ (c.2 < m ∧ 0 < c.1 ∧ lcs_dp s e c.2 (e + 1 - s - c.2) = c.1 ∧
        ∀ k, k < c.2 → lcs_dp s e k (e + 1 - s - k) < c.1)))
    0 (e + 1 - s) (fun k c => hairpinCellStep lcs_dp s e (e + 1 - s) k c) (0, 0) (by omega)
    ⟨le_refl _, by intro k hk; omega, Or.inl rfl⟩
    (by
      rintro m c - hm ⟨h1, h2, h3⟩
      unfold hairpinCellStep
      beta_reduce
      by_cases hc : c.1 < lcs_dp s e m (e + 1 - s - m)
      on_goal 1 => rw [if_pos hc]
      on_goal 2 => rw [if_neg hc]
      · refine ⟨by simp only; omega, ?_, Or.inr ⟨by simp only; omega, by simp only; omega, rfl, ?_⟩⟩
        · intro k hk
          rcases Nat.lt_succ_iff_lt_or_eq.mp hk with h | h
          · have := h2 k h; simp only; omega
          · subst h; exact le_refl _
        · intro k hk
          have := h2 k hk
          simp only at hk ⊢; omega
      · refine ⟨h1, ?_, ?_⟩
        · intro k hk
          rcases Nat.lt_succ_iff_lt_or_eq.mp hk with h | h
          · exact h2 k h
          · subst h; exact not_lt.mp hc
        · rcases h3 with h3 | ⟨h3, h4⟩
          · exact Or.inl h3
          · exact Or.inr ⟨by omega, h4⟩)
  obtain ⟨h1, h2, h3⟩ := h
  refine ⟨h1, fun k hk => h2 k (by omega), ?_⟩
  rcases h3 with h3 | ⟨h3, h4⟩
  · exact Or.inl h3
  · exact Or.inr ⟨by unfold hairpinCell; omega, h4⟩

theorem pkGood_mono (lcs_dp : Tab4 Int) (s e : Nat) (c : Int × pk_info)
    (D D1 : Nat → Nat → Nat → Prop) (h : ∀ i k j, D1 i k j → D i k j)
    (hg : pkGood lcs_dp s e c D) : pkGood lcs_dp s e c D1 :=
  ⟨hg.1, hg.2.1, fun i k j hd => hg.2.2 i k j (h i k j hd)⟩

theorem pkCellStep_good (lcs_dp : Tab4 Int) (s e i j k : Nat) (c : Int × pk_info)
    (D : Nat → Nat → Nat → Prop) (hi : s < i) (hik : i ≤ k) (hkj : k < j) (hj : j < e)
    (hg : pkGood lcs_dp s e c D) :
    pkGood lcs_dp s e (pkCellStep lcs_dp s e i j k c)
      (fun i1 k1 j1 => D i1 k1 j1 ∨ (i1 = i ∧ k1 = k ∧ j1 = j)) := by
  obtain ⟨h1, h2, h3⟩ := hg
  unfold pkCellStep
  split_ifs with hc
  · have hc1 : c.1 < pkVal lcs_dp s e i k j := hc
    refine ⟨by simp only; omega, Or.inr ⟨by simp only; omega, hi, hik, hkj, hj, rfl⟩, ?_⟩
    rintro i1 k1 j1 (hd | ⟨rfl, rfl, rfl⟩)
    · have := h3 i1 k1 j1 hd
      show pkVal lcs_dp s e i1 k1 j1 ≤ pkVal lcs_dp s e i k j
      omega
    · exact le_refl _
  · refine ⟨h1, h2, ?_⟩
    rintro i1 k1 j1 (hd | ⟨rfl, rfl, rfl⟩)
    · exact h3 i1 k1 j1 hd
    · exact not_lt.mp hc

/-- What the pseudoknot loops leave in the cell of `[s, e]`: a value that is at least 0
and at least the score of every candidate `s < i ≤ k < j < e`, and, when it is not the
initial cell, a recorded candidate that attains it. -/
theorem pkCell_spec (lcs_dp : Tab4 Int) (s e : Nat) :
    pkGood lcs_dp s e (pkCell lcs_dp s e (0, ⟨0, 0, 0⟩))
      (fun i k j => s < i ∧ i ≤ k ∧ k < j ∧ j < e) := by
  have hI := forLt_inv_max (fun i1 (c : Int × pk_info) =>
      pkGood lcs_dp s e c (fun i k j => s < i ∧ i < i1 ∧ i ≤ k ∧ k < j ∧ j < e))
    (s + 1) e (fun i c => forLt (s + 1) e (fun j c =>
      forLt i j (fun k c => pkCellStep lcs_dp s e i j k c) c) c) (0, ⟨0, 0, 0⟩)
    ⟨le_refl _, Or.inl rfl, by intro i k j hd; omega⟩
    (by
      intro i c hi hie hg
      have hJ := forLt_inv_max (fun j1 (c : Int × pk_info) =>
          pkGood lcs_dp s e c (fun i0 k j => s < i0 ∧ i0 ≤ k ∧ k < j ∧ j < e ∧
            (i0 < i ∨ (i0 = i ∧ j < j1))))
        (s + 1) e (fun j c => forLt i j (fun k c => pkCellStep lcs_dp s e i j k c) c) c
        (pkGood_mono _ _ _ _ _ _ (by intro i0 k j hd; omega) hg)
        (by
          intro j c hj hje hg
          have hK := forLt_inv_max (fun k1 (c : Int × pk_info) =>
              pkGood lcs_dp s e c (fun i0 k j0 => s < i0 ∧ i0 ≤ k ∧ k < j0 ∧ j0 < e ∧
                (i0 < i ∨ (i0 = i ∧ j0 < j) ∨ (i0 = i ∧ j0 = j ∧ k < k1))))
            i j (fun k c => pkCellStep lcs_dp s e i j k c) c
            (pkGood_mono _ _ _ _ _ _ (by intro i0 k j0 hd; omega) hg)
            (by
              intro k c hk hkj hg
              exact pkGood_mono _ _ _ _ _ _ (by intro i0 k0 j0 hd; omega)
                (pkCellStep_good lcs_dp s e i j k c _ (by omega) hk hkj hje hg))
          exact pkGood_mono _ _ _ _ _ _ (by intro i0 k j0 hd; omega) hK)
      exact pkGood_mono _ _ _ _ _ _ (by intro i0 k j0 hd; omega) hJ)
  exact pkGood_mono _ _ _ _ _ _ (by intro i0 k j0 hd; omega) hI

/-! ## The structure loops -/

theorem structure_step_local (s e k : Nat) (st : Tab2 Int × Tab2 Int) (c : Int × Int)
    (hk : k < e) (hs : s ≤ k) :
    structure_step s e k (putc st s e c) = putc st s e (splitStep st.1 s e k c) := by
  have n1 : ¬ (s = s ∧ k = e) := by omega
  have n2 : ¬ (k + 1 = s ∧ e = e) := by omega
  unfold structure_step splitStep
  simp only [putc, set2_same, set2_other _ _ _ _ _ _ n1, set2_other _ _ _ _ _ _ n2, set2_set2]
  split_ifs with hc
  · rfl
  · rfl

theorem structure_split_local (s e : Nat) (st : Tab2 Int × Tab2 Int) :
    ∀ (l : List Nat), (∀ k ∈ l, s ≤ k ∧ k < e) → ∀ c : Int × Int,
      l.foldl (fun st k => structure_step s e k st) (putc st s e c) =
        putc st s e (l.foldl (fun c k => splitStep st.1 s e k c) c) := by
  intro l
  induction l with
  | nil => intro _ c; rfl
  | cons k ks ih =>
    intro hl c
    simp only [List.foldl_cons]
    have hk := hl k (List.mem_cons_self _ _)
    rw [structure_step_local s e k st c hk.2 hk.1]
    exact ih (fun k1 h1 => hl k1 (List.mem_cons_of_mem _ h1)) _

/-- The body of the structure loops rewrites the cell of `[s, e]` only. -/
theorem structure_cell_eq (h p : Tab2 Int) (s e : Nat) (st : Tab2 Int × Tab2 Int) :
    structure_cell h p s e st = putc st s e (structCell h p st.1 s e) := by
  unfold structure_cell structCell forLt
  simp only [set2_same]
  have hinit : (if h s e < p s e then
        (set2 (set2 st.1 s e (h s e)) s e (p s e), set2 (set2 st.2 s e (-1)) s e (-2))
      else (set2 st.1 s e (h s e), set2 st.2 s e (-1))) =
      putc st s e (if h s e < p s e then (p s e, -2) else (h s e, -1)) := by
    split_ifs with hc
    · simp only [putc, set2_set2]
    · rfl
  rw [hinit]
  apply structure_split_local
  intro k hk
  rw [List.mem_range'_1] at hk
  omega

theorem structCell_congr (h p T1 T2 : Tab2 Int) (s e : Nat)
    (hT : ∀ k, s ≤ k → k < e → T1 s k = T2 s k ∧ T1 (k + 1) e = T2 (k + 1) e) :
    structCell h p T1 s e = structCell h p T2 s e := by
  unfold structCell forLt
  apply List.foldl_ext
  intro c k hk
  rw [List.mem_range'_1] at hk
  have := hT k (by omega) (by omega)
  simp only [splitStep, this.1, this.2]

/-- What the structure loops leave in the cell of `[s, e]`, given the cells of the
shorter intervals in `T1`. -/
theorem structCell_spec (h p T1 : Tab2 Int) (s e : Nat) :
    h s e ≤ (structCell h p T1 s e).1 ∧ p s e ≤ (structCell h p T1 s e).1 ∧
    (∀ k, s ≤ k → k < e → T1 s k + T1 (k + 1) e ≤ (structCell h p T1 s e).1) ∧
    (((structCell h p T1 s e).2 = -1 ∧ (structCell h p T1 s e).1 = h s e) ∨
      ((structCell h p T1 s e).2 = -2 ∧ (structCell h p T1 s e).1 = p s e ∧ h s e < p s e) ∨
      (∃ k, s ≤ k ∧ k < e ∧ (structCell h p T1 s e).2 = (k : Int) ∧
        (structCell h p T1 s e).1 = T1 s k + T1 (k + 1) e ∧
        h s e < (structCell h p T1 s e).1 ∧ p s e < (structCell h p T1 s e).1 ∧
        ∀ k1, s ≤ k1 → k1 < k → T1 s k1 + T1 (k1 + 1) e < (structCell h p T1 s e).1)) := by
  have hI := forLt_inv_max (fun m (c : Int × Int) =>
      h s e ≤ c.1 ∧ p s e ≤ c.1 ∧ (∀ k, s ≤ k → k < m → T1 s k + T1 (k + 1) e ≤ c.1) ∧
      ((c.2 = -1 ∧ c.1 = h s e) ∨ (c.2 = -2 ∧ c.1 = p s e ∧ h s e < p s e) ∨
        (∃ k, s ≤ k ∧ k < m ∧ c.2 = (k : Int) ∧ c.1 = T1 s k + T1 (k + 1) e ∧
          h s e < c.1 ∧ p s e < c.1 ∧
          ∀ k1, s ≤ k1 → k1 < k → T1 s k1 + T1 (k1 + 1) e < c.1)))
    s e (fun k c => splitStep T1 s e k c) (if h s e < p s e then (p s e, -2) else (h s e, -1))
    (by
      split_ifs with hc
      · exact ⟨le_of_lt hc, le_refl _, by intro k h1 h2; omega, Or.inr (Or.inl ⟨rfl, rfl, hc⟩)⟩
      · exact ⟨le_refl _, not_lt.mp hc, by intro k h1 h2; omega, Or.inl ⟨rfl, rfl⟩⟩)
    (by
      rintro m c hm hme ⟨h1, h2, h3, h4⟩
      unfold splitStep
      beta_reduce
      by_cases hc : c.1 < T1 s m + T1 (m + 1) e
      · rw [if_pos hc]
        refine ⟨by simp only; omega, by simp only; omega, ?_, Or.inr (Or.inr ⟨m, hm, by omega,
          rfl, rfl, by simp only; omega, by simp only; omega, ?_⟩)⟩
        · intro k hk hk1
          rcases Nat.lt_succ_iff_lt_or_eq.mp hk1 with h5 | h5
          · have := h3 k hk h5; simp only; omega
          · subst h5; exact le_refl _
        · intro k1 hk1 hk2
          have := h3 k1 hk1 hk2
          simp only; omega
      · rw [if_neg hc]
        refine ⟨h1, h2, ?_, ?_⟩
        · intro k hk hk1
          rcases Nat.lt_succ_iff_lt_or_eq.mp hk1 with h5 | h5
          · exact h3 k hk h5
          · subst h5; exact not_lt.mp hc
        · rcases h4 with h4 | h4 | ⟨k, h5, h6, h7⟩
          · exact Or.inl h4
          · exact Or.inr (Or.inl h4)
          · exact Or.inr (Or.inr ⟨k, h5, by omega, h7⟩))
  obtain ⟨h1, h2, h3, h4⟩ := hI
  refine ⟨h1, h2, ?_, ?_⟩
  · intro k hk hke
    exact h3 k hk (lt_of_lt_of_le hke (le_max_right _ _))
  · rcases h4 with h4 | h4 | ⟨k, h5, h6, h7⟩
    · exact Or.inl h4
    · exact Or.inr (Or.inl h4)
    · refine Or.inr (Or.inr ⟨k, h5, ?_, h7⟩)
      rcases le_total s e with hse | hse
      · rwa [max_eq_right hse] at h6
      · rw [max_eq_left hse] at h6; omega

theorem structInv_congr (h p : Tab2 Int) (n l s0 l1 s1 : Nat) (st : Tab2 Int × Tab2 Int)
    (hc : ∀ s e, 1 ≤ s → s < e → e ≤ n →
      ((e + 1 - s < l ∨ (e + 1 - s = l ∧ s < s0)) ↔ (e + 1 - s < l1 ∨ (e + 1 - s = l1 ∧ s < s1))))
    (hI : structInv h p n l s0 st) : structInv h p n l1 s1 st := by
  constructor
  · intro s e hn
    apply hI.1
    rintro ⟨h1, h2, h3, h4⟩
    exact hn ⟨h1, h2, h3, (hc s e h1 h2 h3).1 h4⟩
  · intro s e h1 h2 h3 h4
    exact hI.2 s e h1 h2 h3 ((hc s e h1 h2 h3).2 h4)

theorem structInv_step (h p : Tab2 Int) (n l s : Nat) (st : Tab2 Int × Tab2 Int)
    (hl : 2 ≤ l) (hs : 1 ≤ s) (hsn : s + l - 1 ≤ n) (hI : structInv h p n l s st) :
    structInv h p n l (s + 1) (structure_cell h p s (s + l - 1) st) := by
  rw [structure_cell_eq]
  constructor
  · intro a b hn
    have hne : ¬ (a = s ∧ b = s + l - 1) := by
      rintro ⟨rfl, rfl⟩
      apply hn
      exact ⟨hs, by omega, hsn, by omega⟩
    have := hI.1 a b (by rintro ⟨h1, h2, h3, h4⟩; exact hn ⟨h1, h2, h3, by omega⟩)
    simp only [getc, putc, set2_other _ _ _ _ _ _ hne] at this ⊢
    exact this
  · intro a b h1 h2 h3 h4
    have hread : structCell h p (putc st s (s + l - 1) (structCell h p st.1 s (s + l - 1))).1 a b =
        structCell h p st.1 a b := by
      apply structCell_congr
      intro k hk hkb
      have n1 : ¬ (a = s ∧ k = s + l - 1) := by omega
      have n2 : ¬ (k + 1 = s ∧ b = s + l - 1) := by omega
      simp only [putc, set2_other _ _ _ _ _ _ n1, set2_other _ _ _ _ _ _ n2, and_self]
    rw [hread]
    by_cases hc : a = s ∧ b = s + l - 1
    · obtain ⟨rfl, rfl⟩ := hc
      rw [getc_putc]
    · have := hI.2 a b h1 h2 h3 (by omega)
      simp only [getc, putc, set2_other _ _ _ _ _ _ hc] at this ⊢
      exact this

/-- The tables `(structure, structure_restore)` when the structure loops are done: the
cell of every interval `1 ≤ s < e ≤ n` holds what the loop body computes from the final
cells of the shorter intervals, every other cell is still zero. -/
theorem structure_phase_spec (h p : Tab2 Int) (n : Nat) :
    structInv h p n (n + 1) 0 (structure_phase h p n (fun _ _ => 0, fun _ _ => 0)) := by
  unfold structure_phase
  by_cases hn : 2 ≤ n + 1
  · refine forLe_inv (fun l st => structInv h p n l 0 st) 2 n _ _ hn ?_ ?_
    · constructor
      · intro s e _; rfl
      · intro s e h1 h2 h3 h4; omega
    · intro l st hl hln hI
      have hJ := forLe_inv (fun s st => structInv h p n l s st) 1 (n + 1 - l)
        (fun s st => structure_cell h p s (s + l - 1) st) st (by omega)
        (structInv_congr h p n l 0 l 1 st (by intro s e h1 h2 h3; omega) hI)
        (by
          intro s st hs hsn hI
          exact structInv_step h p n l s st hl hs (by omega) hI)
      exact structInv_congr h p n l (n + 1 - l + 1) (l + 1) 0 _
        (by intro s e h1 h2 h3; omega) hJ
  · rw [forLe_empty _ _ _ _ (by omega)]
    constructor
    · intro s e _; rfl
    · intro s e h1 h2 h3 h4; omega

/-! ## The tables after `solve` -/

theorem solve_tables_mat (cfg : Config) (seq : List Char) (n : Nat) :
    (solve_tables cfg seq n).mat = matchVal cfg seq n := by
  simp only [solve_tables, build_match_eq]

theorem solve_tables_solved (cfg : Config) (seq : List Char) (n : Nat) :
    Solved (solve_tables cfg seq n) n := by
  have hs := structure_phase_spec
    (hairpin_phase (lcs_phase (build_match cfg seq n) n
      (fun _ _ _ _ => 0, fun _ _ _ _ => 0)).1 n (fun _ _ => 0, fun _ _ => 0)).1
    (pseudoknot_phase (lcs_phase (build_match cfg seq n) n
      (fun _ _ _ _ => 0, fun _ _ _ _ => 0)).1 n (fun _ _ => 0, fun _ _ => ⟨0, 0, 0⟩)).1 n
  constructor
  · intro a b x y ha hab hb hxy
    simp only [solve_tables, lcs_phase_eq]
    exact lcsTab_dp _ n a b x y ha hab hb hxy
  · intro a b x y ha hab hb hx hy hxy
    simp only [solve_tables, lcs_phase_eq]
    exact lcsTab_restore _ n a b x y ha hab hb hx hy hxy
  · intro s e hs1 hse he
    simp only [solve_tables, hairpin_phase_eq, cellsUpTo]
    rw [if_pos (by omega), if_pos (by omega)]
  · intro s e hn
    simp only [solve_tables, hairpin_phase_eq, cellsUpTo]
    rw [if_neg (by omega), if_neg (by omega)]
  · intro s e hs1 hse he
    simp only [solve_tables, pseudoknot_phase_eq, cellsUpTo]
    rw [if_pos (by omega), if_pos (by omega)]
  · intro s e hn
    simp only [solve_tables, pseudoknot_phase_eq, cellsUpTo]
    rw [if_neg (by omega), if_neg (by omega)]
  · intro s e hs1 hse he
    exact hs.2 s e hs1 hse he (by omega)
  · intro s e hn
    exact hs.1 s e (by omega)

/-! ## Facts about the recurrence -/

theorem lcsVal_nonneg (mat : Tab2 Int) (s e i j : Nat) : 0 ≤ lcsVal mat s e i j := by
  induction i with
  | zero => rw [lcsVal_zero_left]
  | succ i ih =>
    rcases Nat.eq_zero_or_pos j with hj | hj
    · subst hj; rw [lcsVal_zero_right]
    · rw [lcsVal_step mat s e (i + 1) j (by omega) hj]
      simp only [Nat.add_sub_cancel]
      exact le_trans ih (le_trans (le_max_left _ _) (le_max_left _ _))

theorem lcsVal_mono_left (mat : Tab2 Int) (s e i j : Nat) :
    lcsVal mat s e i j ≤ lcsVal mat s e (i + 1) j := by
  rcases Nat.eq_zero_or_pos j with hj | hj
  · subst hj; rw [lcsVal_zero_right, lcsVal_zero_right]
  · rw [lcsVal_step mat s e (i + 1) j (by omega) hj]
    simp only [Nat.add_sub_cancel]
    exact le_trans (le_max_left _ _) (le_max_left _ _)

theorem lcsVal_mono_right (mat : Tab2 Int) (s e i j : Nat) :
    lcsVal mat s e i j ≤ lcsVal mat s e i (j + 1) := by
  rcases Nat.eq_zero_or_pos i with hi | hi
  · subst hi; rw [lcsVal_zero_left, lcsVal_zero_left]
  · rw [lcsVal_step mat s e i (j + 1) hi (by omega)]
    simp only [Nat.add_sub_cancel]
    exact le_trans (le_max_right _ _) (le_max_left _ _)

theorem lcsVal_mono (mat : Tab2 Int) (s e : Nat) {i j i1 j1 : Nat} (hi : i ≤ i1) (hj : j ≤ j1) :
    lcsVal mat s e i j ≤ lcsVal mat s e i1 j1 := by
  have h1 : ∀ d, lcsVal mat s e i j ≤ lcsVal mat s e (i + d) j := by
    intro d
    induction d with
    | zero => exact le_refl _
    | succ d ih => exact le_trans ih (lcsVal_mono_left mat s e (i + d) j)
  have h2 : ∀ d, lcsVal mat s e i1 j ≤ lcsVal mat s e i1 (j + d) := by
    intro d
    induction d with
    | zero => exact le_refl _
    | succ d ih => exact le_trans ih (lcsVal_mono_right mat s e i1 (j + d))
  have e1 : i + (i1 - i) = i1 := by omega
  have e2 : j + (j1 - j) = j1 := by omega
  have := h1 (i1 - i)
  have := h2 (j1 - j)
  rw [e1] at *
  rw [e2] at *
  omega

/-- The three cases of the decision cell and what each says about the recurrence. -/
theorem lcsDec_cases (mat : Tab2 Int) (s e i j : Nat) (hi : 1 ≤ i) (hj : 1 ≤ j) :
    (lcsDec mat s e i j = 0 ∧ lcsVal mat s e i j = lcsVal mat s e (i - 1) j) ∨
    (lcsDec mat s e i j = 1 ∧ lcsVal mat s e i j = lcsVal mat s e i (j - 1)) ∨
    (lcsDec mat s e i j = 2 ∧
      lcsVal mat s e i j = lcsVal mat s e (i - 1) (j - 1) + mat (s + i - 1) (e + 1 - j) ∧
      0 < mat (s + i - 1) (e + 1 - j)) := by
  have hm := lcsVal_mono mat s e (Nat.le_refl (i - 1)) (Nat.sub_le j 1)
  rw [lcsVal_step mat s e i j hi hj]
  unfold lcsDec
  by_cases h1 : max (lcsVal mat s e (i - 1) j) (lcsVal mat s e i (j - 1)) <
      lcsVal mat s e (i - 1) (j - 1) + mat (s + i - 1) (e + 1 - j)
  · right; right
    rw [if_pos h1]
    refine ⟨rfl, max_eq_right (le_of_lt h1), ?_⟩
    have := le_max_left (lcsVal mat s e (i - 1) j) (lcsVal mat s e i (j - 1))
    omega
  · rw [if_neg h1, max_eq_left (not_lt.mp h1)]
    by_cases h2 : lcsVal mat s e (i - 1) j < lcsVal mat s e i (j - 1)
    · right; left
      rw [if_pos h2]
      exact ⟨rfl, max_eq_right (le_of_lt h2)⟩
    · left
      rw [if_neg h2]
      exact ⟨rfl, max_eq_left (not_lt.mp h2)⟩

/-! ## Facts about the hairpin, pseudoknot and structure tables -/

theorem Solved.hairpin_nonneg {T : Tables} {n : Nat} (hT : Solved T n) (s e : Nat) :
    0 ≤ T.hairpin s e := by
  by_cases hd : 1 ≤ s ∧ s < e ∧ e ≤ n
  · have h := hT.hairpin s e hd.1 hd.2.1 hd.2.2
    have h1 := (hairpinCell_spec T.lcs_dp s e).1
    rw [← h] at h1
    exact h1
  · have h := hT.hairpin_zero s e hd
    have : T.hairpin s e = 0 := congrArg Prod.fst h
    omega

/-- The hairpin entry dominates every split of the alignment table of its interval. -/
theorem Solved.hairpin_ge {T : Tables} {n : Nat} (hT : Solved T n) (s e k : Nat)
    (hs : 1 ≤ s) (hse : s < e) (he : e ≤ n) (hk : k ≤ e + 1 - s) :
    lcsVal T.mat s e k (e + 1 - s - k) ≤ T.hairpin s e := by
  have h := hT.hairpin s e hs hse he
  have h1 := (hairpinCell_spec T.lcs_dp s e).2.1 k hk
  rw [← h, hT.lcs_dp s e k _ hs (le_of_lt hse) he (by omega)] at h1
  exact h1

/-- The recorded split attains the hairpin entry. -/
theorem Solved.hairpin_restore_spec {T : Tables} {n : Nat} (hT : Solved T n) (s e : Nat)
    (hs : 1 ≤ s) (hse : s < e) (he : e ≤ n) :
    T.hairpin_restore s e ≤ e + 1 - s ∧
    lcsVal T.mat s e (T.hairpin_restore s e) (e + 1 - s - T.hairpin_restore s e) =
      T.hairpin s e := by
  have h := hT.hairpin s e hs hse he
  have h1 := (hairpinCell_spec T.lcs_dp s e).2.2
  rw [← h] at h1
  rcases h1 with h1 | ⟨h1, -, h2, -⟩
  · have e1 : T.hairpin s e = 0 := congrArg Prod.fst h1
    have e2 : T.hairpin_restore s e = 0 := congrArg Prod.snd h1
    rw [e1, e2, lcsVal_zero_left]
    exact ⟨by omega, rfl⟩
  · simp only at h1 h2
    refine ⟨h1, ?_⟩
    rw [← hT.lcs_dp s e _ _ hs (le_of_lt hse) he (by omega)]
    exact h2

theorem Solved.pseudoknot_spec {T : Tables} {n : Nat} (hT : Solved T n) (s e : Nat) :
    pkGood T.lcs_dp s e (T.pseudoknot s e, T.pseudoknot_restore s e)
      (fun i k j => 1 ≤ s ∧ e ≤ n ∧ s < i ∧ i ≤ k ∧ k < j ∧ j < e) := by
  by_cases hd : 1 ≤ s ∧ s + 3 ≤ e ∧ e ≤ n
  · rw [hT.pseudoknot s e hd.1 hd.2.1 hd.2.2]
    exact pkGood_mono _ _ _ _ _ _ (by intro i k j h; exact h.2.2) (pkCell_spec T.lcs_dp s e)
  · rw [hT.pseudoknot_zero s e hd]
    exact ⟨le_refl _, Or.inl rfl, by intro i k j h; omega⟩

theorem Solved.pseudoknot_nonneg {T : Tables} {n : Nat} (hT : Solved T n) (s e : Nat) :
    0 ≤ T.pseudoknot s e := (hT.pseudoknot_spec s e).1

/-- The pseudoknot entry dominates the score of every candidate `s < i ≤ k < j < e`. -/
theorem Solved.pseudoknot_ge {T : Tables} {n : Nat} (hT : Solved T n) (s e i k j : Nat)
    (hs : 1 ≤ s) (he : e ≤ n) (hi : s < i) (hik : i ≤ k) (hkj : k < j) (hje : j < e) :
    lcsVal T.mat s j (i - s) (j - k) + lcsVal T.mat i e (k + 1 - i) (e - j) ≤ T.pseudoknot s e := by
  have h := (hT.pseudoknot_spec s e).2.2 i k j ⟨hs, he, hi, hik, hkj, hje⟩
  unfold pkVal at h
  rw [hT.lcs_dp s j _ _ hs (by omega) (by omega) (by omega),
    hT.lcs_dp i e _ _ (by omega) (by omega) he (by omega)] at h
  exact h

/-- A positive pseudoknot entry is attained by the recorded candidate. -/
theorem Solved.pseudoknot_restore_spec {T : Tables} {n : Nat} (hT : Solved T n) (s e : Nat)
    (hpos : 0 < T.pseudoknot s e) :
    1 ≤ s ∧ e ≤ n ∧ s < (T.pseudoknot_restore s e).i ∧
    (T.pseudoknot_restore s e).i ≤ (T.pseudoknot_restore s e).k ∧
    (T.pseudoknot_restore s e).k < (T.pseudoknot_restore s e).j ∧
    (T.pseudoknot_restore s e).j < e ∧
    lcsVal T.mat s (T.pseudoknot_restore s e).j ((T.pseudoknot_restore s e).i - s)
        ((T.pseudoknot_restore s e).j - (T.pseudoknot_restore s e).k) +
      lcsVal T.mat (T.pseudoknot_restore s e).i e
        ((T.pseudoknot_restore s e).k + 1 - (T.pseudoknot_restore s e).i)
        (e - (T.pseudoknot_restore s e).j) = T.pseudoknot s e := by
  have hd : 1 ≤ s ∧ s + 3 ≤ e ∧ e ≤ n := by
    by_contra hd
    have h := hT.pseudoknot_zero s e hd
    have : T.pseudoknot s e = 0 := congrArg Prod.fst h
    omega
  rcases (hT.pseudoknot_spec s e).2.1 with h | ⟨-, h1, h2, h3, h4, h5⟩
  · have : T.pseudoknot s e = 0 := congrArg Prod.fst h
    omega
  · simp only at h1 h2 h3 h4 h5
    refine ⟨hd.1, hd.2.2, h1, h2, h3, h4, ?_⟩
    unfold pkVal at h5
    rw [hT.lcs_dp s _ _ _ hd.1 (by omega) (by omega) (by omega),
      hT.lcs_dp _ e _ _ (by omega) (by omega) hd.2.2 (by omega)] at h5
    exact h5

theorem Solved.structure_eq_zero {T : Tables} {n : Nat} (hT : Solved T n) (s e : Nat)
    (h : ¬ (1 ≤ s ∧ s < e ∧ e ≤ n)) : T.structure_dp s e = 0 :=
  congrArg Prod.fst (hT.structure_zero s e h)

theorem Solved.structure_restore_eq_zero {T : Tables} {n : Nat} (hT : Solved T n) (s e : Nat)
    (h : ¬ (1 ≤ s ∧ s < e ∧ e ≤ n)) : T.structure_restore s e = 0 :=
  congrArg Prod.snd (hT.structure_zero s e h)

/-- The structure entry of an interval `1 ≤ s < e ≤ n`: its lower bounds and its decision. -/
theorem Solved.structure_spec {T : Tables} {n : Nat} (hT : Solved T n) (s e : Nat)
    (hs : 1 ≤ s) (hse : s < e) (he : e ≤ n) :
    T.hairpin s e ≤ T.structure_dp s e ∧ T.pseudoknot s e ≤ T.structure_dp s e ∧
    (∀ k, s ≤ k → k < e → T.structure_dp s k + T.structure_dp (k + 1) e ≤ T.structure_dp s e) ∧
    ((T.structure_restore s e = -1 ∧ T.structure_dp s e = T.hairpin s e) ∨
      (T.structure_restore s e = -2 ∧ T.structure_dp s e = T.pseudoknot s e ∧
        T.hairpin s e < T.pseudoknot s e) ∨
      (∃ k, s ≤ k ∧ k < e ∧ T.structure_restore s e = (k : Int) ∧
        T.structure_dp s e = T.structure_dp s k + T.structure_dp (k + 1) e ∧
        T.hairpin s e < T.structure_dp s e ∧ T.pseudoknot s e < T.structure_dp s e ∧
        ∀ k1, s ≤ k1 → k1 < k →
          T.structure_dp s k1 + T.structure_dp (k1 + 1) e < T.structure_dp s e)) := by
  have h := hT.structure_cell s e hs hse he
  have h1 := structCell_spec T.hairpin T.pseudoknot T.structure_dp s e
  rw [← h] at h1
  exact h1

theorem Solved.structure_nonneg {T : Tables} {n : Nat} (hT : Solved T n) (s e : Nat) :
    0 ≤ T.structure_dp s e := by
  by_cases hd : 1 ≤ s ∧ s < e ∧ e ≤ n
  · exact le_trans (hT.hairpin_nonneg s e) (hT.structure_spec s e hd.1 hd.2.1 hd.2.2).1
  · rw [hT.structure_eq_zero s e hd]

/-! ## Reconstruction -/

theorem pairSum_nil (mat : Tab2 Int) : pairSum mat [] = 0 := rfl

theorem pairSum_cons (mat : Tab2 Int) (p : Nat × Nat) (out : List (Nat × Nat)) :
    pairSum mat (p :: out) = mat p.1 p.2 + pairSum mat out := by
  simp [pairSum]

theorem pairSum_append (mat : Tab2 Int) (out1 out2 : List (Nat × Nat)) :
    pairSum mat (out1 ++ out2) = pairSum mat out1 + pairSum mat out2 := by
  simp [pairSum]

/-- The walk of `get_lcs_element` over the decision table of `[s, e]` from `(l, r)`: it
ends, the pairs it pushes add up to the alignment entry, they lie in the two arms,
have a positive score, and each one is enclosed by the next. -/
theorem get_lcs_loop_spec {T : Tables} {n : Nat} (hT : Solved T n) (s e : Nat)
    (hs : 1 ≤ s) (hse : s ≤ e) (he : e ≤ n) :
    ∀ (fuel l r : Nat) (acc : List (Nat × Nat)), l + r ≤ fuel → l + r ≤ e + 1 - s →
      ∃ out, get_lcs_loop T s e fuel l r acc = some (acc ++ out) ∧
        pairSum T.mat out = lcsVal T.mat s e l r ∧
        (∀ p ∈ out, s ≤ p.1 ∧ p.1 < s + l ∧ e < p.2 + r ∧ p.2 ≤ e ∧ 0 < T.mat p.1 p.2) ∧
        out.Pairwise enclosedBy := by
  intro fuel
  induction fuel with
  | zero =>
    intro l r acc hf _
    have hl : l = 0 := by omega
    have hr : r = 0 := by omega
    subst hl hr
    refine ⟨[], ?_, ?_, ?_, List.Pairwise.nil⟩
    · simp [get_lcs_loop]
    · rw [lcsVal_zero_left]; rfl
    · intro p hp; cases hp
  | succ fuel ih =>
    intro l r acc hf hlen
    by_cases hlr : l ≠ 0 ∧ r ≠ 0
    · have hl1 : 1 ≤ l := by omega
      have hr1 : 1 ≤ r := by omega
      have hdec := hT.lcs_restore s e l r hs hse he hl1 hr1 hlen
      simp only [get_lcs_loop, if_pos hlr, hdec]
      rcases lcsDec_cases T.mat s e l r hl1 hr1 with ⟨hd, hv⟩ | ⟨hd, hv⟩ | ⟨hd, hv, hpos⟩
      · rw [hd, if_pos rfl]
        obtain ⟨out, h1, h2, h3, h4⟩ := ih (l - 1) r acc (by omega) (by omega)
        refine ⟨out, h1, by rw [h2, hv], ?_, h4⟩
        intro p hp
        have := h3 p hp
        omega
      · rw [hd, if_neg (by decide), if_pos rfl]
        obtain ⟨out, h1, h2, h3, h4⟩ := ih l (r - 1) acc (by omega) (by omega)
        refine ⟨out, h1, by rw [h2, hv], ?_, h4⟩
        intro p hp
        have := h3 p hp
        omega
      · rw [hd, if_neg (by decide), if_neg (by decide)]
        obtain ⟨out, h1, h2, h3, h4⟩ :=
          ih (l - 1) (r - 1) (acc ++ [(s + l - 1, e + 1 - r)]) (by omega) (by omega)
        refine ⟨(s + l - 1, e + 1 - r) :: out, ?_, ?_, ?_, ?_⟩
        · rw [h1]; simp
        · rw [pairSum_cons, h2, hv]; ring
        · intro p hp
          rcases List.mem_cons.mp hp with rfl | hp
          · refine ⟨by simp only; omega, by simp only; omega, by simp only; omega,
              by simp only; omega, hpos⟩
          · have := h3 p hp
            omega
        · refine List.Pairwise.cons ?_ h4
          intro q hq
          have := h3 q hq
          unfold enclosedBy
          simp only
          omega
    · simp only [get_lcs_loop, if_neg hlr]
      refine ⟨[], by simp, ?_, (by intro p hp; cases hp), List.Pairwise.nil⟩
      rcases Nat.eq_zero_or_pos l with h | h
      · subst h; rw [lcsVal_zero_left]; rfl
      · have hr : r = 0 := by omega
        subst hr; rw [lcsVal_zero_right]; rfl

theorem get_lcs_element_spec {T : Tables} {n : Nat} (hT : Solved T n) (s e l r : Nat)
    (acc : List (Nat × Nat)) (hs : 1 ≤ s) (hse : s ≤ e) (he : e ≤ n) (hlen : l + r ≤ e + 1 - s) :
    ∃ out, get_lcs_element T s e l r acc = some (acc ++ out) ∧
      pairSum T.mat out = lcsVal T.mat s e l r ∧
      (∀ p ∈ out, s ≤ p.1 ∧ p.1 < s + l ∧ e < p.2 + r ∧ p.2 ≤ e ∧ 0 < T.mat p.1 p.2) ∧
      out.Pairwise enclosedBy :=
  get_lcs_loop_spec hT s e hs hse he (l + r) l r acc (le_refl _) hlen

theorem restore_spec {T : Tables} {n : Nat} (hT : Solved T n) :
    ∀ (fuel l r : Nat) (acc : List (Nat × Nat)), 1 ≤ l → l < r → r ≤ n → r - l ≤ fuel →
      ∃ out, restore T fuel l r acc = some (acc ++ out) ∧ RestoreOut T l r out := by
  intro fuel
  induction fuel with
  | zero => intro l r acc h1 h2 h3 h4; omega
  | succ fuel ih =>
    intro l r acc hl hlr hr hf
    obtain ⟨-, -, -, hdec⟩ := hT.structure_spec l r hl hlr hr
    rcases hdec with ⟨hd, hv⟩ | ⟨hd, hv, hlt⟩ | ⟨k, hk1, hk2, hd, hv, -⟩
    · -- hairpin
      obtain ⟨hh1, hh2⟩ := hT.hairpin_restore_spec l r hl hlr hr
      obtain ⟨out, h1, h2, h3, h4⟩ := get_lcs_element_spec hT l r (T.hairpin_restore l r)
        (r + 1 - l - T.hairpin_restore l r) acc hl (le_of_lt hlr) hr (by omega)
      refine ⟨out, ?_, ⟨by rw [h2, hh2, hv], ?_, ?_, fun _ => h4⟩⟩
      · simp only [restore, if_pos hd]
        exact h1
      · intro p hp
        have := h3 p hp
        omega
      · refine List.Pairwise.imp_of_mem ?_ h4
        intro p q hp hq hpq
        have := h3 p hp
        have := h3 q hq
        unfold enclosedBy at hpq
        unfold disjointPairs
        omega
    · -- pseudoknot
      have hpos : 0 < T.pseudoknot l r := lt_of_le_of_lt (hT.hairpin_nonneg l r) hlt
      obtain ⟨-, -, p1, p2, p3, p4, p5⟩ := hT.pseudoknot_restore_spec l r hpos
      obtain ⟨out1, a1, a2, a3, a4⟩ := get_lcs_element_spec hT l (T.pseudoknot_restore l r).j
        ((T.pseudoknot_restore l r).i - l)
        ((T.pseudoknot_restore l r).j - (T.pseudoknot_restore l r).k) acc hl (by omega) (by omega)
        (by omega)
      obtain ⟨out2, b1, b2, b3, b4⟩ := get_lcs_element_spec hT (T.pseudoknot_restore l r).i r
        ((T.pseudoknot_restore l r).k + 1 - (T.pseudoknot_restore l r).i)
        (r - (T.pseudoknot_restore l r).j) (acc ++ out1) (by omega) (by omega) hr (by omega)
      have c1 : ∀ p ∈ out1, ∀ q ∈ out1, enclosedBy p q → disjointPairs p q := by
        intro p hp q hq hpq
        have := a3 p hp
        have := a3 q hq
        unfold enclosedBy at hpq
        unfold disjointPairs
        omega
      have c2 : ∀ p ∈ out2, ∀ q ∈ out2, enclosedBy p q → disjointPairs p q := by
        intro p hp q hq hpq
        have := b3 p hp
        have := b3 q hq
        unfold enclosedBy at hpq
        unfold disjointPairs
        omega
      refine ⟨out1 ++ out2, ?_, ⟨?_, ?_, ?_, ?_⟩⟩
      · have n1 : ¬ (T.structure_restore l r = -1) := by rw [hd]; decide
        simp only [restore, if_neg n1, if_pos hd, a1, b1, List.append_assoc]
      · rw [pairSum_append, a2, b2, p5, hv]
      · intro p hp
        rcases List.mem_append.mp hp with hp | hp
        · have := a3 p hp
          omega
        · have := b3 p hp
          omega
      · rw [List.pairwise_append]
        refine ⟨List.Pairwise.imp_of_mem (fun hp hq h => c1 _ hp _ hq h) a4,
          List.Pairwise.imp_of_mem (fun hp hq h => c2 _ hp _ hq h) b4, ?_⟩
        intro p hp q hq
        have := a3 p hp
        have := b3 q hq
        unfold disjointPairs
        omega
      · intro h; rw [hd] at h; exact absurd h (by decide)
    · -- split at `k`
      have n1 : ¬ (T.structure_restore l r = -1) := by rw [hd]; omega
      have n2 : ¬ (T.structure_restore l r = -2) := by rw [hd]; omega
      have hk : (T.structure_restore l r).toNat = k := by rw [hd]; exact Int.toNat_natCast k
      have hleft : ∃ out1, (if l + 1 ≤ k ∧ l ≥ 1 then restore T fuel l k acc else some acc) =
          some (acc ++ out1) ∧ pairSum T.mat out1 = T.structure_dp l k ∧
          (∀ p ∈ out1, l ≤ p.1 ∧ p.1 < p.2 ∧ p.2 ≤ k ∧ 0 < T.mat p.1 p.2) ∧
          out1.Pairwise disjointPairs := by
        by_cases hc : l + 1 ≤ k
        · obtain ⟨out1, a1, a2⟩ := ih l k acc hl (by omega) (by omega) (by omega)
          exact ⟨out1, by rw [if_pos ⟨hc, hl⟩, a1], a2.sum_eq, a2.bounds, a2.disjoint⟩
        · refine ⟨[], by rw [if_neg (by omega)]; simp, ?_, (by intro p hp; cases hp),
            List.Pairwise.nil⟩
          rw [hT.structure_eq_zero l k (by omega)]; rfl
      obtain ⟨out1, a1, a2, a3, a4⟩ := hleft
      have hright : ∃ out2, (if k + 2 ≤ r ∧ k + 1 ≥ 1 then restore T fuel (k + 1) r (acc ++ out1)
          else some (acc ++ out1)) = some (acc ++ out1 ++ out2) ∧
          pairSum T.mat out2 = T.structure_dp (k + 1) r ∧
          (∀ p ∈ out2, k + 1 ≤ p.1 ∧ p.1 < p.2 ∧ p.2 ≤ r ∧ 0 < T.mat p.1 p.2) ∧
          out2.Pairwise disjointPairs := by
        by_cases hc : k + 2 ≤ r
        · obtain ⟨out2, b1, b2⟩ := ih (k + 1) r (acc ++ out1) (by omega) (by omega) hr (by omega)
          exact ⟨out2, by rw [if_pos ⟨hc, by omega⟩, b1], b2.sum_eq, b2.bounds, b2.disjoint⟩
        · refine ⟨[], by rw [if_neg (by omega)]; simp, ?_, (by intro p hp; cases hp),
            List.Pairwise.nil⟩
          rw [hT.structure_eq_zero (k + 1) r (by omega)]; rfl
      obtain ⟨out2, b1, b2, b3, b4⟩ := hright
      refine ⟨out1 ++ out2, ?_, ⟨?_, ?_, ?_, ?_⟩⟩
      · simp only [restore, if_neg n1, if_neg n2, hk, a1, b1, List.append_assoc]
      · rw [pairSum_append, a2, b2, hv]
      · intro p hp
        rcases List.mem_append.mp hp with hp | hp
        · have := a3 p hp
          omega
        · have := b3 p hp
          omega
      · rw [List.pairwise_append]
        refine ⟨a4, b4, ?_⟩
        intro p hp q hq
        have := a3 p hp
        have := b3 q hq
        unfold disjointPairs
        omega
      · intro h; exact absurd h n1

/-! ## The notation renderer -/

theorem render_step_eq (L : List (Nat × Nat)) (i : Nat) (ret : List Char) :
    render_step L i ret =
      (ret.set ((L.getD i (0, 0)).1 - 1) (openCh (pkFlag L i))).set ((L.getD i (0, 0)).2 - 1)
        (closeCh (pkFlag L i)) := by
  unfold render_step
  simp only
  have hfold : (List.range i).any (fun j => decide ((L.getD i (0, 0)).1 - 1 <
      (L.getD j (0, 0)).2 ∧ (L.getD j (0, 0)).2 < (L.getD i (0, 0)).2 - 1)) = pkFlag L i := rfl
  rw [hfold]
  cases pkFlag L i <;> rfl

theorem getD_mem {L : List (Nat × Nat)} {x : Nat} (hx : x < L.length) :
    L.getD x (0, 0) ∈ L := by
  rw [List.getD_eq_getElem _ _ hx]
  exact List.getElem_mem hx

theorem getD_disjoint {L : List (Nat × Nat)} (hd : L.Pairwise disjointPairs) {x y : Nat}
    (hx : x < L.length) (hy : y < L.length) (hxy : x ≠ y) :
    disjointPairs (L.getD x (0, 0)) (L.getD y (0, 0)) := by
  rw [List.getD_eq_getElem _ _ hx, List.getD_eq_getElem _ _ hy]
  rcases Nat.lt_or_gt_of_ne hxy with h | h
  · exact List.pairwise_iff_getElem.mp hd x y hx hy h
  · have := List.pairwise_iff_getElem.mp hd y x hy hx h
    unfold disjointPairs at this ⊢
    omega

theorem render_loop_spec (n : Nat) (L : List (Nat × Nat))
    (hb : ∀ p ∈ L, 1 ≤ p.1 ∧ p.1 < p.2 ∧ p.2 ≤ n) (hd : L.Pairwise disjointPairs) :
    renderInv n L L.length
      (forLt 0 L.length (fun i ret => render_step L i ret) (List.replicate n '.')) := by
  refine forLt_inv (fun i ret => renderInv n L i ret) 0 L.length _ _ (Nat.zero_le _) ?_ ?_
  · refine ⟨List.length_replicate _ _, by intro x hx; omega, ?_⟩
    intro q hq _
    exact List.getElem?_replicate_of_lt hq
  · rintro i ret - hi ⟨h1, h2, h3⟩
    have hbi := hb _ (getD_mem hi)
    rw [render_step_eq]
    refine ⟨by simp [h1], ?_, ?_⟩
    · intro x hx hxL
      rcases Nat.lt_succ_iff_lt_or_eq.mp hx with hlt | rfl
      · have hdis := getD_disjoint hd hxL hi (by omega)
        have hbx := hb _ (getD_mem hxL)
        unfold disjointPairs at hdis
        rw [List.getElem?_set_ne (by omega), List.getElem?_set_ne (by omega),
          List.getElem?_set_ne (by omega), List.getElem?_set_ne (by omega)]
        exact h2 x hlt hxL
      · constructor
        · rw [List.getElem?_set_ne (by omega), List.getElem?_set_self (by omega)]
        · rw [List.getElem?_set_self (by rw [List.length_set, h1]; omega)]
    · intro q hq hall
      have hqi := hall i (by omega) hi
      rw [List.getElem?_set_ne (by omega), List.getElem?_set_ne (by omega)]
      exact h3 q hq (fun x hx hxL => hall x (by omega) hxL)

/-! ### Sorting the recovered pairs -/

theorem disjointPairs_symm {p q : Nat × Nat} (h : disjointPairs p q) : disjointPairs q p := by
  unfold disjointPairs at h ⊢
  omega

/-- The sorted list of a matching: a matching again, with the same pairs, strictly
ascending in the left index. -/
theorem sorted_spec (out : List (Nat × Nat)) (hd : out.Pairwise disjointPairs) :
    (out.insertionSort pairLE).Perm out ∧
    (out.insertionSort pairLE).Pairwise disjointPairs ∧
    (out.insertionSort pairLE).Pairwise (fun p q => p.1 < q.1) := by
  have hp := List.perm_insertionSort pairLE out
  have hd2 : (out.insertionSort pairLE).Pairwise disjointPairs :=
    (hp.pairwise_iff (fun h => disjointPairs_symm h)).mpr hd
  refine ⟨hp, hd2, ?_⟩
  have hs : (out.insertionSort pairLE).Pairwise pairLE := List.sorted_insertionSort pairLE out
  have := hs.and hd2
  refine this.imp ?_
  intro p q h
  have h1 := h.1
  have h2 := h.2
  unfold pairLE at h1
  unfold disjointPairs at h2
  omega

/-! ## The whole run -/

/-- The call `restore(1, seq_len)` of `main`: with fuel beyond the sequence length it
returns, and the pairs it recovers add up to the optimal score, lie in the sequence,
have a positive score and share no position. -/
theorem restore_top {T : Tables} {n : Nat} (hT : Solved T n) (fuel : Nat) (hf : n < fuel) :
    ∃ out, restore T fuel 1 n [] = some out ∧ RestoreOut T 1 n out := by
  by_cases hn : 1 < n
  · obtain ⟨out, h1, h2⟩ := restore_spec hT fuel 1 n [] (le_refl _) hn (le_refl _) (by omega)
    exact ⟨out, by simpa using h1, h2⟩
  · obtain ⟨fuel, rfl⟩ : ∃ f, fuel = f + 1 := ⟨fuel - 1, by omega⟩
    have hz := hT.structure_restore_eq_zero 1 n (by omega)
    refine ⟨[], ?_, ⟨?_, (by intro p hp; cases hp), List.Pairwise.nil, fun _ => List.Pairwise.nil⟩⟩
    · have c1 : ¬ (2 ≤ n) := by omega
      simp [restore, hz, c1]
    · rw [hT.structure_eq_zero 1 n (by omega)]; rfl

theorem pairSum_perm (mat : Tab2 Int) {l1 l2 : List (Nat × Nat)} (h : l1.Perm l2) :
    pairSum mat l1 = pairSum mat l2 :=
  (h.map _).sum_eq

theorem main_spec (cfg : Config) (input : List Char) :
    ∃ out, main cfg input = some out ∧ MainOut cfg input out := by
  have hT := solve_tables_solved cfg (' ' :: input) input.length
  obtain ⟨out0, h1, h2⟩ := restore_top hT (input.length + 1) (Nat.lt_succ_self _)
  obtain ⟨s1, s2, s3⟩ := sorted_spec out0 h2.disjoint
  have hb : ∀ p ∈ out0.insertionSort pairLE, 1 ≤ p.1 ∧ p.1 < p.2 ∧ p.2 ≤ input.length ∧
      0 < build_match cfg (' ' :: input) input.length p.1 p.2 :=
    fun p hp => h2.bounds p (s1.mem_iff.mp hp)
  refine ⟨⟨solve cfg (' ' :: input) input.length,
    ( get_dot_braket_notation input.length out0).1,
    ( get_dot_braket_notation input.length out0).2⟩, ?_, ?_⟩
  · simp only [main, h1]
  · refine ⟨rfl, ⟨out0, h1, s1⟩, ?_, hb, s2, s3, ?_, ?_⟩
    · show pairSum _ (out0.insertionSort pairLE) = _
      rw [pairSum_perm _ s1]
      exact h2.sum_eq
    · intro hh p hp q hq hc
      have hp0 := s1.mem_iff.mp hp
      have hq0 := s1.mem_iff.mp hq
      have hsym : out0.Pairwise (fun a b => enclosedBy a b ∨ enclosedBy b a) :=
        (h2.nested_of_hairpin hh).imp (fun h => Or.inl h)
      have hne : p ≠ q := by
        rintro rfl
        unfold crossing at hc
        omega
      have := hsym.forall (fun a b h => h.symm) hp0 hq0 hne
      unfold crossing at hc
      unfold enclosedBy at this
      have := (hb p hp).2.1
      have := (hb q hq).2.1
      omega
    · exact render_loop_spec input.length _ (fun p hp => ⟨(hb p hp).1, (hb p hp).2.1,
        (hb p hp).2.2.1⟩) s2

/-! ## What the rendered string says -/

theorem pkFlag_crossing (L : List (Nat × Nat)) (hd : L.Pairwise disjointPairs)
    (ha : L.Pairwise (fun p q => p.1 < q.1)) (x : Nat) (hx : x < L.length)
    (hb : 1 ≤ (L.getD x (0, 0)).1) (hf : pkFlag L x = true) :
    ∃ c ∈ L, crossing c (L.getD x (0, 0)) := by
  unfold pkFlag at hf
  rw [List.any_eq_true] at hf
  obtain ⟨j, hj, hc⟩ := hf
  rw [List.mem_range] at hj
  have hc1 := of_decide_eq_true hc
  have hjL : j < L.length := by omega
  refine ⟨L.getD j (0, 0), getD_mem hjL, ?_⟩
  have hdis := getD_disjoint hd hjL hx (by omega)
  have hasc : (L.getD j (0, 0)).1 < (L.getD x (0, 0)).1 := by
    rw [List.getD_eq_getElem _ _ hjL, List.getD_eq_getElem _ _ hx]
    exact List.pairwise_iff_getElem.mp ha j x hjL hx hj
  unfold disjointPairs at hdis
  unfold crossing
  omega

theorem mem_iff_getD {L : List (Nat × Nat)} {q : Nat × Nat} :
    q ∈ L ↔ ∃ x, x < L.length ∧ L.getD x (0, 0) = q := by
  constructor
  · intro h
    obtain ⟨x, hx, hq⟩ := List.mem_iff_getElem.mp h
    exact ⟨x, hx, by rw [List.getD_eq_getElem _ _ hx]; exact hq⟩
  · rintro ⟨x, hx, rfl⟩
    exact getD_mem hx

/-- The rendered string, pair by pair and position by position. -/
theorem render_facts (n : Nat) (L : List (Nat × Nat)) (dots : List Char)
    (hb : ∀ p ∈ L, 1 ≤ p.1 ∧ p.1 < p.2 ∧ p.2 ≤ n) (hd : L.Pairwise disjointPairs)
    (ha : L.Pairwise (fun p q => p.1 < q.1)) (hr : renderInv n L L.length dots) :
    dots.length = n ∧
    (∀ q ∈ L, ∃ b : Bool, dots[q.1 - 1]? = some (openCh b) ∧ dots[q.2 - 1]? = some (closeCh b) ∧
      (b = true → ∃ c ∈ L, crossing c q)) ∧
    (∀ p, 1 ≤ p → p ≤ n → (∀ q ∈ L, q.1 ≠ p ∧ q.2 ≠ p) → dots[p - 1]? = some '.') := by
  obtain ⟨h1, h2, h3⟩ := hr
  refine ⟨h1, ?_, ?_⟩
  · intro q hq
    obtain ⟨x, hx, rfl⟩ := mem_iff_getD.mp hq
    have := h2 x hx hx
    exact ⟨pkFlag L x, this.1, this.2,
      fun hf => pkFlag_crossing L hd ha x hx (hb _ hq).1 hf⟩
  · intro p hp1 hpn hall
    apply h3 (p - 1) (by omega)
    intro x _ hx
    have hm := getD_mem (L := L) hx
    have := hall _ hm
    have := hb _ hm
    omega

theorem openCh_cases (b : Bool) : (b = false ∧ openCh b = '(' ∧ closeCh b = ')') ∨
    (b = true ∧ openCh b = '{' ∧ closeCh b = '}') := by
  cases b
  · exact Or.inl ⟨rfl, rfl, rfl⟩
  · exact Or.inr ⟨rfl, rfl, rfl⟩

/-- Every position `1 ≤ p ≤ n` is a left end, a right end or in no pair. -/
theorem position_cases (L : List (Nat × Nat)) (p : Nat) :
    (∃ q ∈ L, q.1 = p) ∨ (∃ q ∈ L, q.2 = p) ∨ (∀ q ∈ L, q.1 ≠ p ∧ q.2 ≠ p) := by
  by_cases h1 : ∃ q ∈ L, q.1 = p
  · exact Or.inl h1
  · by_cases h2 : ∃ q ∈ L, q.2 = p
    · exact Or.inr (Or.inl h2)
    · refine Or.inr (Or.inr ?_)
      intro q hq
      exact ⟨fun h => h1 ⟨q, hq, h⟩, fun h => h2 ⟨q, hq, h⟩⟩

/-- The character of the rendered string at a position `1 ≤ p ≤ n`. -/
theorem render_char (n : Nat) (L : List (Nat × Nat)) (dots : List Char)
    (hb : ∀ p ∈ L, 1 ≤ p.1 ∧ p.1 < p.2 ∧ p.2 ≤ n) (hd : L.Pairwise disjointPairs)
    (ha : L.Pairwise (fun p q => p.1 < q.1)) (hr : renderInv n L L.length dots)
    (p : Nat) (hp1 : 1 ≤ p) (hpn : p ≤ n) :
    ((∃ q ∈ L, q.1 = p) ∧ (dots[p - 1]? = some '(' ∨
        (dots[p - 1]? = some '{' ∧ ∃ q ∈ L, ∃ c ∈ L, q.1 = p ∧ crossing c q))) ∨
    ((∃ q ∈ L, q.2 = p) ∧ (∀ q ∈ L, q.1 ≠ p) ∧ (dots[p - 1]? = some ')' ∨
        (dots[p - 1]? = some '}' ∧ ∃ q ∈ L, ∃ c ∈ L, q.2 = p ∧ crossing c q))) ∨
    ((∀ q ∈ L, q.1 ≠ p ∧ q.2 ≠ p) ∧ dots[p - 1]? = some '.') := by
  obtain ⟨-, f2, f3⟩ := render_facts n L dots hb hd ha hr
  rcases position_cases L p with ⟨q, hq, rfl⟩ | ⟨q, hq, rfl⟩ | h
  · left
    obtain ⟨b, b1, b2, b3⟩ := f2 q hq
    refine ⟨⟨q, hq, rfl⟩, ?_⟩
    rcases openCh_cases b with ⟨-, e1, -⟩ | ⟨e0, e1, -⟩
    · left; rw [b1, e1]
    · right
      obtain ⟨c, hc, hcr⟩ := b3 e0
      exact ⟨by rw [b1, e1], q, hq, c, hc, rfl, hcr⟩
  · right; left
    obtain ⟨b, b1, b2, b3⟩ := f2 q hq
    refine ⟨⟨q, hq, rfl⟩, ?_, ?_⟩
    · intro q1 hq1 heq
      by_cases hqq : q1 = q
      · subst hqq
        have := hb _ hq
        omega
      · have := (hd.forall (fun a b h => disjointPairs_symm h)) hq1 hq hqq
        unfold disjointPairs at this
        omega
    · rcases openCh_cases b with ⟨-, -, e2⟩ | ⟨e0, -, e2⟩
      · left; rw [b2, e2]
      · right
        obtain ⟨c, hc, hcr⟩ := b3 e0
        exact ⟨by rw [b2, e2], q, hq, c, hc, rfl, hcr⟩
  · right; right
    exact ⟨h, f3 p hp1 hpn h⟩

/-! ## The calls made by `main` -/

theorem run_solved (cfg : Config) (input : List Char) :
    Solved (run_tables cfg input) input.length :=
  solve_tables_solved cfg (' ' :: input) input.length

theorem run_match_eq (cfg : Config) (input : List Char) :
    run_match cfg input = matchVal cfg (' ' :: input) input.length :=
  build_match_eq cfg (' ' :: input) input.length

theorem symScore_cases (cfg : Config) (a b : Char) :
    symScore cfg a b = 0 ∨ symScore cfg a b = cfg.watsonCrickPairScore ∨
    (cfg.isWobblePairAllowed = true ∧ symScore cfg a b = cfg.wobblePairScore) := by
  unfold symScore
  split_ifs with h1 h2
  · exact Or.inr (Or.inr ⟨h1.1, rfl⟩)
  · exact Or.inr (Or.inl rfl)
  · exact Or.inl rfl

theorem symScore_eq (cfg : Config) (a b : Char) :
    symScore cfg a b = if isWatsonCrick a b then cfg.watsonCrickPairScore
      else if cfg.isWobblePairAllowed = true ∧ isWobble a b then cfg.wobblePairScore else 0 := by
  unfold symScore isWatsonCrick isWobble
  by_cases hw : (a = 'G' ∧ b = 'U') ∨ (a = 'U' ∧ b = 'G')
  · have hn : ¬ ((a = 'A' ∧ b = 'U') ∨ (a = 'U' ∧ b = 'A') ∨ (a = 'C' ∧ b = 'G') ∨
        (a = 'G' ∧ b = 'C')) := by
      rcases hw with ⟨rfl, rfl⟩ | ⟨rfl, rfl⟩
      · decide
      · decide
    by_cases he : cfg.isWobblePairAllowed = true
    · rw [if_pos ⟨he, hw⟩, if_neg hn, if_pos ⟨he, hw⟩]
    · rw [if_neg (fun h => he h.1), if_neg hn, if_neg hn, if_neg (fun h => he h.1)]
  · rw [if_neg (fun h => hw h.2)]
    by_cases hc : (a = 'A' ∧ b = 'U') ∨ (a = 'U' ∧ b = 'A') ∨ (a = 'C' ∧ b = 'G') ∨
        (a = 'G' ∧ b = 'C')
    · rw [if_pos hc, if_pos hc]
    · rw [if_neg hc, if_neg hc, if_neg (fun h => hw h.2)]

theorem symScore_unknown (cfg : Config) (a b : Char)
    (ha : a ≠ 'A' ∧ a ≠ 'C' ∧ a ≠ 'G' ∧ a ≠ 'U') : symScore cfg a b = 0 := by
  unfold symScore
  rw [if_neg, if_neg]
  · rintro (h | h | h | h)
    · exact ha.1 h.1
    · exact ha.2.2.2 h.1
    · exact ha.2.1 h.1
    · exact ha.2.2.1 h.1
  · rintro ⟨-, h | h⟩
    · exact ha.2.2.1 h.1
    · exact ha.2.2.2 h.1

theorem pairSum_const (mat : Tab2 Int) (c : Int) (out : List (Nat × Nat))
    (h : ∀ p ∈ out, mat p.1 p.2 = c) : pairSum mat out = (out.length : Int) * c := by
  induction out with
  | nil => simp [pairSum]
  | cons p out ih =>
    rw [pairSum_cons, h p (List.mem_cons_self _ _),
      ih (fun q hq => h q (List.mem_cons_of_mem _ hq))]
    simp only [List.length_cons]
    push_cast
    ring

theorem nodup_positions (out : List (Nat × Nat)) (hd : out.Pairwise disjointPairs)
    (hb : ∀ p ∈ out, p.1 < p.2) :
    (out.map Prod.fst ++ out.map Prod.snd).Nodup := by
  rw [List.nodup_append]
  refine ⟨?_, ?_, ?_⟩
  · show List.Pairwise (fun a b => a ≠ b) _
    rw [List.pairwise_map]
    exact hd.imp (fun h => h.1)
  · show List.Pairwise (fun a b => a ≠ b) _
    rw [List.pairwise_map]
    exact hd.imp (fun h => h.2.2.2)
  · intro a h1 h2
    obtain ⟨p, hp, rfl⟩ := List.mem_map.mp h1
    obtain ⟨q, hq, hqp⟩ := List.mem_map.mp h2
    by_cases hpq : p = q
    · subst hpq
      have := hb p hp
      omega
    · have := (hd.forall (fun a b h => disjointPairs_symm h)) hp hq hpq
      unfold disjointPairs at this
      omega

theorem nodup_of_disjoint (out : List (Nat × Nat)) (hd : out.Pairwise disjointPairs) :
    out.Nodup := by
  show List.Pairwise (fun a b => a ≠ b) _
  refine hd.imp ?_
  intro p q h hpq
  subst hpq
  exact h.1 rfl

/-! ## The claims about the score matrix, the tables and the recovered pairs -/

theorem run_restore_spec (cfg : Config) (input : List Char) (fuel : Nat)
    (hf : input.length < fuel) :
    ∃ out, run_restore cfg input fuel = some out ∧
      RestoreOut (run_tables cfg input) 1 input.length out :=
  restore_top (run_solved cfg input) fuel hf

theorem run_match_pos (cfg : Config) (input : List Char) (c : Int)
    (hwc : cfg.watsonCrickPairScore = c)
    (hwb : cfg.isWobblePairAllowed = false ∨ cfg.wobblePairScore = c) (x y : Nat)
    (hpos : 0 < run_match cfg input x y) : run_match cfg input x y = c := by
  rw [run_match_eq] at hpos ⊢
  unfold matchVal at hpos ⊢
  split_ifs at hpos ⊢ with h
  · rcases symScore_cases cfg (charAt (' ' :: input) x) (charAt (' ' :: input) y) with
      h0 | h1 | ⟨h2, h3⟩
    · omega
    · rw [h1, hwc]
    · rcases hwb with hwb | hwb
      · rw [hwb] at h2; exact absurd h2 (by decide)
      · rw [h3, hwb]
  · omega

/-- C2: after `solve` and `restore(1, N)` (with fuel beyond the sequence length the call
returns) the scores of the recovered pairs add up to the value that `solve` returned; hence
when every pairable pair has the same score `c > 0` (wobble pairing disabled, or
`wobblePairScore = watsonCrickPairScore = c`) the number of recovered pairs times `c` is
that value. -/
theorem recovered_score_accounting (cfg : Config) (input : List Char) (fuel : Nat)
    (hf : input.length < fuel) :
    ∃ out, run_restore cfg input fuel = some out ∧
      pairSum (run_match cfg input) out = run_score cfg input ∧
      ∀ c : Int, 0 < c → cfg.watsonCrickPairScore = c →
        (cfg.isWobblePairAllowed = false ∨ cfg.wobblePairScore = c) →
        (out.length : Int) * c = run_score cfg input := by
  obtain ⟨out, h1, h2⟩ := run_restore_spec cfg input fuel hf
  have hs : pairSum (run_match cfg input) out = run_score cfg input := h2.sum_eq
  refine ⟨out, h1, hs, ?_⟩
  intro c _ hwc hwb
  rw [← hs]
  refine (pairSum_const _ c out ?_).symm
  intro p hp
  exact run_match_pos cfg input c hwc hwb p.1 p.2 (h2.bounds p hp).2.2.2

theorem recovered_score_accounting_witness :
    ∃ out, run_restore defaultConfig ['A', 'U'] 3 = some out ∧
      pairSum (run_match defaultConfig ['A', 'U']) out = run_score defaultConfig ['A', 'U'] ∧
      (out.length : Int) * 1 = run_score defaultConfig ['A', 'U'] := by
  obtain ⟨out, h1, h2, h3⟩ := recovered_score_accounting defaultConfig ['A', 'U'] 3 (by decide)
  exact ⟨out, h1, h2, h3 1 (by decide) rfl (Or.inl rfl)⟩

/-- C3: every pair `(l, r)` that `restore(1, N)` pushes to the recovered list satisfies
`1 ≤ l < r ≤ N` and has a positive score in the match matrix. -/
theorem recovered_pairs_positive (cfg : Config) (input : List Char) (fuel : Nat)
    (hf : input.length < fuel) :
    ∃ out, run_restore cfg input fuel = some out ∧
      ∀ p ∈ out, 1 ≤ p.1 ∧ p.1 < p.2 ∧ p.2 ≤ input.length ∧ 0 < run_match cfg input p.1 p.2 := by
  obtain ⟨out, h1, h2⟩ := run_restore_spec cfg input fuel hf
  exact ⟨out, h1, h2.bounds⟩

theorem recovered_pairs_positive_witness :
    ∃ out, run_restore defaultConfig ['A', 'U'] 3 = some out ∧
      ∀ p ∈ out, 1 ≤ p.1 ∧ p.1 < p.2 ∧ p.2 ≤ ['A', 'U'].length ∧
        0 < run_match defaultConfig ['A', 'U'] p.1 p.2 :=
  recovered_pairs_positive defaultConfig ['A', 'U'] 3 (by decide)

/-- C4: the list of pairs recovered by `restore(1, N)` is a matching: no pair occurs
twice in it, and no sequence position occurs twice among the left and right endpoints of
its pairs. -/
theorem recovered_pairs_matching (cfg : Config) (input : List Char) (fuel : Nat)
    (hf : input.length < fuel) :
    ∃ out, run_restore cfg input fuel = some out ∧ out.Nodup ∧
      (out.map Prod.fst ++ out.map Prod.snd).Nodup ∧ out.Pairwise disjointPairs := by
  obtain ⟨out, h1, h2⟩ := run_restore_spec cfg input fuel hf
  exact ⟨out, h1, nodup_of_disjoint out h2.disjoint,
    nodup_positions out h2.disjoint (fun p hp => (h2.bounds p hp).2.1), h2.disjoint⟩

theorem recovered_pairs_matching_witness :
    ∃ out, run_restore defaultConfig ['A', 'C', 'U', 'G'] 5 = some out ∧ out.Nodup ∧
      (out.map Prod.fst ++ out.map Prod.snd).Nodup ∧ out.Pairwise disjointPairs :=
  recovered_pairs_matching defaultConfig ['A', 'C', 'U', 'G'] 5 (by decide)

/-- C7: the match matrix built by `solve` is symmetric with a zero diagonal; for two
distinct positions of the sequence it holds `watsonCrickPairScore` when the two symbols
are A-U or C-G, `wobblePairScore` when wobble pairing is enabled and the symbols are G-U,
and 0 otherwise; a position that holds a symbol outside A, C, G, U scores 0 with every
partner. -/
theorem match_matrix_spec (cfg : Config) (input : List Char) (i j : Nat) :
    run_match cfg input i j = run_match cfg input j i ∧
    run_match cfg input i i = 0 ∧
    (1 ≤ i → i ≤ input.length → 1 ≤ j → j ≤ input.length → i ≠ j →
      run_match cfg input i j =
        if isWatsonCrick (symbolAt input i) (symbolAt input j) then cfg.watsonCrickPairScore
        else if cfg.isWobblePairAllowed = true ∧ isWobble (symbolAt input i) (symbolAt input j)
          then cfg.wobblePairScore
        else 0) ∧
    (symbolAt input i ≠ 'A' ∧ symbolAt input i ≠ 'C' ∧ symbolAt input i ≠ 'G' ∧
      symbolAt input i ≠ 'U' → run_match cfg input i j = 0 ∧ run_match cfg input j i = 0) := by
  rw [run_match_eq]
  unfold matchVal symbolAt
  refine ⟨?_, ?_, ?_, ?_⟩
  · by_cases h : 1 ≤ i ∧ 1 ≤ j ∧ i ≤ input.length ∧ j ≤ input.length ∧ i ≠ j
    · rw [if_pos h, if_pos (by omega), symScore_comm]
    · rw [if_neg h, if_neg (by omega)]
  · rw [if_neg (by omega)]
  · intro h1 h2 h3 h4 h5
    rw [if_pos ⟨h1, h3, h2, h4, h5⟩, symScore_eq]
  · intro hu
    constructor
    · split_ifs
      · exact symScore_unknown cfg _ _ hu
      · rfl
    · split_ifs
      · rw [symScore_comm]; exact symScore_unknown cfg _ _ hu
      · rfl

theorem match_matrix_spec_witness :
    run_match defaultConfig ['A', 'U', 'x'] 1 2 =
      (if isWatsonCrick (symbolAt ['A', 'U', 'x'] 1) (symbolAt ['A', 'U', 'x'] 2) then
        defaultConfig.watsonCrickPairScore
      else if defaultConfig.isWobblePairAllowed = true ∧
          isWobble (symbolAt ['A', 'U', 'x'] 1) (symbolAt ['A', 'U', 'x'] 2) then
        defaultConfig.wobblePairScore
      else 0) ∧
    (run_match defaultConfig ['A', 'U', 'x'] 3 1 = 0 ∧
      run_match defaultConfig ['A', 'U', 'x'] 1 3 = 0) :=
  ⟨(match_matrix_spec defaultConfig ['A', 'U', 'x'] 1 2).2.2.1 (by decide) (by decide)
      (by decide) (by decide) (by decide),
    (match_matrix_spec defaultConfig ['A', 'U', 'x'] 3 1).2.2.2 (by decide)⟩

/-! ## The claims about the notation string -/

theorem mainOut_render_char (cfg : Config) (input : List Char) (out : Output)
    (h : MainOut cfg input out) (p : Nat) (hp1 : 1 ≤ p) (hpn : p ≤ input.length) :
    ((∃ q ∈ out.restored, q.1 = p) ∧ (out.dots[p - 1]? = some '(' ∨
        (out.dots[p - 1]? = some '{' ∧
          ∃ q ∈ out.restored, ∃ c ∈ out.restored, q.1 = p ∧ crossing c q))) ∨
    ((∃ q ∈ out.restored, q.2 = p) ∧ (∀ q ∈ out.restored, q.1 ≠ p) ∧
      (out.dots[p - 1]? = some ')' ∨
        (out.dots[p - 1]? = some '}' ∧
          ∃ q ∈ out.restored, ∃ c ∈ out.restored, q.2 = p ∧ crossing c q))) ∨
    ((∀ q ∈ out.restored, q.1 ≠ p ∧ q.2 ≠ p) ∧ out.dots[p - 1]? = some '.') :=
  render_char input.length out.restored out.dots
    (fun q hq => ⟨(h.bounds q hq).1, (h.bounds q hq).2.1, (h.bounds q hq).2.2.1⟩)
    h.disjoint h.ascending h.render p hp1 hpn

theorem mainOut_plain (cfg : Config) (input : List Char) (out : Output)
    (h : MainOut cfg input out)
    (hn : ∀ p ∈ out.restored, ∀ q ∈ out.restored, ¬ crossing p q) :
    ∀ ch ∈ out.dots, ch = '.' ∨ ch = '(' ∨ ch = ')' := by
  intro ch hch
  obtain ⟨x, hx, hxc⟩ := List.mem_iff_getElem.mp hch
  have hlen : out.dots.length = input.length := h.render.1
  have hget : out.dots[x + 1 - 1]? = some ch := by
    rw [Nat.add_sub_cancel, List.getElem?_eq_getElem hx, hxc]
  rcases mainOut_render_char cfg input out h (x + 1) (by omega) (by omega) with
    ⟨-, h1 | ⟨-, q, hq, c, hc, -, hcr⟩⟩ | ⟨-, -, h1 | ⟨-, q, hq, c, hc, -, hcr⟩⟩ | ⟨-, h1⟩
  · rw [hget] at h1; exact Or.inr (Or.inl (Option.some.inj h1))
  · exact absurd hcr (hn c hc q hq)
  · rw [hget] at h1; exact Or.inr (Or.inr (Option.some.inj h1))
  · exact absurd hcr (hn c hc q hq)
  · rw [hget] at h1; exact Or.inl (Option.some.inj h1)

set_option maxRecDepth 100000 in
/-- C8 (the code departs from the claim): on the input `ACUG` the recovered pairs are
`(1, 3)` and `(2, 4)`, which cross, and the right endpoint 3 of the first lies strictly
between the endpoints of the second; `get_dot_braket_notation` nevertheless renders
both with the standard brackets: the string is `(())` and holds no crossing-style
bracket. -/
theorem crossing_pair_rendered_plain :
    main defaultConfig ['A', 'C', 'U', 'G'] =
      some ⟨2, ['(', '(', ')', ')'], [(1, 3), (2, 4)]⟩ := by
  decide

/-- C9: `get_dot_braket_notation` renders a recovered pair `(l, r)` with the crossing
style only if some recovered pair `(cl, cr)` crosses it, `cl < l < cr < r`; so when no two
recovered pairs cross, and in particular when the decision for the whole sequence is
"hairpin", the string consists of `.`, `(` and `)` only. -/
theorem crossing_style_only_if_crossed (cfg : Config) (input : List Char) :
    ∃ out, main cfg input = some out ∧
      (∀ q ∈ out.restored, out.dots[q.1 - 1]? = some '{' ∨ out.dots[q.2 - 1]? = some '}' →
        ∃ c ∈ out.restored, c.1 < q.1 ∧ q.1 < c.2 ∧ c.2 < q.2) ∧
      ((∀ p ∈ out.restored, ∀ q ∈ out.restored, ¬ (p.1 < q.1 ∧ q.1 < p.2 ∧ p.2 < q.2)) →
        ∀ ch ∈ out.dots, ch = '.' ∨ ch = '(' ∨ ch = ')') ∧
      ((run_tables cfg input).structure_restore 1 input.length = -1 →
        ∀ ch ∈ out.dots, ch = '.' ∨ ch = '(' ∨ ch = ')') := by
  obtain ⟨out, h1, h2⟩ := main_spec cfg input
  refine ⟨out, h1, ?_, ?_, ?_⟩
  · intro q hq hbr
    obtain ⟨-, f2, -⟩ := render_facts input.length out.restored out.dots
      (fun q hq => ⟨(h2.bounds q hq).1, (h2.bounds q hq).2.1, (h2.bounds q hq).2.2.1⟩)
      h2.disjoint h2.ascending h2.render
    obtain ⟨b, b1, b2, b3⟩ := f2 q hq
    rcases openCh_cases b with ⟨-, e1, e2⟩ | ⟨e0, -, -⟩
    · rw [b1, b2, e1, e2] at hbr
      rcases hbr with hbr | hbr
      · exact absurd (Option.some.inj hbr) (by decide)
      · exact absurd (Option.some.inj hbr) (by decide)
    · exact b3 e0
  · intro hn
    exact mainOut_plain cfg input out h2 hn
  · intro hh
    exact mainOut_plain cfg input out h2 (h2.hairpin_no_crossing hh)

theorem crossing_style_only_if_crossed_witness :
    ∃ out, main defaultConfig ['A', 'U'] = some out ∧
      ∀ ch ∈ out.dots, ch = '.' ∨ ch = '(' ∨ ch = ')' := by
  obtain ⟨out, h1, -, -, h3⟩ := crossing_style_only_if_crossed defaultConfig ['A', 'U']
  exact ⟨out, h1, h3 (by decide)⟩

/-- C10: the string returned by `get_dot_braket_notation` has the length of the sequence;
its character at the 1-indexed position `p` is `.` if and only if `p` occurs in no
recovered pair, and is an opening bracket if and only if `p` is the left endpoint of a
recovered pair; every recovered pair has `(` and `)`, or `{` and `}`, at its two
endpoints; after the call the recovered list holds the pairs that `restore` pushed, in
strictly ascending order of the left index. -/
theorem notation_shape (cfg : Config) (input : List Char) :
    ∃ out, main cfg input = some out ∧ out.dots.length = input.length ∧
      (∀ p, 1 ≤ p → p ≤ input.length →
        ((out.dots[p - 1]? = some '.' ↔ ∀ q ∈ out.restored, q.1 ≠ p ∧ q.2 ≠ p) ∧
          ((out.dots[p - 1]? = some '(' ∨ out.dots[p - 1]? = some '{') ↔
            ∃ q ∈ out.restored, q.1 = p))) ∧
      (∀ q ∈ out.restored,
        (out.dots[q.1 - 1]? = some '(' ∧ out.dots[q.2 - 1]? = some ')') ∨
        (out.dots[q.1 - 1]? = some '{' ∧ out.dots[q.2 - 1]? = some '}')) ∧
      (∃ out0, run_restore cfg input (input.length + 1) = some out0 ∧
        out.restored.Perm out0) ∧
      out.restored.Pairwise (fun p q => p.1 < q.1) := by
  obtain ⟨out, h1, h2⟩ := main_spec cfg input
  obtain ⟨f1, f2, -⟩ := render_facts input.length out.restored out.dots
    (fun q hq => ⟨(h2.bounds q hq).1, (h2.bounds q hq).2.1, (h2.bounds q hq).2.2.1⟩)
    h2.disjoint h2.ascending h2.render
  refine ⟨out, h1, f1, ?_, ?_, h2.perm, h2.ascending⟩
  · intro p hp1 hpn
    rcases mainOut_render_char cfg input out h2 p hp1 hpn with
      ⟨⟨q, hq, hqp⟩, hc⟩ | ⟨⟨q, hq, hqp⟩, hnl, hc⟩ | ⟨hno, hc⟩
    · have hne : out.dots[p - 1]? ≠ some '.' := by
        rcases hc with hc | ⟨hc, -⟩
        · rw [hc]; decide
        · rw [hc]; decide
      refine ⟨⟨fun h => absurd h hne, fun h => absurd hqp (h q hq).1⟩, ?_⟩
      constructor
      · intro _; exact ⟨q, hq, hqp⟩
      · intro _
        rcases hc with hc | ⟨hc, -⟩
        · exact Or.inl hc
        · exact Or.inr hc
    · have hne : out.dots[p - 1]? ≠ some '.' ∧ out.dots[p - 1]? ≠ some '(' ∧
          out.dots[p - 1]? ≠ some '{' := by
        rcases hc with hc | ⟨hc, -⟩
        · rw [hc]; decide
        · rw [hc]; decide
      refine ⟨⟨fun h => absurd h hne.1, fun h => absurd hqp (h q hq).2⟩, ?_⟩
      constructor
      · rintro (h | h)
        · exact absurd h hne.2.1
        · exact absurd h hne.2.2
      · rintro ⟨q1, hq1, h⟩
        exact absurd h (hnl q1 hq1)
    · refine ⟨⟨fun _ => hno, fun _ => hc⟩, ?_⟩
      constructor
      · rintro (h | h)
        · rw [hc] at h; exact absurd h (by decide)
        · rw [hc] at h; exact absurd h (by decide)
      · rintro ⟨q1, hq1, h⟩
        exact absurd h (hno q1 hq1).1
  · intro q hq
    obtain ⟨b, b1, b2, -⟩ := f2 q hq
    rcases openCh_cases b with ⟨-, e1, e2⟩ | ⟨-, e1, e2⟩
    · left; rw [b1, b2, e1, e2]; exact ⟨rfl, rfl⟩
    · right; rw [b1, b2, e1, e2]; exact ⟨rfl, rfl⟩

theorem notation_shape_witness :
    ∃ out, main defaultConfig ['A', 'U'] = some out ∧ out.dots.length = 2 ∧
      ((out.dots[1 - 1]? = some '.' ↔ ∀ q ∈ out.restored, q.1 ≠ 1 ∧ q.2 ≠ 1) ∧
        ((out.dots[1 - 1]? = some '(' ∨ out.dots[1 - 1]? = some '{') ↔
          ∃ q ∈ out.restored, q.1 = 1)) := by
  obtain ⟨out, h1, h2, h3, -⟩ := notation_shape defaultConfig ['A', 'U']
  exact ⟨out, h1, h2, h3 1 (by decide) (by decide)⟩

/-! ## Stems: what the alignment table maximises -/

theorem IsStem.subset {P Q : Finset (Nat × Nat)} (h : IsStem P) (hs : Q ⊆ P) : IsStem Q :=
  ⟨fun p hp q hq => h.1 p (hs hp) q (hs hq), fun p hp q hq => h.2.1 p (hs hp) q (hs hq),
    fun p hp q hq => h.2.2 p (hs hp) q (hs hq)⟩

theorem isStem_empty : IsStem ∅ :=
  ⟨fun p hp => absurd hp (Finset.not_mem_empty p), fun p hp => absurd hp (Finset.not_mem_empty p),
    fun p hp => absurd hp (Finset.not_mem_empty p)⟩

theorem stemScore_empty (mat : Tab2 Int) : stemScore mat ∅ = 0 := by
  simp [stemScore]

/-- No stem in the arms `(i, j)` of `[s, e]` scores more than the recurrence. -/
theorem stem_le_lcsVal (mat : Tab2 Int) (s e : Nat) :
    ∀ (n i j : Nat) (P : Finset (Nat × Nat)), i + j = n → j ≤ e + 1 → IsStem P →
      InArms s e i j P → stemScore mat P ≤ lcsVal mat s e i j := by
  intro n
  induction n using Nat.strong_induction_on with
  | _ n ih =>
    intro i j P hn hj hP hA
    by_cases h0 : i = 0 ∨ j = 0
    · have hE : P = ∅ := by
        apply Finset.eq_empty_of_forall_not_mem
        intro p hp
        have := hA p hp
        omega
      rw [hE, stemScore_empty]
      exact lcsVal_nonneg mat s e i j
    · have hi : 1 ≤ i := by omega
      have hj1 : 1 ≤ j := by omega
      rw [lcsVal_step mat s e i j hi hj1]
      by_cases hL : ∃ p ∈ P, p.1 = s + i - 1
      · by_cases hR : ∃ q ∈ P, q.2 = e + 1 - j
        · obtain ⟨p, hp, hp1⟩ := hL
          obtain ⟨q, hq, hq2⟩ := hR
          have hpq : p = q := by
            by_contra hne
            have hne1 : q.1 ≠ p.1 := fun h => hne (hP.2.1 q hq p hp h).symm
            have hlt : q.1 < p.1 := by
              have := hA q hq
              omega
            have := hP.1 q hq p hp hlt
            have := hA p hp
            omega
          subst hpq
          have hA1 : InArms s e (i - 1) (j - 1) (P.erase p) := by
            intro r hr
            have hrP := Finset.mem_of_mem_erase hr
            have hne := Finset.ne_of_mem_erase hr
            have h1 : r.1 ≠ p.1 := fun h => hne (hP.2.1 r hrP p hp h)
            have h2 : r.2 ≠ p.2 := fun h => hne (hP.2.2 r hrP p hp h)
            have := hA r hrP
            omega
          have hIH := ih (i - 1 + (j - 1)) (by omega) (i - 1) (j - 1) (P.erase p) rfl (by omega)
            (hP.subset (Finset.erase_subset _ _)) hA1
          have hsum : stemScore mat P = mat p.1 p.2 + stemScore mat (P.erase p) := by
            unfold stemScore
            exact (Finset.add_sum_erase P (fun r => mat r.1 r.2) hp).symm
          rw [hsum, hp1, hq2]
          have := le_max_right (max (lcsVal mat s e (i - 1) j) (lcsVal mat s e i (j - 1)))
            (lcsVal mat s e (i - 1) (j - 1) + mat (s + i - 1) (e + 1 - j))
          omega
        · have hA1 : InArms s e i (j - 1) P := by
            intro r hr
            have h1 : r.2 ≠ e + 1 - j := fun h => hR ⟨r, hr, h⟩
            have := hA r hr
            omega
          have hIH := ih (i + (j - 1)) (by omega) i (j - 1) P rfl (by omega) hP hA1
          exact le_trans hIH (le_trans (le_max_right _ _) (le_max_left _ _))
      · have hA1 : InArms s e (i - 1) j P := by
          intro r hr
          have h1 : r.1 ≠ s + i - 1 := fun h => hL ⟨r, hr, h⟩
          have := hA r hr
          omega
        have hIH := ih (i - 1 + j) (by omega) (i - 1) j P rfl hj hP hA1
        exact le_trans hIH (le_trans (le_max_left _ _) (le_max_left _ _))

/-- Some stem in the arms `(i, j)` of `[s, e]` scores exactly the recurrence. -/
theorem exists_stem_lcsVal (mat : Tab2 Int) (s e : Nat) :
    ∀ (n i j : Nat), i + j = n → j ≤ e + 1 →
      ∃ P, IsStem P ∧ InArms s e i j P ∧ stemScore mat P = lcsVal mat s e i j := by
  intro n
  induction n using Nat.strong_induction_on with
  | _ n ih =>
    intro i j hn hj
    by_cases h0 : i = 0 ∨ j = 0
    · refine ⟨∅, isStem_empty, fun p hp => absurd hp (Finset.not_mem_empty p), ?_⟩
      rw [stemScore_empty]
      rcases h0 with h | h
      · subst h; rw [lcsVal_zero_left]
      · subst h; rw [lcsVal_zero_right]
    · have hi : 1 ≤ i := by omega
      have hj1 : 1 ≤ j := by omega
      rcases lcsDec_cases mat s e i j hi hj1 with ⟨-, hv⟩ | ⟨-, hv⟩ | ⟨-, hv, -⟩
      · obtain ⟨P, h1, h2, h3⟩ := ih (i - 1 + j) (by omega) (i - 1) j rfl hj
        refine ⟨P, h1, ?_, by rw [h3, hv]⟩
        intro p hp
        have := h2 p hp
        omega
      · obtain ⟨P, h1, h2, h3⟩ := ih (i + (j - 1)) (by omega) i (j - 1) rfl (by omega)
        refine ⟨P, h1, ?_, by rw [h3, hv]⟩
        intro p hp
        have := h2 p hp
        omega
      · obtain ⟨P, h1, h2, h3⟩ := ih (i - 1 + (j - 1)) (by omega) (i - 1) (j - 1) rfl (by omega)
        have hnew : (s + i - 1, e + 1 - j) ∉ P := by
          intro hmem
          have := h2 _ hmem
          simp only at this
          omega
        refine ⟨insert (s + i - 1, e + 1 - j) P, ⟨?_, ?_, ?_⟩, ?_, ?_⟩
        · intro p hp q hq hlt
          rcases Finset.mem_insert.mp hp with rfl | hp
          · rcases Finset.mem_insert.mp hq with rfl | hq
            · simp only at hlt; omega
            · have := h2 q hq
              simp only at hlt; omega
          · rcases Finset.mem_insert.mp hq with rfl | hq
            · have := h2 p hp
              simp only; omega
            · exact h1.1 p hp q hq hlt
        · intro p hp q hq heq
          rcases Finset.mem_insert.mp hp with rfl | hp
          · rcases Finset.mem_insert.mp hq with rfl | hq
            · rfl
            · have := h2 q hq
              simp only at heq; omega
          · rcases Finset.mem_insert.mp hq with rfl | hq
            · have := h2 p hp
              simp only at heq; omega
            · exact h1.2.1 p hp q hq heq
        · intro p hp q hq heq
          rcases Finset.mem_insert.mp hp with rfl | hp
          · rcases Finset.mem_insert.mp hq with rfl | hq
            · rfl
            · have := h2 q hq
              simp only at heq; omega
          · rcases Finset.mem_insert.mp hq with rfl | hq
            · have := h2 p hp
              simp only at heq; omega
            · exact h1.2.2 p hp q hq heq
        · intro p hp
          rcases Finset.mem_insert.mp hp with rfl | hp
          · simp only; omega
          · have := h2 p hp
            omega
        · unfold stemScore at h3 ⊢
          rw [Finset.sum_insert hnew, h3, hv]
          ring

theorem Block.pairs_bounds {s e : Nat} {B : Block} (h : B.ok s e) :
    ∀ p ∈ B.pairs, s ≤ p.1 ∧ p.1 < p.2 ∧ p.2 ≤ e := by
  intro p hp
  cases B with
  | empty => exact absurd hp (Finset.not_mem_empty p)
  | hairpin P =>
    have := h.2 p hp
    omega
  | pseudoknot i k j P1 P2 =>
    obtain ⟨h1, h2, h3, h4, -, h5, -, h6⟩ := h
    rcases Finset.mem_union.mp hp with hp | hp
    · have := h5 p hp
      omega
    · have := h6 p hp
      omega

theorem allPairs_bounds : ∀ (S : List (Nat × Block)) (s e : Nat), Admissible s e S →
    ∀ p ∈ allPairs S, s ≤ p.1 ∧ p.1 < p.2 ∧ p.2 ≤ e := by
  intro S
  induction S with
  | nil => intro s e _ p hp; exact absurd hp (Finset.not_mem_empty p)
  | cons x rest ih =>
    obtain ⟨m, B⟩ := x
    intro s e h p hp
    obtain ⟨h1, h2, h3, h4⟩ := h
    rcases Finset.mem_union.mp hp with hp | hp
    · have := Block.pairs_bounds h3 p hp
      omega
    · have := ih (m + 1) e h4 p hp
      omega

theorem stemScore_union (mat : Tab2 Int) (P Q : Finset (Nat × Nat)) (h : Disjoint P Q) :
    stemScore mat (P ∪ Q) = stemScore mat P + stemScore mat Q := by
  unfold stemScore
  exact Finset.sum_union h

theorem totalScore_cons (mat : Tab2 Int) (m : Nat) (B : Block) (rest : List (Nat × Block))
    (s e : Nat) (hB : B.ok s m) (hr : Admissible (m + 1) e rest) :
    totalScore mat ((m, B) :: rest) = stemScore mat B.pairs + totalScore mat rest := by
  unfold totalScore
  show stemScore mat (B.pairs ∪ allPairs rest) = _
  apply stemScore_union
  rw [Finset.disjoint_left]
  intro p hp hq
  have := Block.pairs_bounds hB p hp
  have := allPairs_bounds rest (m + 1) e hr p hq
  omega

/-- A stem inside `[s, e]` scores at most the hairpin entry. -/
theorem stem_le_hairpin {T : Tables} {n : Nat} (hT : Solved T n) (s e : Nat)
    (hs : 1 ≤ s) (hse : s < e) (he : e ≤ n) (P : Finset (Nat × Nat)) (hP : IsStem P)
    (hb : ∀ p ∈ P, s ≤ p.1 ∧ p.1 < p.2 ∧ p.2 ≤ e) :
    stemScore T.mat P ≤ T.hairpin s e := by
  rcases Finset.eq_empty_or_nonempty P with hE | hN
  · rw [hE, stemScore_empty]
    exact hT.hairpin_nonneg s e
  · obtain ⟨p0, hp0, hmax⟩ := Finset.exists_max_image P (fun p => p.1) hN
    have hb0 := hb p0 hp0
    have hA : InArms s e (p0.1 + 1 - s) (e + 1 - s - (p0.1 + 1 - s)) P := by
      intro q hq
      have hbq := hb q hq
      have hle : q.1 ≤ p0.1 := hmax q hq
      have hr : p0.1 < q.2 := by
        rcases Nat.lt_or_ge q.1 p0.1 with hlt | hge
        · have := hP.1 q hq p0 hp0 hlt
          omega
        · have : q = p0 := hP.2.1 q hq p0 hp0 (by omega)
          rw [this]
          omega
      omega
    have h1 := stem_le_lcsVal T.mat s e _ _ _ P rfl (by omega) hP hA
    have h2 := hT.hairpin_ge s e (p0.1 + 1 - s) hs hse he (by omega)
    exact le_trans h1 h2

/-- A block that fits `[s, e]` scores at most the structure entry. -/
theorem block_le_structure {T : Tables} {n : Nat} (hT : Solved T n) (s e : Nat)
    (hs : 1 ≤ s) (he : e ≤ n) (B : Block) (hB : B.ok s e) :
    stemScore T.mat B.pairs ≤ T.structure_dp s e := by
  cases B with
  | empty =>
    show stemScore T.mat ∅ ≤ _
    rw [stemScore_empty]
    exact hT.structure_nonneg s e
  | hairpin P =>
    show stemScore T.mat P ≤ _
    rcases Nat.lt_or_ge s e with hlt | hge
    · exact le_trans (stem_le_hairpin hT s e hs hlt he P hB.1 hB.2)
        (hT.structure_spec s e hs hlt he).1
    · have hE : P = ∅ := by
        apply Finset.eq_empty_of_forall_not_mem
        intro p hp
        have := hB.2 p hp
        omega
      rw [hE, stemScore_empty]
      exact hT.structure_nonneg s e
  | pseudoknot i k j P1 P2 =>
    obtain ⟨h1, h2, h3, h4, s1, b1, s2, b2⟩ := hB
    show stemScore T.mat (P1 ∪ P2) ≤ _
    have hdis : Disjoint P1 P2 := by
      rw [Finset.disjoint_left]
      intro p hp hq
      have := b1 p hp
      have := b2 p hq
      omega
    rw [stemScore_union _ _ _ hdis]
    have hA1 : InArms s j (i - s) (j - k) P1 := by
      intro p hp
      have := b1 p hp
      omega
    have hA2 : InArms i e (k + 1 - i) (e - j) P2 := by
      intro p hp
      have := b2 p hp
      omega
    have c1 := stem_le_lcsVal T.mat s j _ _ _ P1 rfl (by omega) s1 hA1
    have c2 := stem_le_lcsVal T.mat i e _ _ _ P2 rfl (by omega) s2 hA2
    have c3 := hT.pseudoknot_ge s e i k j hs he h1 h2 h3 h4
    have c4 := (hT.structure_spec s e hs (by omega) he).2.1
    omega

/-- No admissible structure on `[s, e]` scores more than the structure entry. -/
theorem admissible_le_structure {T : Tables} {n : Nat} (hT : Solved T n) :
    ∀ (S : List (Nat × Block)) (s e : Nat), 1 ≤ s → e ≤ n → Admissible s e S →
      totalScore T.mat S ≤ T.structure_dp s e := by
  intro S
  induction S with
  | nil =>
    intro s e _ _ _
    show stemScore T.mat ∅ ≤ _
    rw [stemScore_empty]
    exact hT.structure_nonneg s e
  | cons x rest ih =>
    obtain ⟨m, B⟩ := x
    intro s e hs he h
    obtain ⟨h1, h2, h3, h4⟩ := h
    rw [totalScore_cons T.mat m B rest s e h3 h4]
    have c1 := block_le_structure hT s m hs (by omega) B h3
    have c2 := ih (m + 1) e (by omega) he h4
    rcases Nat.lt_or_ge m e with hlt | hge
    · have c3 := (hT.structure_spec s e hs (by omega) he).2.2.1 m h1 hlt
      omega
    · have hme : m = e := by omega
      subst hme
      rw [hT.structure_eq_zero (m + 1) m (by omega)] at c2
      omega

theorem admissible_append : ∀ (S1 S2 : List (Nat × Block)) (s k e : Nat), k ≤ e →
    Admissible s k S1 → Admissible (k + 1) e S2 → Admissible s e (S1 ++ S2) := by
  intro S1
  induction S1 with
  | nil =>
    intro S2 s k e _ h1 h2
    have : k + 1 = s := h1
    rw [← this]
    exact h2
  | cons x rest ih =>
    obtain ⟨m, B⟩ := x
    intro S2 s k e hk h1 h2
    obtain ⟨a1, a2, a3, a4⟩ := h1
    exact ⟨a1, by omega, a3, ih S2 (m + 1) k e hk a4 h2⟩

theorem allPairs_append (S1 S2 : List (Nat × Block)) :
    allPairs (S1 ++ S2) = allPairs S1 ∪ allPairs S2 := by
  induction S1 with
  | nil => simp [allPairs]
  | cons x rest ih =>
    obtain ⟨m, B⟩ := x
    show B.pairs ∪ allPairs (rest ++ S2) = (B.pairs ∪ allPairs rest) ∪ allPairs S2
    rw [ih, Finset.union_assoc]

theorem totalScore_append (mat : Tab2 Int) (S1 S2 : List (Nat × Block)) (s k e : Nat)
    (h1 : Admissible s k S1) (h2 : Admissible (k + 1) e S2) :
    totalScore mat (S1 ++ S2) = totalScore mat S1 + totalScore mat S2 := by
  unfold totalScore
  rw [allPairs_append]
  apply stemScore_union
  rw [Finset.disjoint_left]
  intro p hp hq
  have := allPairs_bounds S1 s k h1 p hp
  have := allPairs_bounds S2 (k + 1) e h2 p hq
  omega

/-- Some admissible structure on `[s, e]` scores exactly the structure entry. -/
theorem exists_admissible_structure {T : Tables} {n : Nat} (hT : Solved T n) :
    ∀ (len s e : Nat), e + 1 - s = len → 1 ≤ s → s ≤ e + 1 → e ≤ n →
      ∃ S, Admissible s e S ∧ totalScore T.mat S = T.structure_dp s e := by
  intro len
  induction len using Nat.strong_induction_on with
  | _ len ih =>
    intro s e hlen hs hse he
    rcases Nat.lt_or_ge s e with hlt | hge
    · obtain ⟨-, -, -, hdec⟩ := hT.structure_spec s e hs hlt he
      rcases hdec with ⟨-, hv⟩ | ⟨-, hv, hhp⟩ | ⟨k, hk1, hk2, -, hv, -⟩
      · -- hairpin
        obtain ⟨hh1, hh2⟩ := hT.hairpin_restore_spec s e hs hlt he
        obtain ⟨P, p1, p2, p3⟩ := exists_stem_lcsVal T.mat s e _ (T.hairpin_restore s e)
          (e + 1 - s - T.hairpin_restore s e) rfl (by omega)
        refine ⟨[(e, Block.hairpin P)], ⟨le_of_lt hlt, le_refl _, ⟨p1, ?_⟩, rfl⟩, ?_⟩
        · intro p hp
          have := p2 p hp
          omega
        · show stemScore T.mat (P ∪ ∅) = _
          rw [Finset.union_empty, p3, hh2, hv]
      · -- pseudoknot
        have hpos : 0 < T.pseudoknot s e := lt_of_le_of_lt (hT.hairpin_nonneg s e) hhp
        obtain ⟨-, -, q1, q2, q3, q4, q5⟩ := hT.pseudoknot_restore_spec s e hpos
        obtain ⟨P1, a1, a2, a3⟩ := exists_stem_lcsVal T.mat s (T.pseudoknot_restore s e).j _
          ((T.pseudoknot_restore s e).i - s)
          ((T.pseudoknot_restore s e).j - (T.pseudoknot_restore s e).k) rfl (by omega)
        obtain ⟨P2, b1, b2, b3⟩ := exists_stem_lcsVal T.mat (T.pseudoknot_restore s e).i e _
          ((T.pseudoknot_restore s e).k + 1 - (T.pseudoknot_restore s e).i)
          (e - (T.pseudoknot_restore s e).j) rfl (by omega)
        have c1 : ∀ p ∈ P1, s ≤ p.1 ∧ p.1 ≤ (T.pseudoknot_restore s e).i - 1 ∧
            (T.pseudoknot_restore s e).k + 1 ≤ p.2 ∧ p.2 ≤ (T.pseudoknot_restore s e).j := by
          intro p hp
          have := a2 p hp
          omega
        have c2 : ∀ p ∈ P2, (T.pseudoknot_restore s e).i ≤ p.1 ∧
            p.1 ≤ (T.pseudoknot_restore s e).k ∧
            (T.pseudoknot_restore s e).j + 1 ≤ p.2 ∧ p.2 ≤ e := by
          intro p hp
          have := b2 p hp
          omega
        have hdis : Disjoint P1 P2 := by
          rw [Finset.disjoint_left]
          intro p hp hq
          have := c1 p hp
          have := c2 p hq
          omega
        refine ⟨[(e, Block.pseudoknot (T.pseudoknot_restore s e).i (T.pseudoknot_restore s e).k
          (T.pseudoknot_restore s e).j P1 P2)],
          ⟨le_of_lt hlt, le_refl _, ⟨q1, q2, q3, q4, a1, c1, b1, c2⟩, rfl⟩, ?_⟩
        show stemScore T.mat ((P1 ∪ P2) ∪ ∅) = _
        rw [Finset.union_empty, stemScore_union _ _ _ hdis, a3, b3, q5, hv]
      · -- split at `k`
        obtain ⟨S1, a1, a2⟩ := ih (k + 1 - s) (by omega) s k rfl hs (by omega) (by omega)
        obtain ⟨S2, b1, b2⟩ := ih (e + 1 - (k + 1)) (by omega) (k + 1) e rfl (by omega)
          (by omega) he
        exact ⟨S1 ++ S2, admissible_append S1 S2 s k e (by omega) a1 b1,
          by rw [totalScore_append T.mat S1 S2 s k e a1 b1, a2, b2, hv]⟩
    · rw [hT.structure_eq_zero s e (by omega)]
      rcases Nat.eq_or_lt_of_le hge with heq | hlt
      · subst heq
        refine ⟨[(e, Block.empty)], ⟨le_refl _, le_refl _, trivial, rfl⟩, ?_⟩
        show stemScore T.mat (∅ ∪ ∅) = 0
        rw [Finset.union_empty, stemScore_empty]
      · refine ⟨[], ?_, stemScore_empty _⟩
        show e + 1 = s
        omega

/-! ## The range of the values that `solve` computes

The scores of the embedding are unbounded integers. The bounds below show that with
configured scores of absolute value at most `M` every table entry lies between `0`
and `M * N`, and every sum that `solve` forms between `-M` and `M * N`: for `N ≤ 100`
and `100 * M < 2 ^ 31` no `int` of the source overflows. -/

theorem symScore_abs_le (cfg : Config) (M : Int)
    (hwc : |cfg.watsonCrickPairScore| ≤ M) (hwb : |cfg.wobblePairScore| ≤ M) (a b : Char) :
    |symScore cfg a b| ≤ M := by
  have hM : 0 ≤ M := le_trans (abs_nonneg _) hwc
  rcases symScore_cases cfg a b with h | h | ⟨-, h⟩
  · rw [h, abs_zero]; exact hM
  · rw [h]; exact hwc
  · rw [h]; exact hwb

theorem matchVal_abs_le (cfg : Config) (seq : List Char) (n : Nat) (M : Int)
    (hwc : |cfg.watsonCrickPairScore| ≤ M) (hwb : |cfg.wobblePairScore| ≤ M) (x y : Nat) :
    |matchVal cfg seq n x y| ≤ M := by
  have hM : 0 ≤ M := le_trans (abs_nonneg _) hwc
  unfold matchVal
  split_ifs
  · exact symScore_abs_le cfg M hwc hwb _ _
  · rw [abs_zero]; exact hM

theorem lcsVal_le (mat : Tab2 Int) (M : Int) (hM : 0 ≤ M) (hmat : ∀ x y, mat x y ≤ M)
    (s e : Nat) : ∀ (n i j : Nat), i + j = n → lcsVal mat s e i j ≤ M * (i : Int) := by
  intro n
  induction n using Nat.strong_induction_on with
  | _ n ih =>
    intro i j hn
    by_cases h0 : i = 0 ∨ j = 0
    · have hz : lcsVal mat s e i j = 0 := by
        rcases h0 with h | h
        · subst h; exact lcsVal_zero_left mat s e j
        · subst h; exact lcsVal_zero_right mat s e i
      rw [hz]
      exact mul_nonneg hM (Int.natCast_nonneg i)
    · have hi : 1 ≤ i := by omega
      have hj : 1 ≤ j := by omega
      rw [lcsVal_step mat s e i j hi hj]
      have h1 := ih (i - 1 + j) (by omega) (i - 1) j rfl
      have h2 := ih (i + (j - 1)) (by omega) i (j - 1) rfl
      have h3 := ih (i - 1 + (j - 1)) (by omega) (i - 1) (j - 1) rfl
      have h4 := hmat (s + i - 1) (e + 1 - j)
      have hc : ((i - 1 : Nat) : Int) = (i : Int) - 1 := by omega
      rw [hc] at h1 h3
      have e1 : M * ((i : Int) - 1) = M * (i : Int) - M := by ring
      rw [e1] at h1 h3
      refine max_le (max_le ?_ h2) ?_
      · omega
      · omega

theorem Solved.hairpin_le {T : Tables} {n : Nat} (hT : Solved T n) (M : Int) (hM : 0 ≤ M)
    (hmat : ∀ x y, T.mat x y ≤ M) (s e : Nat) :
    T.hairpin s e ≤ M * ((e + 1 - s : Nat) : Int) := by
  by_cases hd : 1 ≤ s ∧ s < e ∧ e ≤ n
  · obtain ⟨h1, h2⟩ := hT.hairpin_restore_spec s e hd.1 hd.2.1 hd.2.2
    rw [← h2]
    refine le_trans (lcsVal_le T.mat M hM hmat s e _ _ _ rfl) ?_
    exact mul_le_mul_of_nonneg_left (by exact_mod_cast h1) hM
  · have : T.hairpin s e = 0 := congrArg Prod.fst (hT.hairpin_zero s e hd)
    rw [this]
    exact mul_nonneg hM (Int.natCast_nonneg _)

theorem Solved.pseudoknot_le {T : Tables} {n : Nat} (hT : Solved T n) (M : Int) (hM : 0 ≤ M)
    (hmat : ∀ x y, T.mat x y ≤ M) (s e : Nat) :
    T.pseudoknot s e ≤ M * ((e + 1 - s : Nat) : Int) := by
  rcases lt_or_ge 0 (T.pseudoknot s e) with hpos | hle
  · obtain ⟨-, -, q1, q2, q3, q4, q5⟩ := hT.pseudoknot_restore_spec s e hpos
    rw [← q5]
    have a := lcsVal_le T.mat M hM hmat s (T.pseudoknot_restore s e).j _
      ((T.pseudoknot_restore s e).i - s)
      ((T.pseudoknot_restore s e).j - (T.pseudoknot_restore s e).k) rfl
    have b := lcsVal_le T.mat M hM hmat (T.pseudoknot_restore s e).i e _
      ((T.pseudoknot_restore s e).k + 1 - (T.pseudoknot_restore s e).i)
      (e - (T.pseudoknot_restore s e).j) rfl
    have hsum : (((T.pseudoknot_restore s e).i - s : Nat) : Int) +
        (((T.pseudoknot_restore s e).k + 1 - (T.pseudoknot_restore s e).i : Nat) : Int) ≤
        ((e + 1 - s : Nat) : Int) := by omega
    have := mul_le_mul_of_nonneg_left hsum hM
    rw [mul_add] at this
    omega
  · exact le_trans hle (mul_nonneg hM (Int.natCast_nonneg _))

theorem Solved.structure_le {T : Tables} {n : Nat} (hT : Solved T n) (M : Int) (hM : 0 ≤ M)
    (hmat : ∀ x y, T.mat x y ≤ M) :
    ∀ (len s e : Nat), e + 1 - s = len → T.structure_dp s e ≤ M * ((e + 1 - s : Nat) : Int) := by
  intro len
  induction len using Nat.strong_induction_on with
  | _ len ih =>
    intro s e hlen
    by_cases hd : 1 ≤ s ∧ s < e ∧ e ≤ n
    · obtain ⟨-, -, -, hdec⟩ := hT.structure_spec s e hd.1 hd.2.1 hd.2.2
      rcases hdec with ⟨-, hv⟩ | ⟨-, hv, -⟩ | ⟨k, hk1, hk2, -, hv, -⟩
      · rw [hv]; exact hT.hairpin_le M hM hmat s e
      · rw [hv]; exact hT.pseudoknot_le M hM hmat s e
      · rw [hv]
        have a := ih (k + 1 - s) (by omega) s k rfl
        have b := ih (e + 1 - (k + 1)) (by omega) (k + 1) e rfl
        have hsum : ((k + 1 - s : Nat) : Int) + ((e + 1 - (k + 1) : Nat) : Int) ≤
            ((e + 1 - s : Nat) : Int) := by omega
        have := mul_le_mul_of_nonneg_left hsum hM
        rw [mul_add] at this
        omega
    · rw [hT.structure_eq_zero s e hd]
      exact mul_nonneg hM (Int.natCast_nonneg _)

/-- With configured scores of absolute value at most `M`, the entries of the match
matrix lie in `[-M, M]` and the entries of the four score tables of an interval
`1 ≤ s ≤ e ≤ N` lie in `[0, M * (e - s + 1)]`. -/
theorem tables_range (cfg : Config) (input : List Char) (M : Int)
    (hwc : |cfg.watsonCrickPairScore| ≤ M) (hwb : |cfg.wobblePairScore| ≤ M) :
    (∀ x y, |run_match cfg input x y| ≤ M) ∧
    (∀ s e i j, 1 ≤ s → s ≤ e → e ≤ input.length → i + j ≤ e + 1 - s →
      0 ≤ (run_tables cfg input).lcs_dp s e i j ∧
      (run_tables cfg input).lcs_dp s e i j ≤ M * (i : Int)) ∧
    (∀ s e, 0 ≤ (run_tables cfg input).hairpin s e ∧
      (run_tables cfg input).hairpin s e ≤ M * ((e + 1 - s : Nat) : Int)) ∧
    (∀ s e, 0 ≤ (run_tables cfg input).pseudoknot s e ∧
      (run_tables cfg input).pseudoknot s e ≤ M * ((e + 1 - s : Nat) : Int)) ∧
    (∀ s e, 0 ≤ (run_tables cfg input).structure_dp s e ∧
      (run_tables cfg input).structure_dp s e ≤ M * ((e + 1 - s : Nat) : Int)) := by
  have hT := run_solved cfg input
  have hM : 0 ≤ M := le_trans (abs_nonneg _) hwc
  have habs : ∀ x y, |run_match cfg input x y| ≤ M := by
    intro x y
    rw [run_match_eq]
    exact matchVal_abs_le cfg _ _ M hwc hwb x y
  have hmat : ∀ x y, (run_tables cfg input).mat x y ≤ M :=
    fun x y => le_trans (le_abs_self _) (habs x y)
  refine ⟨habs, ?_, ?_, ?_, ?_⟩
  · intro s e i j hs hse he hij
    rw [hT.lcs_dp s e i j hs hse he hij]
    exact ⟨lcsVal_nonneg _ s e i j, lcsVal_le _ M hM hmat s e _ i j rfl⟩
  · intro s e
    exact ⟨hT.hairpin_nonneg s e, hT.hairpin_le M hM hmat s e⟩
  · intro s e
    exact ⟨hT.pseudoknot_nonneg s e, hT.pseudoknot_le M hM hmat s e⟩
  · intro s e
    exact ⟨hT.structure_nonneg s e, hT.structure_le M hM hmat _ s e rfl⟩

/-! ## Zero and positive scores -/

theorem pairSum_pos (mat : Tab2 Int) (out : List (Nat × Nat)) (hne : out ≠ [])
    (hpos : ∀ p ∈ out, 0 < mat p.1 p.2) : 0 < pairSum mat out := by
  induction out with
  | nil => exact absurd rfl hne
  | cons p rest ih =>
    rw [pairSum_cons]
    have h1 := hpos p (List.mem_cons_self _ _)
    rcases rest with _ | ⟨q, rest⟩
    · rw [pairSum_nil]; omega
    · have := ih (List.cons_ne_nil _ _) (fun x hx => hpos x (List.mem_cons_of_mem _ hx))
      omega

/-- A pair of positive score inside `[s, e]` makes the structure entry positive. -/
theorem Solved.structure_pos_of_pair {T : Tables} {n : Nat} (hT : Solved T n) (s e l r : Nat)
    (hs : 1 ≤ s) (he : e ≤ n) (hl : s ≤ l) (hlr : l < r) (hr : r ≤ e)
    (hpos : 0 < T.mat l r) : 0 < T.structure_dp s e := by
  have hstem : IsStem {(l, r)} := by
    refine ⟨?_, ?_, ?_⟩
    · intro p hp q hq hlt
      rw [Finset.mem_singleton] at hp hq
      subst hp hq
      simp only at hlt
      omega
    · intro p hp q hq _
      rw [Finset.mem_singleton] at hp hq
      rw [hp, hq]
    · intro p hp q hq _
      rw [Finset.mem_singleton] at hp hq
      rw [hp, hq]
  have hb : ∀ p ∈ ({(l, r)} : Finset (Nat × Nat)), s ≤ p.1 ∧ p.1 < p.2 ∧ p.2 ≤ e := by
    intro p hp
    rw [Finset.mem_singleton] at hp
    subst hp
    exact ⟨hl, hlr, hr⟩
  have h1 := stem_le_hairpin hT s e hs (by omega) he {(l, r)} hstem hb
  have h2 := (hT.structure_spec s e hs (by omega) he).1
  have h3 : stemScore T.mat {(l, r)} = T.mat l r := by
    simp [stemScore]
  omega

/-- The list recovered for the whole sequence is empty exactly when the score is 0. -/
theorem restoreOut_nil_iff {T : Tables} {l r : Nat} {out : List (Nat × Nat)}
    (h : RestoreOut T l r out) : out = [] ↔ T.structure_dp l r = 0 := by
  constructor
  · intro he
    rw [← h.sum_eq, he, pairSum_nil]
  · intro hz
    by_contra hne
    have := pairSum_pos T.mat out hne (fun p hp => (h.bounds p hp).2.2.2)
    rw [h.sum_eq] at this
    omega

theorem run_score_eq (cfg : Config) (input : List Char) :
    run_score cfg input = (run_tables cfg input).structure_dp 1 input.length := rfl

theorem run_tables_mat (cfg : Config) (input : List Char) :
    (run_tables cfg input).mat = run_match cfg input := rfl

/-- The score is 0 exactly when no two positions can pair. -/
theorem run_score_zero_iff (cfg : Config) (input : List Char) :
    run_score cfg input = 0 ↔
      ¬ ∃ l r, 1 ≤ l ∧ l < r ∧ r ≤ input.length ∧ 0 < run_match cfg input l r := by
  have hT := run_solved cfg input
  constructor
  · rintro hz ⟨l, r, h1, h2, h3, h4⟩
    have := hT.structure_pos_of_pair 1 input.length l r (le_refl _) (le_refl _) h1 h2 h3 h4
    rw [run_score_eq] at hz
    omega
  · intro hno
    obtain ⟨out, -, h2⟩ := run_restore_spec cfg input (input.length + 1) (Nat.lt_succ_self _)
    have hnil : out = [] := by
      by_contra hne
      obtain ⟨p, hp⟩ := List.exists_mem_of_ne_nil out hne
      have hb := h2.bounds p hp
      exact hno ⟨p.1, p.2, hb.1, hb.2.1, hb.2.2.1, hb.2.2.2⟩
    rw [run_score_eq]
    exact (restoreOut_nil_iff h2).mp hnil

theorem main_restored_nil (cfg : Config) (input : List Char) (hz : run_score cfg input = 0) :
    ∃ out, main cfg input = some out ∧ out.mfe = 0 ∧ out.restored = [] := by
  obtain ⟨out, h1, h2⟩ := main_spec cfg input
  refine ⟨out, h1, by rw [h2.mfe_eq]; exact hz, ?_⟩
  obtain ⟨out0, r1, r2⟩ := h2.perm
  obtain ⟨out1, s1, s2⟩ := run_restore_spec cfg input (input.length + 1) (Nat.lt_succ_self _)
  have e1 : out0 = out1 := Option.some.inj (r1.symm.trans s1)
  have hnil : out1 = [] := (restoreOut_nil_iff s2).mpr hz
  rw [e1, hnil] at r2
  exact List.Perm.eq_nil r2

theorem symScore_self (cfg : Config) (c : Char) : symScore cfg c c = 0 := by
  unfold symScore
  have n1 : ¬ (cfg.isWobblePairAllowed = true ∧ ((c = 'G' ∧ c = 'U') ∨ (c = 'U' ∧ c = 'G'))) := by
    rintro ⟨-, ⟨h1, h2⟩ | ⟨h1, h2⟩⟩
    · rw [h1] at h2; exact absurd h2 (by decide)
    · rw [h1] at h2; exact absurd h2 (by decide)
  have n2 : ¬ ((c = 'A' ∧ c = 'U') ∨ (c = 'U' ∧ c = 'A') ∨ (c = 'C' ∧ c = 'G') ∨
      (c = 'G' ∧ c = 'C')) := by
    rintro (⟨h1, h2⟩ | ⟨h1, h2⟩ | ⟨h1, h2⟩ | ⟨h1, h2⟩)
    · rw [h1] at h2; exact absurd h2 (by decide)
    · rw [h1] at h2; exact absurd h2 (by decide)
    · rw [h1] at h2; exact absurd h2 (by decide)
    · rw [h1] at h2; exact absurd h2 (by decide)
  rw [if_neg n1, if_neg n2]

theorem symbolAt_mem (input : List Char) (x : Nat) (h1 : 1 ≤ x) (h2 : x ≤ input.length) :
    symbolAt input x ∈ input := by
  obtain ⟨y, rfl⟩ : ∃ y, x = y + 1 := ⟨x - 1, by omega⟩
  unfold symbolAt charAt
  rw [List.getD_cons_succ, List.getD_eq_getElem _ _ (by omega)]
  exact List.getElem_mem _

theorem mem_symbolAt (input : List Char) (c : Char) (h : c ∈ input) :
    ∃ x, 1 ≤ x ∧ x ≤ input.length ∧ symbolAt input x = c := by
  obtain ⟨y, hy, hc⟩ := List.mem_iff_getElem.mp h
  refine ⟨y + 1, by omega, by omega, ?_⟩
  unfold symbolAt charAt
  rw [List.getD_cons_succ, List.getD_eq_getElem _ _ hy]
  exact hc

theorem run_match_sym (cfg : Config) (input : List Char) (x y : Nat) (hx : 1 ≤ x)
    (hxn : x ≤ input.length) (hy : 1 ≤ y) (hyn : y ≤ input.length) (hxy : x ≠ y) :
    run_match cfg input x y = symScore cfg (symbolAt input x) (symbolAt input y) := by
  rw [run_match_eq]
  unfold matchVal symbolAt
  rw [if_pos ⟨hx, hy, hxn, hyn, hxy⟩]

/-- C11: the score returned by `solve` is 0 if and only if no two positions `l < r` of the
sequence have a positive score; in that case the recovered pair list is empty, and
otherwise the score is strictly positive. A sequence of length 0 or 1 and a sequence of
identical symbols are such cases. (The non-negativity of the configured scores is not
needed.) -/
theorem zero_score_iff_no_pair (cfg : Config) (input : List Char) :
    (run_score cfg input = 0 ↔
      ¬ ∃ l r, 1 ≤ l ∧ l < r ∧ r ≤ input.length ∧ 0 < run_match cfg input l r) ∧
    (run_score cfg input = 0 →
      ∃ out, main cfg input = some out ∧ out.mfe = 0 ∧ out.restored = []) ∧
    (run_score cfg input ≠ 0 → 0 < run_score cfg input) ∧
    (input.length ≤ 1 → run_score cfg input = 0) ∧
    ((∃ c, ∀ x ∈ input, x = c) → run_score cfg input = 0) := by
  refine ⟨run_score_zero_iff cfg input, main_restored_nil cfg input, ?_, ?_, ?_⟩
  · intro hne
    have := (run_solved cfg input).structure_nonneg 1 input.length
    rw [run_score_eq] at hne ⊢
    omega
  · intro hlen
    rw [run_score_zero_iff]
    rintro ⟨l, r, h1, h2, h3, -⟩
    omega
  · rintro ⟨c, hc⟩
    rw [run_score_zero_iff]
    rintro ⟨l, r, h1, h2, h3, h4⟩
    rw [run_match_sym cfg input l r h1 (by omega) (by omega) h3 (by omega),
      hc _ (symbolAt_mem input l h1 (by omega)), hc _ (symbolAt_mem input r (by omega) h3),
      symScore_self] at h4
    omega

theorem zero_score_iff_no_pair_witness :
    run_score defaultConfig ['A', 'A', 'A'] = 0 ∧
    ∃ out, main defaultConfig ['A', 'A', 'A'] = some out ∧ out.mfe = 0 ∧ out.restored = [] := by
  have h := zero_score_iff_no_pair defaultConfig ['A', 'A', 'A']
  have hz := h.2.2.2.2 ⟨'A', by decide⟩
  exact ⟨hz, h.2.1 hz⟩

/-! ## Sequences of G and U, and short sequences -/

theorem symScore_gu (cfg : Config) (a b : Char) (ha : a = 'G' ∨ a = 'U')
    (hb : b = 'G' ∨ b = 'U') :
    symScore cfg a b = 0 ∨ (cfg.isWobblePairAllowed = true ∧
      symScore cfg a b = cfg.wobblePairScore) := by
  have n2 : ¬ ((a = 'A' ∧ b = 'U') ∨ (a = 'U' ∧ b = 'A') ∨ (a = 'C' ∧ b = 'G') ∨
      (a = 'G' ∧ b = 'C')) := by
    rintro (⟨h1, h2⟩ | ⟨h1, h2⟩ | ⟨h1, h2⟩ | ⟨h1, h2⟩)
    · rcases ha with ha | ha <;> (rw [ha] at h1; exact absurd h1 (by decide))
    · rcases hb with hb | hb <;> (rw [hb] at h2; exact absurd h2 (by decide))
    · rcases ha with ha | ha <;> (rw [ha] at h1; exact absurd h1 (by decide))
    · rcases hb with hb | hb <;> (rw [hb] at h2; exact absurd h2 (by decide))
  unfold symScore
  split_ifs with h1
  · exact Or.inr ⟨h1.1, rfl⟩
  · exact Or.inl rfl

theorem symScore_wobble (cfg : Config) (a b : Char) (hw : cfg.isWobblePairAllowed = true)
    (h : (a = 'G' ∧ b = 'U') ∨ (a = 'U' ∧ b = 'G')) :
    symScore cfg a b = cfg.wobblePairScore := by
  unfold symScore
  rw [if_pos ⟨hw, h⟩]

/-- C12: for a sequence that consists of the symbols G and U only and holds at least one
G and one U, with `wobblePairScore > 0`: the score with wobble pairing disabled is 0, the
score with wobble pairing enabled is strictly positive, and the enabled score is
`wobblePairScore` times the number of recovered pairs. -/
theorem wobble_gu_sequence (wb wc : Int) (input : List Char) (hwb : 0 < wb)
    (hgu : ∀ x ∈ input, x = 'G' ∨ x = 'U') (hg : 'G' ∈ input) (hu : 'U' ∈ input) :
    run_score ⟨false, wb, wc⟩ input = 0 ∧
    run_score ⟨false, wb, wc⟩ input < run_score ⟨true, wb, wc⟩ input ∧
    ∃ out, run_restore ⟨true, wb, wc⟩ input (input.length + 1) = some out ∧
      run_score ⟨true, wb, wc⟩ input = wb * (out.length : Int) := by
  have hoff : run_score ⟨false, wb, wc⟩ input = 0 := by
    rw [run_score_zero_iff]
    rintro ⟨l, r, h1, h2, h3, h4⟩
    rw [run_match_sym _ input l r h1 (by omega) (by omega) h3 (by omega)] at h4
    rcases symScore_gu ⟨false, wb, wc⟩ _ _ (hgu _ (symbolAt_mem input l h1 (by omega)))
      (hgu _ (symbolAt_mem input r (by omega) h3)) with h | ⟨h, -⟩
    · omega
    · cases h
  have hon : 0 < run_score ⟨true, wb, wc⟩ input := by
    obtain ⟨x, x1, x2, hx⟩ := mem_symbolAt input 'G' hg
    obtain ⟨y, y1, y2, hy⟩ := mem_symbolAt input 'U' hu
    have hxy : x ≠ y := by
      rintro rfl
      rw [hx] at hy
      exact absurd hy (by decide)
    have hT := run_solved ⟨true, wb, wc⟩ input
    rcases Nat.lt_or_gt_of_ne hxy with h | h
    · refine hT.structure_pos_of_pair 1 input.length x y (le_refl _) (le_refl _) x1 h y2 ?_
      rw [run_tables_mat, run_match_sym _ input x y x1 x2 y1 y2 hxy, hx, hy,
        symScore_wobble _ _ _ rfl (Or.inl ⟨rfl, rfl⟩)]
      exact hwb
    · refine hT.structure_pos_of_pair 1 input.length y x (le_refl _) (le_refl _) y1 h x2 ?_
      rw [run_tables_mat, run_match_sym _ input y x y1 y2 x1 x2 (Ne.symm hxy), hx, hy,
        symScore_wobble _ _ _ rfl (Or.inr ⟨rfl, rfl⟩)]
      exact hwb
  refine ⟨hoff, by rw [hoff]; exact hon, ?_⟩
  obtain ⟨out, h1, h2⟩ := run_restore_spec ⟨true, wb, wc⟩ input (input.length + 1)
    (Nat.lt_succ_self _)
  refine ⟨out, h1, ?_⟩
  have hs : pairSum (run_match ⟨true, wb, wc⟩ input) out = run_score ⟨true, wb, wc⟩ input :=
    h2.sum_eq
  rw [← hs, pairSum_const _ wb out, mul_comm]
  intro p hp
  obtain ⟨b1, b2, b3, b4⟩ := h2.bounds p hp
  rw [run_tables_mat] at b4
  rw [run_match_sym _ input p.1 p.2 b1 (by omega) (by omega) b3 (by omega)] at b4 ⊢
  rcases symScore_gu ⟨true, wb, wc⟩ _ _ (hgu _ (symbolAt_mem input p.1 b1 (by omega)))
    (hgu _ (symbolAt_mem input p.2 (by omega) b3)) with h | ⟨-, h⟩
  · omega
  · exact h

theorem wobble_gu_sequence_witness :
    run_score ⟨false, 1, 1⟩ ['G', 'U'] = 0 ∧
    run_score ⟨false, 1, 1⟩ ['G', 'U'] < run_score ⟨true, 1, 1⟩ ['G', 'U'] ∧
    ∃ out, run_restore ⟨true, 1, 1⟩ ['G', 'U'] (['G', 'U'].length + 1) = some out ∧
      run_score ⟨true, 1, 1⟩ ['G', 'U'] = 1 * (out.length : Int) :=
  wobble_gu_sequence 1 1 ['G', 'U'] (by decide) (by decide) (by decide) (by decide)

/-- The hairpin entry of an interval dominates the hairpin entry of a sub-interval. -/
theorem Solved.hairpin_mono {T : Tables} {n : Nat} (hT : Solved T n) (s e s1 e1 : Nat)
    (hs : 1 ≤ s) (he : e ≤ n) (h1 : s ≤ s1) (h3 : e1 ≤ e) :
    T.hairpin s1 e1 ≤ T.hairpin s e := by
  rcases Nat.lt_or_ge s1 e1 with h2 | h2
  on_goal 2 =>
    have z : T.hairpin s1 e1 = 0 := congrArg Prod.fst (hT.hairpin_zero s1 e1 (by omega))
    rw [z]
    exact hT.hairpin_nonneg s e
  obtain ⟨a1, a2⟩ := hT.hairpin_restore_spec s1 e1 (by omega) h2 (by omega)
  obtain ⟨P, p1, p2, p3⟩ := exists_stem_lcsVal T.mat s1 e1 _ (T.hairpin_restore s1 e1)
    (e1 + 1 - s1 - T.hairpin_restore s1 e1) rfl (by omega)
  rw [← a2, ← p3]
  refine stem_le_hairpin hT s e hs (by omega) he P p1 ?_
  intro p hp
  have := p2 p hp
  omega

/-- An interval of length at most 3 has the hairpin entry as its structure entry and never
the decision "pseudoknot". -/
theorem Solved.structure_short {T : Tables} {n : Nat} (hT : Solved T n) (s e : Nat)
    (hlen : e ≤ s + 2) :
    T.structure_dp s e = T.hairpin s e ∧ T.structure_restore s e ≠ -2 := by
  have hpk : ∀ a b, b ≤ a + 2 → T.pseudoknot a b = 0 := fun a b hab =>
    congrArg Prod.fst (hT.pseudoknot_zero a b (by omega))
  have hlen2 : ∀ a b, b ≤ a + 1 → T.structure_dp a b = T.hairpin a b := by
    intro a b hab
    by_cases hd : 1 ≤ a ∧ a < b ∧ b ≤ n
    · obtain ⟨-, -, -, hdec⟩ := hT.structure_spec a b hd.1 hd.2.1 hd.2.2
      have := hT.hairpin_nonneg a b
      rcases hdec with ⟨-, hv⟩ | ⟨-, hv, hlt⟩ | ⟨k, k1, k2, -, hv, hlt, -⟩
      · exact hv
      · rw [hpk a b (by omega)] at hlt; omega
      · have hk : k = a := by omega
        subst hk
        rw [hv, hT.structure_eq_zero k k (by omega), hT.structure_eq_zero (k + 1) b (by omega)]
          at hlt
        omega
    · rw [hT.structure_eq_zero a b hd]
      exact (congrArg Prod.fst (hT.hairpin_zero a b hd)).symm
  by_cases hd : 1 ≤ s ∧ s < e ∧ e ≤ n
  · obtain ⟨-, -, -, hdec⟩ := hT.structure_spec s e hd.1 hd.2.1 hd.2.2
    have hnn := hT.hairpin_nonneg s e
    rcases hdec with ⟨hr, hv⟩ | ⟨-, hv, hlt⟩ | ⟨k, k1, k2, hr, hv, hlt, -⟩
    · exact ⟨hv, by rw [hr]; decide⟩
    · rw [hpk s e hlen] at hlt; omega
    · exfalso
      rw [hv, hlen2 s k (by omega), hlen2 (k + 1) e (by omega)] at hlt
      rcases Nat.eq_or_lt_of_le k1 with hk | hk
      · subst hk
        have z : T.hairpin s s = 0 := congrArg Prod.fst (hT.hairpin_zero s s (by omega))
        have := hT.hairpin_mono s e (s + 1) e hd.1 hd.2.2 (by omega) (le_refl _)
        omega
      · have hk2 : k + 1 = e := by omega
        have z : T.hairpin (k + 1) e = 0 :=
          congrArg Prod.fst (hT.hairpin_zero (k + 1) e (by omega))
        have := hT.hairpin_mono s e s k hd.1 hd.2.2 (le_refl _) (by omega)
        omega
  · refine ⟨?_, ?_⟩
    · rw [hT.structure_eq_zero s e hd]
      exact (congrArg Prod.fst (hT.hairpin_zero s e hd)).symm
    · rw [hT.structure_restore_eq_zero s e hd]; decide

theorem main_short (cfg : Config) (input : List Char) (hlen : input.length ≤ 1) :
    main cfg input = some ⟨0, List.replicate input.length '.', []⟩ := by
  obtain ⟨out, h1, h2⟩ := run_restore_spec cfg input (input.length + 1) (Nat.lt_succ_self _)
  have hnil : out = [] := by
    by_contra hne
    obtain ⟨p, hp⟩ := List.exists_mem_of_ne_nil out hne
    have := h2.bounds p hp
    omega
  subst hnil
  have hz : solve cfg (' ' :: input) input.length = 0 := by
    have := (restoreOut_nil_iff h2).mp rfl
    exact this
  have hr : restore (solve_tables cfg (' ' :: input) input.length) (input.length + 1) 1
      input.length [] = some [] := h1
  simp only [main, hr, hz, get_dot_braket_notation, List.insertionSort, List.length_nil, forLt,
    Nat.sub_self, List.range'_zero, List.foldl_nil]

/-- C13: for a sequence of length `N ≤ 3` the pseudoknot entry of every interval is 0, no
interval receives the decision "pseudoknot", and the returned score is `hairpin[1][N]`;
for `N = 0` and `N = 1` the score is 0, the recovered list is empty and the notation is
the string of `N` dots. -/
theorem short_sequence_no_pseudoknot (cfg : Config) (input : List Char)
    (hN : input.length ≤ 3) :
    (∀ s e, (run_tables cfg input).pseudoknot s e = 0) ∧
    (∀ s e, (run_tables cfg input).structure_restore s e ≠ -2) ∧
    run_score cfg input = (run_tables cfg input).hairpin 1 input.length ∧
    (input.length ≤ 1 →
      main cfg input = some ⟨0, List.replicate input.length '.', []⟩) := by
  have hT := run_solved cfg input
  refine ⟨?_, ?_, ?_, main_short cfg input⟩
  · intro s e
    exact congrArg Prod.fst (hT.pseudoknot_zero s e (by omega))
  · intro s e
    by_cases hd : 1 ≤ s ∧ s < e ∧ e ≤ input.length
    · exact (hT.structure_short s e (by omega)).2
    · rw [hT.structure_restore_eq_zero s e hd]; decide
  · rw [run_score_eq]
    exact (hT.structure_short 1 input.length (by omega)).1

theorem short_sequence_no_pseudoknot_witness :
    (∀ s e, (run_tables defaultConfig ['A']).pseudoknot s e = 0) ∧
    (∀ s e, (run_tables defaultConfig ['A']).structure_restore s e ≠ -2) ∧
    run_score defaultConfig ['A'] = (run_tables defaultConfig ['A']).hairpin 1 ['A'].length ∧
    main defaultConfig ['A'] = some ⟨0, List.replicate ['A'].length '.', []⟩ := by
  obtain ⟨h1, h2, h3, h4⟩ := short_sequence_no_pseudoknot defaultConfig ['A'] (by decide)
  exact ⟨h1, h2, h3, h4 (by decide)⟩

/-! ## The recurrences of the four tables -/

/-- C16: after `solve`, for every interval `1 ≤ s < e ≤ N` of length `L`, `hairpin[s][e]`
is the maximum over `k` in `[0, L]` of `lcs_dp[s][e][k][L - k]`, and
`hairpin_restore[s][e]` is the smallest `k` in `[0, L]` that attains it. -/
theorem hairpin_is_first_max (cfg : Config) (input : List Char) (s e : Nat)
    (hs : 1 ≤ s) (hse : s < e) (he : e ≤ input.length) :
    (∀ k, k ≤ e + 1 - s →
      (run_tables cfg input).lcs_dp s e k (e + 1 - s - k) ≤ (run_tables cfg input).hairpin s e) ∧
    (run_tables cfg input).hairpin_restore s e ≤ e + 1 - s ∧
    (run_tables cfg input).lcs_dp s e ((run_tables cfg input).hairpin_restore s e)
      (e + 1 - s - (run_tables cfg input).hairpin_restore s e) =
        (run_tables cfg input).hairpin s e ∧
    (∀ k, k < (run_tables cfg input).hairpin_restore s e →
      (run_tables cfg input).lcs_dp s e k (e + 1 - s - k) <
        (run_tables cfg input).hairpin s e) := by
  have hT := run_solved cfg input
  have h := hT.hairpin s e hs hse he
  obtain ⟨-, h2, h3⟩ := hairpinCell_spec (run_tables cfg input).lcs_dp s e
  rw [← h] at h2 h3
  refine ⟨h2, ?_⟩
  rcases h3 with h3 | ⟨a1, -, a3, a4⟩
  · have e1 : (run_tables cfg input).hairpin s e = 0 := congrArg Prod.fst h3
    have e2 : (run_tables cfg input).hairpin_restore s e = 0 := congrArg Prod.snd h3
    rw [e1, e2]
    refine ⟨Nat.zero_le _, ?_, by intro k hk; omega⟩
    rw [hT.lcs_dp s e 0 _ hs (le_of_lt hse) he (by omega), lcsVal_zero_left]
  · exact ⟨a1, a3, a4⟩

theorem hairpin_is_first_max_witness :
    (∀ k, k ≤ 4 + 1 - 1 →
      (run_tables defaultConfig ['A', 'C', 'U', 'G']).lcs_dp 1 4 k (4 + 1 - 1 - k) ≤
        (run_tables defaultConfig ['A', 'C', 'U', 'G']).hairpin 1 4) ∧
    (run_tables defaultConfig ['A', 'C', 'U', 'G']).hairpin_restore 1 4 ≤ 4 + 1 - 1 :=
  ⟨(hairpin_is_first_max defaultConfig ['A', 'C', 'U', 'G'] 1 4 (by decide) (by decide)
      (by decide)).1,
    (hairpin_is_first_max defaultConfig ['A', 'C', 'U', 'G'] 1 4 (by decide) (by decide)
      (by decide)).2.1⟩

theorem loopM_range'_inv {σ : Type} (bodyM : Nat → σ → Option σ) (body : Nat → σ → σ)
    (P : Nat → σ → Prop) :
    ∀ (n a : Nat) (st : σ), P a st →
      (∀ i st, a ≤ i → i < a + n → P i st →
        bodyM i st = some (body i st) ∧ P (i + 1) (body i st)) →
      loopM bodyM (List.range' a n) st =
        some ((List.range' a n).foldl (fun st i => body i st) st) := by
  intro n
  induction n with
  | zero => intro a st _ _; rfl
  | succ n ih =>
    intro a st h0 hstep
    have h1 := hstep a st (le_refl _) (by omega) h0
    simp only [List.range'_succ, loopM, h1.1, List.foldl_cons]
    exact ih (a + 1) _ h1.2 (fun i st hi hin hP => hstep i st (by omega) (by omega) hP)

theorem forLeM_inv {σ : Type} (P : Nat → σ → Prop) (a b : Nat) (bodyM : Nat → σ → Option σ)
    (body : Nat → σ → σ) (st : σ) (h0 : P a st)
    (hstep : ∀ i st, a ≤ i → i ≤ b → P i st →
      bodyM i st = some (body i st) ∧ P (i + 1) (body i st)) :
    forLeM a b bodyM st = some (forLe a b body st) :=
  loopM_range'_inv bodyM body P _ a st h0
    (fun i st hi hin hP => hstep i st hi (by omega) hP)

theorem forLtM_inv {σ : Type} (P : Nat → σ → Prop) (a b : Nat) (bodyM : Nat → σ → Option σ)
    (body : Nat → σ → σ) (st : σ) (h0 : P a st)
    (hstep : ∀ i st, a ≤ i → i < b → P i st →
      bodyM i st = some (body i st) ∧ P (i + 1) (body i st)) :
    forLtM a b bodyM st = some (forLt a b body st) :=
  loopM_range'_inv bodyM body P _ a st h0
    (fun i st hi hin hP => hstep i st hi (by omega) hP)

/-- A guarded loop whose guards all hold does what the loop does. -/
theorem forLeM_eq {σ : Type} (a b : Nat) (bodyM : Nat → σ → Option σ) (body : Nat → σ → σ)
    (st : σ) (h : ∀ i st, a ≤ i → i ≤ b → bodyM i st = some (body i st)) :
    forLeM a b bodyM st = some (forLe a b body st) :=
  forLeM_inv (fun _ _ => True) a b bodyM body st trivial
    (fun i st hi hib _ => ⟨h i st hi hib, trivial⟩)

theorem forLtM_eq {σ : Type} (a b : Nat) (bodyM : Nat → σ → Option σ) (body : Nat → σ → σ)
    (st : σ) (h : ∀ i st, a ≤ i → i < b → bodyM i st = some (body i st)) :
    forLtM a b bodyM st = some (forLt a b body st) :=
  forLtM_inv (fun _ _ => True) a b bodyM body st trivial
    (fun i st hi hib _ => ⟨h i st hi hib, trivial⟩)

theorem loopM_none {σ : Type} (bodyM : Nat → σ → Option σ) (i : Nat)
    (hi : ∀ st, bodyM i st = none) :
    ∀ (l : List Nat) (st : σ), i ∈ l → loopM bodyM l st = none := by
  intro l
  induction l with
  | nil => intro st h; cases h
  | cons j js ih =>
    intro st h
    simp only [loopM]
    cases hb : bodyM j st with
    | none => rfl
    | some st1 =>
      rcases List.mem_cons.mp h with rfl | h1
      · rw [hi st] at hb; cases hb
      · exact ih st1 h1

/-- A guarded loop fails when the guard of one of its iterations fails in every state. -/
theorem forLeM_none {σ : Type} (a b i : Nat) (bodyM : Nat → σ → Option σ) (st : σ)
    (hai : a ≤ i) (hib : i ≤ b) (hi : ∀ st, bodyM i st = none) :
    forLeM a b bodyM st = none :=
  loopM_none bodyM i hi _ st (by rw [List.mem_range'_1]; omega)

theorem loopBreakM_eq {σ : Type} (brk : Nat → Prop) [DecidablePred brk]
    (bodyM : Nat → σ → Option σ) (body : Nat → σ → σ) :
    ∀ (l : List Nat) (st : σ), (∀ j ∈ l, ¬ brk j → ∀ st, bodyM j st = some (body j st)) →
      loopBreakM brk bodyM l st =
        some (loopBreak (fun j st => if brk j then none else some (body j st)) l st) := by
  intro l
  induction l with
  | nil => intro st _; rfl
  | cons j js ih =>
    intro st h
    simp only [loopBreakM, loopBreak]
    by_cases hb : brk j
    · simp only [if_pos hb]
    · simp only [if_neg hb, h j (List.mem_cons_self _ _) hb]
      exact ih _ (fun j1 h1 => h j1 (List.mem_cons_of_mem _ h1))

/-! ## The guards of `solve` hold up to the maximum length -/

theorem build_match_chk_eq (cfg : Config) (seq : List Char) (n : Nat) :
    build_match_chk cfg seq n = some (build_match cfg seq n) := by
  unfold build_match_chk build_match
  refine forLeM_eq _ _ _ _ _ ?_
  intro i m hi hin
  refine forLeM_eq _ _ _ _ _ ?_
  intro j m hj hjn
  unfold match_cell_chk
  rw [if_pos]
  simp only [idxIn]
  omega

theorem lcs_cell_chk_eq (n s e i j : Nat) (mat : Tab2 Int) (st : Tab4 Int × Tab4 Int)
    (hn : n ≤ MAX_SEQ_LENGTH) (hs : 1 ≤ s) (he : e ≤ n) (hi : 1 ≤ i) (hj : 1 ≤ j)
    (hij : i + j ≤ e + 1 - s) :
    lcs_cell_chk n s e i j mat st = some (lcs_cell s e i j mat st) := by
  unfold lcs_cell_chk
  rw [if_pos]
  simp only [cap4, cap, idxIn, MAX_SEQ_LENGTH] at hn ⊢
  omega

theorem lcs_chk_eq (n s e : Nat) (mat : Tab2 Int) (st : Tab4 Int × Tab4 Int)
    (hn : n ≤ MAX_SEQ_LENGTH) (hs : 1 ≤ s) (he : e ≤ n) :
    lcs_chk n s e mat st = some (lcs s e mat st) := by
  unfold lcs_chk lcs
  refine forLeM_eq _ _ _ _ _ ?_
  intro i st hi hil
  refine loopBreakM_eq (fun j => i + j > e + 1 - s) _ (fun j st => lcs_cell s e i j mat st) _ st ?_
  intro j hj hb st
  rw [List.mem_range'_1] at hj
  exact lcs_cell_chk_eq n s e i j mat st hn hs he hi hj.1 (by omega)

theorem lcs_phase_chk_eq (n : Nat) (mat : Tab2 Int) (st : Tab4 Int × Tab4 Int)
    (hn : n ≤ MAX_SEQ_LENGTH) :
    lcs_phase_chk mat n st = some (lcs_phase mat n st) := by
  unfold lcs_phase_chk lcs_phase
  refine forLeM_eq _ _ _ _ _ ?_
  intro i st hi hin
  refine forLeM_eq _ _ _ _ _ ?_
  intro j st hj hjn
  exact lcs_chk_eq n i j mat st hn hi hjn

/-- Beyond the maximum length the call `lcs(1, 101, match)` addresses
`lcs_dp[1][101][1][1]`. -/
theorem lcs_phase_chk_none (n : Nat) (mat : Tab2 Int) (st : Tab4 Int × Tab4 Int)
    (hn : MAX_SEQ_LENGTH < n) : lcs_phase_chk mat n st = none := by
  unfold lcs_phase_chk
  have h100 : MAX_SEQ_LENGTH = 100 := rfl
  refine forLeM_none 1 n 1 _ st (le_refl _) (by omega) ?_
  intro st
  refine forLeM_none 1 n (MAX_SEQ_LENGTH + 1) _ st (by omega) (by omega) ?_
  intro st
  unfold lcs_chk
  refine forLeM_none _ _ 1 _ st (le_refl _) (by omega) ?_
  intro st
  have e : List.range' 1 (MAX_SEQ_LENGTH + 1 + 1 - 1) =
      1 :: List.range' 2 (MAX_SEQ_LENGTH + 1 + 1 - 1 - 1) := by
    rw [h100]; rfl
  rw [e]
  have c : ¬ (1 + 1 > MAX_SEQ_LENGTH + 1 + 1 - 1) := by omega
  have g : lcs_cell_chk n 1 (MAX_SEQ_LENGTH + 1) 1 1 mat st = none := by
    unfold lcs_cell_chk
    rw [if_neg]
    simp only [cap4, cap, idxIn, h100]
    push_cast
    simp
  simp only [loopBreakM, if_neg c, g]

theorem hairpin_phase_chk_eq (n : Nat) (lcs_dp : Tab4 Int) (st : Tab2 Int × Tab2 Nat)
    (hn : n ≤ MAX_SEQ_LENGTH) :
    hairpin_phase_chk lcs_dp n st = some (hairpin_phase lcs_dp n st) := by
  unfold hairpin_phase_chk hairpin_phase
  refine forLeM_eq _ _ _ _ _ ?_
  intro s st hs hsn
  refine forLeM_eq _ _ _ _ _ ?_
  intro e st he hen
  refine forLeM_eq _ _ _ _ _ ?_
  intro k st hk hkl
  unfold hairpin_step_chk
  rw [if_pos]
  simp only [cap2, cap4, cap, idxIn, MAX_SEQ_LENGTH] at hn ⊢
  omega

theorem pseudoknot_phase_chk_eq (n : Nat) (lcs_dp : Tab4 Int) (st : Tab2 Int × Tab2 pk_info)
    (hn : n ≤ MAX_SEQ_LENGTH) :
    pseudoknot_phase_chk lcs_dp n st = some (pseudoknot_phase lcs_dp n st) := by
  unfold pseudoknot_phase_chk pseudoknot_phase
  refine forLeM_eq _ _ _ _ _ ?_
  intro s st hs hsn
  refine forLeM_eq _ _ _ _ _ ?_
  intro e st he hen
  refine forLtM_eq _ _ _ _ _ ?_
  intro i st hi hie
  refine forLtM_eq _ _ _ _ _ ?_
  intro j st hj hje
  refine forLtM_eq _ _ _ _ _ ?_
  intro k st hk hkj
  unfold pseudoknot_step_chk
  rw [if_pos]
  simp only [cap2, cap4, cap, idxIn, MAX_SEQ_LENGTH] at hn ⊢
  omega

/-! ## The structure loops read final values -/

/-- While the structure loops run, the entries of the intervals shorter than the current
length already hold their final value. -/
theorem structInv_agree (h p : Tab2 Int) (n l s0 : Nat) (st fst : Tab2 Int × Tab2 Int)
    (hI : structInv h p n l s0 st) (hF : structInv h p n (n + 1) 0 fst) :
    ∀ m a b, b + 1 - a ≤ m → b + 1 - a < l → st.1 a b = fst.1 a b := by
  intro m
  induction m with
  | zero =>
    intro a b hm hl
    have hd : ¬ (1 ≤ a ∧ a < b ∧ b ≤ n) := by omega
    have e1 := hI.1 a b (fun hx => hd ⟨hx.1, hx.2.1, hx.2.2.1⟩)
    have e2 := hF.1 a b (fun hx => hd ⟨hx.1, hx.2.1, hx.2.2.1⟩)
    have e3 := congrArg Prod.fst e1
    have e4 := congrArg Prod.fst e2
    simp only [getc] at e3 e4
    rw [e3, e4]
  | succ m ih =>
    intro a b hm hl
    by_cases hd : 1 ≤ a ∧ a < b ∧ b ≤ n
    · have e1 := hI.2 a b hd.1 hd.2.1 hd.2.2 (Or.inl hl)
      have e2 := hF.2 a b hd.1 hd.2.1 hd.2.2 (Or.inl (by omega))
      have e3 := congrArg Prod.fst e1
      have e4 := congrArg Prod.fst e2
      simp only [getc] at e3 e4
      rw [e3, e4, structCell_congr h p st.1 fst.1 a b]
      intro k hk hkb
      exact ⟨ih a k (by omega) (by omega), ih (k + 1) b (by omega) (by omega)⟩
    · have e1 := hI.1 a b (fun hx => hd ⟨hx.1, hx.2.1, hx.2.2.1⟩)
      have e2 := hF.1 a b (fun hx => hd ⟨hx.1, hx.2.1, hx.2.2.1⟩)
      have e3 := congrArg Prod.fst e1
      have e4 := congrArg Prod.fst e2
      simp only [getc] at e3 e4
      rw [e3, e4]

theorem structure_cell_init (h p : Tab2 Int) (s e : Nat) (st : Tab2 Int × Tab2 Int) :
    structure_cell h p s e st =
      forLt s e (fun k st => structure_step s e k st) (structure_init h p s e st) := rfl

theorem structure_init_other (h p : Tab2 Int) (s e a b : Nat) (st : Tab2 Int × Tab2 Int)
    (hab : ¬ (a = s ∧ b = e)) : (structure_init h p s e st).1 a b = st.1 a b := by
  unfold structure_init
  simp only
  split_ifs
  · simp only [set2_other _ _ _ _ _ _ hab]
  · simp only [set2_other _ _ _ _ _ _ hab]

theorem structure_step_other (s e k a b : Nat) (st : Tab2 Int × Tab2 Int)
    (hab : ¬ (a = s ∧ b = e)) : (structure_step s e k st).1 a b = st.1 a b := by
  unfold structure_step
  split_ifs
  · simp only [set2_other _ _ _ _ _ _ hab]
  · rfl

theorem structure_cell_chk_eq (h p : Tab2 Int) (n l s : Nat) (st fst : Tab2 Int × Tab2 Int)
    (hn : n ≤ MAX_SEQ_LENGTH) (hl : 2 ≤ l) (hs : 1 ≤ s) (hsn : s + l - 1 ≤ n)
    (hI : structInv h p n l s st) (hF : structInv h p n (n + 1) 0 fst) :
    structure_cell_chk fst.1 h p s (s + l - 1) st =
      some (structure_cell h p s (s + l - 1) st) := by
  have hcap : cap2 (s : Int) ((s + l - 1 : Nat) : Int) := by
    simp only [cap2, cap, idxIn, MAX_SEQ_LENGTH] at hn ⊢
    omega
  unfold structure_cell_chk
  rw [if_pos hcap, structure_cell_init]
  refine forLtM_inv (fun _ st1 => ∀ a b, ¬ (a = s ∧ b = s + l - 1) → st1.1 a b = st.1 a b)
    _ _ _ _ _ (fun a b hab => structure_init_other h p s _ a b st hab) ?_
  intro k st1 hk hke hP
  refine ⟨?_, fun a b hab => by rw [structure_step_other s _ k a b st1 hab]; exact hP a b hab⟩
  unfold structure_step_chk
  rw [if_pos]
  refine ⟨hcap, ?_, ?_, ?_, ?_⟩
  · simp only [cap2, cap, idxIn, MAX_SEQ_LENGTH] at hn ⊢
    omega
  · simp only [cap2, cap, idxIn, MAX_SEQ_LENGTH] at hn ⊢
    omega
  · rw [hP s k (by omega)]
    exact structInv_agree h p n l s st fst hI hF _ s k (le_refl _) (by omega)
  · rw [hP (k + 1) _ (by omega)]
    exact structInv_agree h p n l s st fst hI hF _ (k + 1) _ (le_refl _) (by omega)

theorem structure_phase_chk_eq (h p : Tab2 Int) (n : Nat) (hn : n ≤ MAX_SEQ_LENGTH) :
    structure_phase_chk (structure_phase h p n (fun _ _ => 0, fun _ _ => 0)).1 h p n
        (fun _ _ => 0, fun _ _ => 0) =
      some (structure_phase h p n (fun _ _ => 0, fun _ _ => 0)) := by
  have hF := structure_phase_spec h p n
  unfold structure_phase_chk
  conv_rhs => unfold structure_phase
  refine forLeM_inv (fun l st => 2 ≤ l ∧ structInv h p n l 0 st) 2 n _ _ _ ⟨le_refl _, ?_⟩ ?_
  · constructor
    · intro s e _; rfl
    · intro s e h1 h2 h3 h4; omega
  · intro l st hl hln hI
    have hI1 := structInv_congr h p n l 0 l 1 st (by intro s e h1 h2 h3; omega) hI.2
    refine ⟨?_, by omega, ?_⟩
    · refine forLeM_inv (fun s st => structInv h p n l s st) 1 (n + 1 - l) _ _ st hI1 ?_
      intro s st hs hsn hJ
      exact ⟨structure_cell_chk_eq h p n l s st _ hn hl hs (by omega) hJ hF,
        structInv_step h p n l s st hl hs (by omega) hJ⟩
    · have hJ := forLe_inv (fun s st => structInv h p n l s st) 1 (n + 1 - l)
        (fun s st => structure_cell h p s (s + l - 1) st) st (by omega) hI1
        (by
          intro s st hs hsn hI
          exact structInv_step h p n l s st hl hs (by omega) hI)
      exact structInv_congr h p n l (n + 1 - l + 1) (l + 1) 0 _
        (by intro s e h1 h2 h3; omega) hJ

/-- Up to the maximum length every guard of `solve` holds: the guarded `solve` returns the
tables of `solve`. -/
theorem solve_checked_eq (cfg : Config) (seq : List Char) (n : Nat) (hn : n ≤ MAX_SEQ_LENGTH) :
    solve_checked cfg seq n = some (solve_tables cfg seq n) := by
  have hcap : cap2 1 (n : Int) := by
    simp only [cap2, cap, idxIn, MAX_SEQ_LENGTH] at hn ⊢
    omega
  unfold solve_checked
  simp only [build_match_chk_eq, lcs_phase_chk_eq _ _ _ hn, hairpin_phase_chk_eq _ _ _ hn,
    pseudoknot_phase_chk_eq _ _ _ hn, structure_phase_chk_eq _ _ _ hn, if_pos hcap]
  rfl

/-- Beyond the maximum length a guard of `solve` fails. -/
theorem solve_checked_none (cfg : Config) (seq : List Char) (n : Nat)
    (hn : MAX_SEQ_LENGTH < n) : solve_checked cfg seq n = none := by
  unfold solve_checked
  simp only [build_match_chk_eq, lcs_phase_chk_none _ _ _ hn]

/-! ## The guards of the reconstruction hold up to the maximum length -/

theorem get_lcs_loop_chk_eq (T : Tables) (n s e : Nat) (hn : n ≤ MAX_SEQ_LENGTH) (hs : 1 ≤ s)
    (he : e ≤ n) :
    ∀ (fuel l r : Nat) (acc : List (Nat × Nat)), l + r ≤ e + 1 - s →
      get_lcs_loop_chk T n s e fuel l r acc = get_lcs_loop T s e fuel l r acc := by
  intro fuel
  induction fuel with
  | zero => intro l r acc _; rfl
  | succ fuel ih =>
    intro l r acc h
    by_cases hc : l ≠ 0 ∧ r ≠ 0
    · have hg : cap4 s e l r ∧ 1 ≤ s ∧ e ≤ n ∧ (l : Int) + r ≤ (e : Int) - s + 1 := by
        simp only [cap4, cap, idxIn, MAX_SEQ_LENGTH] at hn ⊢
        omega
      simp only [get_lcs_loop_chk, get_lcs_loop, if_pos hc, if_pos hg]
      rw [ih (l - 1) r _ (by omega), ih l (r - 1) _ (by omega),
        ih (l - 1) (r - 1) _ (by omega)]
    · simp only [get_lcs_loop_chk, get_lcs_loop, if_neg hc]

theorem get_lcs_element_chk_eq (T : Tables) (n s e l r : Nat) (acc : List (Nat × Nat))
    (hn : n ≤ MAX_SEQ_LENGTH) (hs : 1 ≤ s) (he : e ≤ n) (h : l + r ≤ e + 1 - s) :
    get_lcs_element_chk T n s e l r acc = get_lcs_element T s e l r acc :=
  get_lcs_loop_chk_eq T n s e hn hs he _ l r acc h

/-- Up to the maximum length every guard of `restore(l, r)` holds on an interval
`1 ≤ l < r ≤ n`. -/
theorem restore_checked_eq {T : Tables} {n : Nat} (hT : Solved T n) (hn : n ≤ MAX_SEQ_LENGTH) :
    ∀ (fuel l r : Nat) (acc : List (Nat × Nat)), 1 ≤ l → l < r → r ≤ n →
      restore_checked T n fuel l r acc = restore T fuel l r acc := by
  intro fuel
  induction fuel with
  | zero => intro l r acc _ _ _; rfl
  | succ fuel ih =>
    intro l r acc hl hlr hr
    have hcap : cap2 (l : Int) (r : Int) := by
      simp only [cap2, cap, idxIn, MAX_SEQ_LENGTH] at hn ⊢
      omega
    obtain ⟨-, -, -, hdec⟩ := hT.structure_spec l r hl hlr hr
    rcases hdec with ⟨hd, hv⟩ | ⟨hd, hv, hlt⟩ | ⟨k, hk1, hk2, hd, hv, -⟩
    · obtain ⟨hh1, hh2⟩ := hT.hairpin_restore_spec l r hl hlr hr
      have hg : 0 ≤ (r : Int) - l + 1 - T.hairpin_restore l r := by omega
      simp only [restore_checked, restore, if_pos hcap, if_pos hd, if_pos hg]
      exact get_lcs_element_chk_eq T n l r _ _ acc hn hl hr (by omega)
    · have hpos : 0 < T.pseudoknot l r := lt_of_le_of_lt (hT.hairpin_nonneg l r) hlt
      obtain ⟨-, -, p1, p2, p3, p4, -⟩ := hT.pseudoknot_restore_spec l r hpos
      have n1 : ¬ T.structure_restore l r = -1 := by rw [hd]; decide
      have hg : 0 < T.pseudoknot l r ∧ 0 ≤ ((T.pseudoknot_restore l r).i : Int) - l ∧
          0 ≤ ((T.pseudoknot_restore l r).j : Int) - (T.pseudoknot_restore l r).k ∧
          0 ≤ ((T.pseudoknot_restore l r).k : Int) - (T.pseudoknot_restore l r).i + 1 ∧
          0 ≤ (r : Int) - (T.pseudoknot_restore l r).j := ⟨hpos, by omega, by omega, by omega,
            by omega⟩
      simp only [restore_checked, restore, if_pos hcap, if_neg n1, if_pos hd, if_pos hg]
      rw [get_lcs_element_chk_eq T n l _ _ _ acc hn hl (by omega) (by omega)]
      cases get_lcs_element T l (T.pseudoknot_restore l r).j ((T.pseudoknot_restore l r).i - l)
          ((T.pseudoknot_restore l r).j - (T.pseudoknot_restore l r).k) acc with
      | none => rfl
      | some acc1 =>
        exact get_lcs_element_chk_eq T n _ r _ _ acc1 hn (by omega) hr (by omega)
    · have n1 : ¬ T.structure_restore l r = -1 := by rw [hd]; omega
      have n2 : ¬ T.structure_restore l r = -2 := by rw [hd]; omega
      have hk0 : 0 ≤ T.structure_restore l r := by rw [hd]; omega
      have hkn : (T.structure_restore l r).toNat = k := by rw [hd]; simp
      have second : ∀ acc1 : List (Nat × Nat),
          (if k + 2 ≤ r ∧ k + 1 ≥ 1 then
            (if 2 ≤ (r : Int) - (k + 1) + 1 ∧ (r : Int) - (k + 1) + 1 < (r : Int) - l + 1 then
              restore_checked T n fuel (k + 1) r acc1 else none)
          else some acc1) =
          (if k + 2 ≤ r ∧ k + 1 ≥ 1 then restore T fuel (k + 1) r acc1 else some acc1) := by
        intro acc1
        by_cases c2 : k + 2 ≤ r ∧ k + 1 ≥ 1
        · have g2 : 2 ≤ (r : Int) - (k + 1) + 1 ∧
              (r : Int) - (k + 1) + 1 < (r : Int) - l + 1 := by omega
          rw [if_pos c2, if_pos c2, if_pos g2, ih (k + 1) r acc1 (by omega) (by omega) hr]
        · rw [if_neg c2, if_neg c2]
      have first : (if l + 1 ≤ k ∧ l ≥ 1 then
            (if 2 ≤ (k : Int) - l + 1 ∧ (k : Int) - l + 1 < (r : Int) - l + 1 then
              restore_checked T n fuel l k acc else none)
          else some acc) =
          (if l + 1 ≤ k ∧ l ≥ 1 then restore T fuel l k acc else some acc) := by
        by_cases c1 : l + 1 ≤ k ∧ l ≥ 1
        · have g1 : 2 ≤ (k : Int) - l + 1 ∧ (k : Int) - l + 1 < (r : Int) - l + 1 := by omega
          rw [if_pos c1, if_pos c1, if_pos g1, ih l k acc hl (by omega) (by omega)]
        · rw [if_neg c1, if_neg c1]
      simp only [restore_checked, restore, if_pos hcap, if_neg n1, if_neg n2, if_pos hk0, hkn,
        first, second]

theorem restore_checked_top {T : Tables} {n : Nat} (hT : Solved T n) (hn : n ≤ MAX_SEQ_LENGTH) :
    restore_checked T n (n + 1) 1 n [] = restore T (n + 1) 1 n [] := by
  by_cases h1 : 1 < n
  · exact restore_checked_eq hT hn (n + 1) 1 n [] (le_refl _) h1 (le_refl _)
  · have hz := hT.structure_restore_eq_zero 1 n (by omega)
    have hcap : cap2 (1 : Int) (n : Int) := by
      simp only [cap2, cap, idxIn, MAX_SEQ_LENGTH] at hn ⊢
      omega
    have c1 : ¬ (2 ≤ n) := by omega
    simp [restore_checked, restore, hz, c1, hcap]

/-- Up to the maximum length the guarded program is the program. -/
theorem main_checked_eq (cfg : Config) (input : List Char)
    (hlen : input.length ≤ MAX_SEQ_LENGTH) : main_checked cfg input = main cfg input := by
  unfold main_checked main
  simp only [solve_checked_eq cfg (' ' :: input) input.length hlen,
    restore_checked_top (solve_tables_solved cfg (' ' :: input) input.length) hlen]
  rfl

theorem run_score_same_symbol (cfg : Config) (input : List Char) (c : Char)
    (hc : ∀ x ∈ input, x = c) : run_score cfg input = 0 := by
  rw [run_score_zero_iff]
  rintro ⟨l, r, h1, h2, h3, h4⟩
  rw [run_match_sym cfg input l r h1 (by omega) (by omega) h3 (by omega),
    hc _ (symbolAt_mem input l h1 (by omega)), hc _ (symbolAt_mem input r (by omega) h3),
    symScore_self] at h4
  omega

theorem main_computes (cfg : Config) (input : List Char) :
    ∃ out, main cfg input = some out ∧ out.mfe = run_score cfg input ∧
      out.dots.length = input.length := by
  obtain ⟨out, h1, h2⟩ := main_spec cfg input
  exact ⟨out, h1, h2.mfe_eq, h2.render.1⟩

/-- Where the decision of an interval is the pseudoknot (-2), the pseudoknot loops have
raised its pseudoknot entry and recorded a triple `l < i ≤ k < j < r` for it. -/
theorem Solved.triple_recorded {T : Tables} {n : Nat} (hT : Solved T n) (l r : Nat)
    (hd : T.structure_restore l r = -2) :
    0 < T.pseudoknot l r ∧ l < (T.pseudoknot_restore l r).i ∧
    (T.pseudoknot_restore l r).i ≤ (T.pseudoknot_restore l r).k ∧
    (T.pseudoknot_restore l r).k < (T.pseudoknot_restore l r).j ∧
    (T.pseudoknot_restore l r).j < r := by
  have hdom : 1 ≤ l ∧ l < r ∧ r ≤ n := by
    by_contra hc
    have := hT.structure_restore_eq_zero l r hc
    omega
  obtain ⟨-, -, -, hdec⟩ := hT.structure_spec l r hdom.1 hdom.2.1 hdom.2.2
  rcases hdec with ⟨h1, -⟩ | ⟨-, -, hlt⟩ | ⟨k, -, -, h1, -⟩
  · omega
  · have hpos : 0 < T.pseudoknot l r := lt_of_le_of_lt (hT.hairpin_nonneg l r) hlt
    obtain ⟨-, -, p1, p2, p3, p4, -⟩ := hT.pseudoknot_restore_spec l r hpos
    exact ⟨hpos, p1, p2, p3, p4⟩
  · omega

/-! ## Claims about the length bound and the table accesses -/

/-- C20: for every sequence of length `0 ≤ N ≤ 100` every guard of the guarded program
holds, so that it returns what the program returns, and the program returns a result.
The guards say: every index of every table access of `solve`, `restore` and
`get_lcs_element` lies in `[0, 100]` (in `[0, N]` for the match matrix); every decision
cell read by `get_lcs_element` lies in the region written by `lcs`; the pseudoknot triple
is read only where it was recorded; every recursive call of `restore` is on a strictly
shorter interval of length at least 2; every structure entry read by the structure loops
holds its final value. `restore(1, N)` ends within recursion depth `N + 1`, and wherever
the decision of an interval is the pseudoknot, a triple `l < i ≤ k < j < r` was recorded
for it. -/
theorem accesses_within_tables (cfg : Config) (input : List Char)
    (hlen : input.length ≤ MAX_SEQ_LENGTH) :
    solve_checked cfg (' ' :: input) input.length = some (run_tables cfg input) ∧
    (∃ out, restore_checked (run_tables cfg input) input.length (input.length + 1) 1
        input.length [] = some out ∧
      run_restore cfg input (input.length + 1) = some out) ∧
    main_checked cfg input = main cfg input ∧
    (∃ res, main cfg input = some res) ∧
    ∀ l r, (run_tables cfg input).structure_restore l r = -2 →
      0 < (run_tables cfg input).pseudoknot l r ∧
      l < ((run_tables cfg input).pseudoknot_restore l r).i ∧
      ((run_tables cfg input).pseudoknot_restore l r).i ≤
        ((run_tables cfg input).pseudoknot_restore l r).k ∧
      ((run_tables cfg input).pseudoknot_restore l r).k <
        ((run_tables cfg input).pseudoknot_restore l r).j ∧
      ((run_tables cfg input).pseudoknot_restore l r).j < r := by
  have hT := solve_tables_solved cfg (' ' :: input) input.length
  obtain ⟨out, h1, -⟩ := restore_top hT (input.length + 1) (Nat.lt_succ_self _)
  obtain ⟨res, h2, -⟩ := main_spec cfg input
  refine ⟨solve_checked_eq _ _ _ hlen, ⟨out, ?_, h1⟩, main_checked_eq cfg input hlen, ⟨res, h2⟩,
    fun l r hd => (run_solved cfg input).triple_recorded l r hd⟩
  unfold run_tables
  rw [restore_checked_top hT hlen]
  exact h1

theorem accesses_within_tables_witness :
    ['A', 'C', 'U', 'G'].length ≤ MAX_SEQ_LENGTH ∧
    main_checked defaultConfig ['A', 'C', 'U', 'G'] = main defaultConfig ['A', 'C', 'U', 'G'] :=
  ⟨by decide, (accesses_within_tables defaultConfig ['A', 'C', 'U', 'G'] (by decide)).2.2.1⟩

/-! ## The 32-bit sums are exact for bounded scores -/

theorem wrap32_eq (x : Int) (h1 : -2147483648 ≤ x) (h2 : x < 2147483648) : wrap32 x = x := by
  unfold wrap32
  omega

theorem add32_eq (a b : Int) (h1 : -2147483648 ≤ a + b) (h2 : a + b < 2147483648) :
    add32 a b = a + b :=
  wrap32_eq _ h1 h2

theorem foldl_congr_inv {σ : Type} (P : σ → Prop) (f g : σ → Nat → σ) :
    ∀ (l : List Nat) (st : σ), P st →
      (∀ i ∈ l, ∀ st, P st → f st i = g st i ∧ P (g st i)) →
      l.foldl f st = l.foldl g st ∧ P (l.foldl g st) := by
  intro l
  induction l with
  | nil => intro st h0 _; exact ⟨rfl, h0⟩
  | cons i is ih =>
    intro st h0 h
    have h1 := h i (List.mem_cons_self _ _) st h0
    simp only [List.foldl_cons]
    rw [h1.1]
    exact ih _ h1.2 (fun i1 hi1 => h i1 (List.mem_cons_of_mem _ hi1))

/-- Two loops whose bodies agree on the states of an invariant compute the same. -/
theorem forLe_congr_inv {σ : Type} (P : σ → Prop) (a b : Nat) (f g : Nat → σ → σ) (st : σ)
    (h0 : P st) (h : ∀ i st, a ≤ i → i ≤ b → P st → f i st = g i st ∧ P (g i st)) :
    forLe a b f st = forLe a b g st ∧ P (forLe a b g st) := by
  unfold forLe
  refine foldl_congr_inv P _ _ _ st h0 ?_
  intro i hi st hP
  rw [List.mem_range'_1] at hi
  exact h i st hi.1 (by omega) hP

theorem forLt_congr_inv {σ : Type} (P : σ → Prop) (a b : Nat) (f g : Nat → σ → σ) (st : σ)
    (h0 : P st) (h : ∀ i st, a ≤ i → i < b → P st → f i st = g i st ∧ P (g i st)) :
    forLt a b f st = forLt a b g st ∧ P (forLt a b g st) := by
  unfold forLt
  refine foldl_congr_inv P _ _ _ st h0 ?_
  intro i hi st hP
  rw [List.mem_range'_1] at hi
  exact h i st hi.1 (by omega) hP

theorem forLe_congr {σ : Type} (a b : Nat) (f g : Nat → σ → σ) (st : σ)
    (h : ∀ i st, a ≤ i → i ≤ b → f i st = g i st) : forLe a b f st = forLe a b g st :=
  (forLe_congr_inv (fun _ => True) a b f g st trivial
    (fun i st h1 h2 _ => ⟨h i st h1 h2, trivial⟩)).1

theorem forLt_congr {σ : Type} (a b : Nat) (f g : Nat → σ → σ) (st : σ)
    (h : ∀ i st, a ≤ i → i < b → f i st = g i st) : forLt a b f st = forLt a b g st :=
  (forLt_congr_inv (fun _ => True) a b f g st trivial
    (fun i st h1 h2 _ => ⟨h i st h1 h2, trivial⟩)).1

theorem loopBreak_congr_inv {σ : Type} (P : σ → Prop) (c : Nat → Prop) [DecidablePred c]
    (f g : Nat → σ → σ) :
    ∀ (l : List Nat) (st : σ), P st →
      (∀ j ∈ l, ¬ c j → ∀ st, P st → f j st = g j st ∧ P (g j st)) →
      loopBreak (fun j st => if c j then none else some (f j st)) l st =
          loopBreak (fun j st => if c j then none else some (g j st)) l st ∧
        P (loopBreak (fun j st => if c j then none else some (g j st)) l st) := by
  intro l
  induction l with
  | nil => intro st h0 _; exact ⟨rfl, h0⟩
  | cons j js ih =>
    intro st h0 h
    by_cases hc : c j
    · simp only [loopBreak, if_pos hc]
      exact ⟨trivial, h0⟩
    · have h1 := h j (List.mem_cons_self _ _) hc st h0
      simp only [loopBreak, if_neg hc]
      rw [h1.1]
      exact ih _ h1.2 (fun j1 hj1 => h j1 (List.mem_cons_of_mem _ hj1))

theorem mul_add_le_hundred (M : Int) (hM0 : 0 ≤ M) (a b : Nat) (h : a + b ≤ 100) :
    M * (a : Int) + M * (b : Int) ≤ 100 * M := by
  have h1 : M * ((a + b : Nat) : Int) ≤ M * 100 :=
    mul_le_mul_of_nonneg_left (by exact_mod_cast h) hM0
  push_cast at h1
  linarith

theorem lcs_cell32_form (s e i j : Nat) (mat : Tab2 Int) (st : Tab4 Int × Tab4 Int)
    (hi : 1 ≤ i) (hj : 1 ≤ j) :
    lcs_cell32 s e i j mat st =
      (set4 st.1 s e i j
          (max (max (st.1 s e (i - 1) j) (st.1 s e i (j - 1)))
            (add32 (st.1 s e (i - 1) (j - 1)) (mat (s + i - 1) (e + 1 - j)))),
        set4 st.2 s e i j
          (if max (st.1 s e (i - 1) j) (st.1 s e i (j - 1)) <
              add32 (st.1 s e (i - 1) (j - 1)) (mat (s + i - 1) (e + 1 - j)) then 2
            else if st.1 s e (i - 1) j < st.1 s e i (j - 1) then 1 else 0)) := by
  have n1 : ¬ (s = s ∧ e = e ∧ i = i ∧ j - 1 = j) := by omega
  have n2 : ¬ (s = s ∧ e = e ∧ i - 1 = i ∧ j - 1 = j) := by omega
  unfold lcs_cell32
  simp only [set4_same, set4_other _ _ _ _ _ _ _ _ _ _ n1, set4_other _ _ _ _ _ _ _ _ _ _ n2,
    set4_set4]
  by_cases h1 : st.1 s e (i - 1) j < st.1 s e i (j - 1)
  · simp only [h1, if_true, set4_same, set4_other _ _ _ _ _ _ _ _ _ _ n2, set4_set4]
    have m1 : max (st.1 s e (i - 1) j) (st.1 s e i (j - 1)) = st.1 s e i (j - 1) :=
      max_eq_right (le_of_lt h1)
    rw [m1]
    by_cases h2 : st.1 s e i (j - 1) <
        add32 (st.1 s e (i - 1) (j - 1)) (mat (s + i - 1) (e + 1 - j))
    · simp only [h2, if_true, max_eq_right (le_of_lt h2)]
    · simp only [h2, if_false, max_eq_left (not_lt.mp h2)]
  · simp only [h1, if_false, set4_same, set4_other _ _ _ _ _ _ _ _ _ _ n2, set4_set4]
    have m1 : max (st.1 s e (i - 1) j) (st.1 s e i (j - 1)) = st.1 s e (i - 1) j :=
      max_eq_left (not_lt.mp h1)
    rw [m1]
    by_cases h2 : st.1 s e (i - 1) j <
        add32 (st.1 s e (i - 1) (j - 1)) (mat (s + i - 1) (e + 1 - j))
    · simp only [h2, if_true, max_eq_right (le_of_lt h2)]
    · simp only [h2, if_false, max_eq_left (not_lt.mp h2)]

/-- On bounded tables the body of `lcs` forms no sum outside the `int` range, and it
keeps the tables bounded. -/
theorem lcs_cell32_eq (M : Int) (hM0 : 0 ≤ M) (hM : 100 * M < 2147483648) (mat : Tab2 Int)
    (hmat : ∀ x y, |mat x y| ≤ M) (s e i j : Nat) (st : Tab4 Int × Tab4 Int)
    (hP : lcsBounded M st) (hi : 1 ≤ i) (hj : 1 ≤ j) (hi100 : i ≤ 100) :
    lcs_cell32 s e i j mat st = lcs_cell s e i j mat st ∧
      lcsBounded M (lcs_cell s e i j mat st) := by
  obtain ⟨d0, d1⟩ := hP s e (i - 1) (j - 1)
  obtain ⟨u0, u1⟩ := hP s e (i - 1) j
  obtain ⟨l0, l1⟩ := hP s e i (j - 1)
  obtain ⟨m0, m1⟩ := abs_le.mp (hmat (s + i - 1) (e + 1 - j))
  have hcast : ((i - 1 : Nat) : Int) = (i : Int) - 1 := by omega
  have hmul : M * ((i - 1 : Nat) : Int) = M * (i : Int) - M := by rw [hcast]; ring
  have hi' : M * (i : Int) ≤ 100 * M := by
    have := mul_le_mul_of_nonneg_left (show ((i : Nat) : Int) ≤ 100 by exact_mod_cast hi100) hM0
    linarith
  have hadd : add32 (st.1 s e (i - 1) (j - 1)) (mat (s + i - 1) (e + 1 - j)) =
      st.1 s e (i - 1) (j - 1) + mat (s + i - 1) (e + 1 - j) :=
    add32_eq _ _ (by linarith) (by linarith)
  constructor
  · rw [lcs_cell32_form s e i j mat st hi hj, lcs_cell_eq s e i j mat st hi hj, hadd]
  · rw [lcs_cell_eq s e i j mat st hi hj]
    intro a b x y
    by_cases hc : a = s ∧ b = e ∧ x = i ∧ y = j
    · obtain ⟨rfl, rfl, rfl, rfl⟩ := hc
      simp only [set4_same]
      refine ⟨le_max_of_le_left (le_max_of_le_left u0), max_le (max_le ?_ l1) ?_⟩
      · linarith
      · linarith
    · simp only [set4_other _ _ _ _ _ _ _ _ _ _ hc]
      exact hP a b x y

theorem lcs32_eq (M : Int) (hM0 : 0 ≤ M) (hM : 100 * M < 2147483648) (mat : Tab2 Int)
    (hmat : ∀ x y, |mat x y| ≤ M) (s e : Nat) (st : Tab4 Int × Tab4 Int)
    (hP : lcsBounded M st) (hs : 1 ≤ s) (he : e ≤ 100) :
    lcs32 s e mat st = lcs s e mat st ∧ lcsBounded M (lcs s e mat st) := by
  unfold lcs32 lcs
  refine forLe_congr_inv (lcsBounded M) _ _ _ _ st hP ?_
  intro i st hi hil hP
  refine loopBreak_congr_inv (lcsBounded M) (fun j => i + j > e + 1 - s)
    (fun j st => lcs_cell32 s e i j mat st) (fun j st => lcs_cell s e i j mat st) _ st hP ?_
  intro j hj hb st hP
  rw [List.mem_range'_1] at hj
  exact lcs_cell32_eq M hM0 hM mat hmat s e i j st hP hi hj.1 (by omega)

theorem lcs_phase32_eq (M : Int) (hM0 : 0 ≤ M) (hM : 100 * M < 2147483648) (mat : Tab2 Int)
    (hmat : ∀ x y, |mat x y| ≤ M) (n : Nat) (st : Tab4 Int × Tab4 Int)
    (hP : lcsBounded M st) (hn : n ≤ 100) :
    lcs_phase32 mat n st = lcs_phase mat n st ∧ lcsBounded M (lcs_phase mat n st) := by
  unfold lcs_phase32 lcs_phase
  refine forLe_congr_inv (lcsBounded M) _ _ _ _ st hP ?_
  intro i st hi hin hP
  refine forLe_congr_inv (lcsBounded M) _ _ _ _ st hP ?_
  intro j st hj hjn hP
  exact lcs32_eq M hM0 hM mat hmat i j st hP hi (by omega)

theorem pseudoknot_step32_eq (M : Int) (hM0 : 0 ≤ M) (hM : 100 * M < 2147483648)
    (L : Tab4 Int) (hL : ∀ a b x y, 0 ≤ L a b x y ∧ L a b x y ≤ M * (x : Int))
    (s e i j k : Nat) (st : Tab2 Int × Tab2 pk_info) (hs : 1 ≤ s) (hsi : s < i) (hik : i ≤ k)
    (hk : k < 100) :
    pseudoknot_step32 L s e i j k st = pseudoknot_step L s e i j k st := by
  obtain ⟨a0, a1⟩ := hL s j (i - s) (j - k)
  obtain ⟨b0, b1⟩ := hL i e (k + 1 - i) (e - j)
  have hsum := mul_add_le_hundred M hM0 (i - s) (k + 1 - i) (by omega)
  have hadd : add32 (L s j (i - s) (j - k)) (L i e (k + 1 - i) (e - j)) =
      L s j (i - s) (j - k) + L i e (k + 1 - i) (e - j) :=
    add32_eq _ _ (by linarith) (by linarith)
  unfold pseudoknot_step32 pseudoknot_step
  rw [hadd]

theorem pseudoknot_phase32_eq (M : Int) (hM0 : 0 ≤ M) (hM : 100 * M < 2147483648)
    (L : Tab4 Int) (hL : ∀ a b x y, 0 ≤ L a b x y ∧ L a b x y ≤ M * (x : Int))
    (n : Nat) (st : Tab2 Int × Tab2 pk_info) (hn : n ≤ 100) :
    pseudoknot_phase32 L n st = pseudoknot_phase L n st := by
  unfold pseudoknot_phase32 pseudoknot_phase
  refine forLe_congr _ _ _ _ _ ?_
  intro s st hs hsn
  refine forLe_congr _ _ _ _ _ ?_
  intro e st he hen
  refine forLt_congr _ _ _ _ _ ?_
  intro i st hi hie
  refine forLt_congr _ _ _ _ _ ?_
  intro j st hj hje
  refine forLt_congr _ _ _ _ _ ?_
  intro k st hk hkj
  exact pseudoknot_step32_eq M hM0 hM L hL s e i j k st hs (by omega) hk (by omega)

theorem structure_init_same (h p : Tab2 Int) (s e : Nat) (st : Tab2 Int × Tab2 Int) :
    (structure_init h p s e st).1 s e = if h s e < p s e then p s e else h s e := by
  unfold structure_init
  simp only [set2_same]
  split_ifs
  · simp only [set2_same]
  · simp only [set2_same]

theorem structure_cell32_init (h p : Tab2 Int) (s e : Nat) (st : Tab2 Int × Tab2 Int) :
    structure_cell32 h p s e st =
      forLt s e (fun k st => structure_step32 s e k st) (structure_init h p s e st) := rfl

theorem structure_step32_eq (M : Int) (hM0 : 0 ≤ M) (hM : 100 * M < 2147483648)
    (s e k : Nat) (st : Tab2 Int × Tab2 Int) (hQ : tabBounded M st.1)
    (hs : 1 ≤ s) (hsk : s ≤ k) (hke : k < e) (he : e ≤ 100) :
    structure_step32 s e k st = structure_step s e k st ∧
      tabBounded M (structure_step s e k st).1 := by
  obtain ⟨a0, a1⟩ := hQ s k
  obtain ⟨b0, b1⟩ := hQ (k + 1) e
  have hsum := mul_add_le_hundred M hM0 (k + 1 - s) (e + 1 - (k + 1)) (by omega)
  have hlen : ((k + 1 - s : Nat) : Int) + ((e + 1 - (k + 1) : Nat) : Int) =
      ((e + 1 - s : Nat) : Int) := by omega
  have hmul : M * ((k + 1 - s : Nat) : Int) + M * ((e + 1 - (k + 1) : Nat) : Int) =
      M * ((e + 1 - s : Nat) : Int) := by rw [← mul_add, hlen]
  have hadd : add32 (st.1 s k) (st.1 (k + 1) e) = st.1 s k + st.1 (k + 1) e :=
    add32_eq _ _ (by linarith) (by linarith)
  constructor
  · unfold structure_step32 structure_step
    rw [hadd]
  · unfold structure_step
    split_ifs with hc
    · intro a b
      by_cases hab : a = s ∧ b = e
      · obtain ⟨rfl, rfl⟩ := hab
        simp only [set2_same]
        exact ⟨by linarith, by linarith⟩
      · simp only [set2_other _ _ _ _ _ _ hab]
        exact hQ a b
    · exact hQ

theorem structure_cell32_eq (M : Int) (hM0 : 0 ≤ M) (hM : 100 * M < 2147483648)
    (h p : Tab2 Int) (hh : tabBounded M h) (hp : tabBounded M p)
    (s e : Nat) (st : Tab2 Int × Tab2 Int) (hQ : tabBounded M st.1)
    (hs : 1 ≤ s) (he : e ≤ 100) :
    structure_cell32 h p s e st = structure_cell h p s e st ∧
      tabBounded M (structure_cell h p s e st).1 := by
  rw [structure_cell32_init, structure_cell_init]
  refine forLt_congr_inv (fun st : Tab2 Int × Tab2 Int => tabBounded M st.1) _ _ _ _ _ ?_ ?_
  · intro a b
    by_cases hab : a = s ∧ b = e
    · obtain ⟨rfl, rfl⟩ := hab
      rw [structure_init_same]
      split_ifs
      · exact hp a b
      · exact hh a b
    · rw [structure_init_other h p s e a b st hab]
      exact hQ a b
  · intro k st hk hke hQ
    exact structure_step32_eq M hM0 hM s e k st hQ hs hk hke he

theorem structure_phase32_eq (M : Int) (hM0 : 0 ≤ M) (hM : 100 * M < 2147483648)
    (h p : Tab2 Int) (hh : tabBounded M h) (hp : tabBounded M p)
    (n : Nat) (st : Tab2 Int × Tab2 Int) (hQ : tabBounded M st.1) (hn : n ≤ 100) :
    structure_phase32 h p n st = structure_phase h p n st := by
  unfold structure_phase32 structure_phase
  refine (forLe_congr_inv (fun st : Tab2 Int × Tab2 Int => tabBounded M st.1) _ _ _ _ st hQ ?_).1
  intro l st hl hln hQ
  refine forLe_congr_inv (fun st : Tab2 Int × Tab2 Int => tabBounded M st.1) _ _ _ _ st hQ ?_
  intro s st hs hsn hQ
  exact structure_cell32_eq M hM0 hM h p hh hp s (s + l - 1) st hQ hs (by omega)

/-- For a sequence of length at most 100 and scores of absolute value at most `M` with
`100 * M < 2 ^ 31`, no sum of `solve` leaves the `int` range: the tables computed with
`int` sums are the tables computed with exact sums. -/
theorem solve_tables32_eq (cfg : Config) (seq : List Char) (n : Nat) (M : Int)
    (hwc : |cfg.watsonCrickPairScore| ≤ M) (hwb : |cfg.wobblePairScore| ≤ M)
    (hM : 100 * M < 2147483648) (hn : n ≤ 100) :
    solve_tables32 cfg seq n = solve_tables cfg seq n := by
  have hM0 : 0 ≤ M := le_trans (abs_nonneg _) hwc
  have hmat : ∀ x y, |build_match cfg seq n x y| ≤ M := by
    intro x y
    rw [build_match_eq]
    exact matchVal_abs_le cfg seq n M hwc hwb x y
  have hT := solve_tables_solved cfg seq n
  have hmat1 : ∀ x y, (solve_tables cfg seq n).mat x y ≤ M :=
    fun x y => le_trans (le_abs_self _) (hmat x y)
  have hz : lcsBounded M ((fun _ _ _ _ => 0, fun _ _ _ _ => 0) : Tab4 Int × Tab4 Int) :=
    fun a b x y => ⟨le_refl _, mul_nonneg hM0 (Int.natCast_nonneg _)⟩
  obtain ⟨hl, hL⟩ := lcs_phase32_eq M hM0 hM (build_match cfg seq n) hmat n _ hz hn
  have hh : tabBounded M (solve_tables cfg seq n).hairpin :=
    fun a b => ⟨hT.hairpin_nonneg a b, hT.hairpin_le M hM0 hmat1 a b⟩
  have hp : tabBounded M (solve_tables cfg seq n).pseudoknot :=
    fun a b => ⟨hT.pseudoknot_nonneg a b, hT.pseudoknot_le M hM0 hmat1 a b⟩
  have hq : tabBounded M ((fun _ _ => 0, fun _ _ => 0) : Tab2 Int × Tab2 Int).1 :=
    fun a b => ⟨le_refl _, mul_nonneg hM0 (Int.natCast_nonneg _)⟩
  have hpk := pseudoknot_phase32_eq M hM0 hM _ hL n (fun _ _ => 0, fun _ _ => ⟨0, 0, 0⟩) hn
  have hst := structure_phase32_eq M hM0 hM _ _ hh hp n (fun _ _ => 0, fun _ _ => 0) hq hn
  unfold solve_tables at hst
  unfold solve_tables32 solve_tables
  simp only [hl, hpk, hst]

theorem run_score32_eq (cfg : Config) (input : List Char)
    (hlen : input.length ≤ MAX_SEQ_LENGTH)
    (hwc : 100 * |cfg.watsonCrickPairScore| < 2 ^ 31)
    (hwb : 100 * |cfg.wobblePairScore| < 2 ^ 31) :
    run_score32 cfg input = run_score cfg input := by
  have h1 : |cfg.watsonCrickPairScore| ≤
      max |cfg.watsonCrickPairScore| |cfg.wobblePairScore| := le_max_left _ _
  have h2 : |cfg.wobblePairScore| ≤
      max |cfg.watsonCrickPairScore| |cfg.wobblePairScore| := le_max_right _ _
  have hM : 100 * max |cfg.watsonCrickPairScore| |cfg.wobblePairScore| < 2147483648 := by
    rcases max_cases |cfg.watsonCrickPairScore| |cfg.wobblePairScore| with ⟨h, -⟩ | ⟨h, -⟩
    · rw [h]; norm_num at hwc; exact hwc
    · rw [h]; norm_num at hwb; exact hwb
  unfold run_score32 solve32 run_score solve
  rw [solve_tables32_eq cfg _ _ _ h1 h2 hM hlen]

/-- In the embedding with exact sums, the value of `structure[1][N]` is the maximum total
pairing score over the admissible structures on `[1, N]`. -/
theorem run_score_optimal (cfg : Config) (input : List Char) :
    (∃ S, Admissible 1 input.length S ∧
      totalScore (run_match cfg input) S = run_score cfg input) ∧
    (∀ S, Admissible 1 input.length S →
      totalScore (run_match cfg input) S ≤ run_score cfg input) := by
  have hT := run_solved cfg input
  exact ⟨exists_admissible_structure hT _ 1 input.length rfl (le_refl _) (by omega) (le_refl _),
    fun S hS => admissible_le_structure hT S 1 input.length (le_refl _) (le_refl _) hS⟩

/-! ## The claim about optimality -/

set_option maxRecDepth 100000 in
/-- C1 refuted: with the Watson-Crick score 2147483647 (the largest `int`) and the
sequence AUAU, `solve` returns 2147483647: the sum 2147483647 + 2147483647 that it forms
for the second pair leaves the `int` range. The hairpin of the two nested pairs (1, 4)
and (2, 3) is an admissible structure on `[1, 4]` and scores 4294967294, more than any
`int`. -/
theorem overflowing_scores_not_optimal :
    ['A', 'U', 'A', 'U'].length ≤ MAX_SEQ_LENGTH ∧
    run_score32 ⟨false, 1, 2147483647⟩ ['A', 'U', 'A', 'U'] = 2147483647 ∧
    Admissible 1 4 [(4, Block.hairpin {(1, 4), (2, 3)})] ∧
    totalScore (run_match ⟨false, 1, 2147483647⟩ ['A', 'U', 'A', 'U'])
      [(4, Block.hairpin {(1, 4), (2, 3)})] = 4294967294 := by
  refine ⟨by decide, by decide, ?_, ?_⟩
  · refine ⟨by decide, by decide, ⟨?_, ?_⟩, rfl⟩
    · unfold IsStem
      decide
    · decide
  · rw [run_match_eq]
    decide

/-- C1 as amended: for every sequence of length `N ≤ 100` and every configuration whose
scores have an absolute value below `2 ^ 31 / 100` (so that no sum of `solve` leaves the
`int` range), the `int` returned by `solve` (`structure[1][N]`) is the maximum total
pairing score over the admissible structures on `[1, N]`: some admissible structure
scores exactly that value and none scores more. -/
theorem solve_optimal (cfg : Config) (input : List Char)
    (hlen : input.length ≤ MAX_SEQ_LENGTH)
    (hwc : 100 * |cfg.watsonCrickPairScore| < 2 ^ 31)
    (hwb : 100 * |cfg.wobblePairScore| < 2 ^ 31) :
    (∃ S, Admissible 1 input.length S ∧
      totalScore (run_match cfg input) S = run_score32 cfg input) ∧
    (∀ S, Admissible 1 input.length S →
      totalScore (run_match cfg input) S ≤ run_score32 cfg input) := by
  rw [run_score32_eq cfg input hlen hwc hwb]
  exact run_score_optimal cfg input

theorem solve_optimal_witness :
    ['A', 'C', 'U', 'G'].length ≤ MAX_SEQ_LENGTH ∧
    100 * |defaultConfig.watsonCrickPairScore| < 2 ^ 31 ∧
    100 * |defaultConfig.wobblePairScore| < 2 ^ 31 ∧
    (∃ S, Admissible 1 ['A', 'C', 'U', 'G'].length S ∧
      totalScore (run_match defaultConfig ['A', 'C', 'U', 'G']) S =
        run_score32 defaultConfig ['A', 'C', 'U', 'G']) ∧
    (∀ S, Admissible 1 ['A', 'C', 'U', 'G'].length S →
      totalScore (run_match defaultConfig ['A', 'C', 'U', 'G']) S ≤
        run_score32 defaultConfig ['A', 'C', 'U', 'G']) :=
  ⟨by decide, by decide, by decide,
    solve_optimal defaultConfig ['A', 'C', 'U', 'G'] (by decide) (by decide) (by decide)⟩

/-! ## The claim about sequences beyond the maximum length -/

theorem lcs_cell_chk_in (n s e i j : Nat) (mat : Tab2 Int) (st : Tab4 Int × Tab4 Int)
    (he100 : e ≤ MAX_SEQ_LENGTH) (hs : 1 ≤ s) (he : e ≤ n) (hi : 1 ≤ i) (hj : 1 ≤ j)
    (hij : i + j ≤ e + 1 - s) :
    lcs_cell_chk n s e i j mat st = some (lcs_cell s e i j mat st) := by
  unfold lcs_cell_chk
  rw [if_pos]
  simp only [cap4, cap, idxIn, MAX_SEQ_LENGTH] at he100 ⊢
  omega

/-- The calls `lcs(s, e, match)` with `e ≤ 100` stay within the tables, whatever the
length of the sequence. -/
theorem lcs_chk_in (n s e : Nat) (mat : Tab2 Int) (st : Tab4 Int × Tab4 Int)
    (he100 : e ≤ MAX_SEQ_LENGTH) (hs : 1 ≤ s) (he : e ≤ n) :
    lcs_chk n s e mat st = some (lcs s e mat st) := by
  unfold lcs_chk lcs
  refine forLeM_eq _ _ _ _ _ ?_
  intro i st hi hil
  refine loopBreakM_eq (fun j => i + j > e + 1 - s) _ (fun j st => lcs_cell s e i j mat st) _ st ?_
  intro j hj hb st
  rw [List.mem_range'_1] at hj
  exact lcs_cell_chk_in n s e i j mat st he100 hs he hi hj.1 (by omega)

/-- The call `lcs(1, 101, match)` addresses `lcs_dp[1][101][1][1]`, outside the table. -/
theorem lcs_chk_none (n : Nat) (mat : Tab2 Int) (st : Tab4 Int × Tab4 Int) :
    lcs_chk n 1 (MAX_SEQ_LENGTH + 1) mat st = none := by
  have h100 : MAX_SEQ_LENGTH = 100 := rfl
  unfold lcs_chk
  refine forLeM_none _ _ 1 _ st (le_refl _) (by omega) ?_
  intro st
  have e : List.range' 1 (MAX_SEQ_LENGTH + 1 + 1 - 1) =
      1 :: List.range' 2 (MAX_SEQ_LENGTH + 1 + 1 - 1 - 1) := by
    rw [h100]; rfl
  rw [e]
  have c : ¬ (1 + 1 > MAX_SEQ_LENGTH + 1 + 1 - 1) := by omega
  have g : lcs_cell_chk n 1 (MAX_SEQ_LENGTH + 1) 1 1 mat st = none := by
    unfold lcs_cell_chk
    rw [if_neg]
    simp only [cap4, cap, idxIn, h100]
    push_cast
    simp
  simp only [loopBreakM, if_neg c, g]

/-- C14 refuted: on the 101 symbols `AUAA...A` no table access of the program happens
after a check of the length, because there is none. The match-matrix loops run to their
end (and store the score 1 for the positions 1 and 2), the call `lcs(1, 1, match)` leaves
the tables as they are, the call `lcs(1, 2, match)` stores 1 in `lcs_dp[1][2][1][1]`, and
the call `lcs(1, 101, match)` addresses a cell outside the tables, so that the run of
`solve` has no defined result. -/
theorem long_input_reaches_tables :
    ('A' :: 'U' :: List.replicate 99 'A').length = 101 ∧
    (∃ mat, build_match_chk defaultConfig (' ' :: 'A' :: 'U' :: List.replicate 99 'A') 101 =
        some mat ∧
      mat 1 2 = 1 ∧
      lcs_chk 101 1 1 mat (fun _ _ _ _ => 0, fun _ _ _ _ => 0) =
        some (fun _ _ _ _ => 0, fun _ _ _ _ => 0) ∧
      (∃ st, lcs_chk 101 1 2 mat (fun _ _ _ _ => 0, fun _ _ _ _ => 0) = some st ∧
        st.1 1 2 1 1 = 1) ∧
      ∀ st, lcs_chk 101 1 101 mat st = none) ∧
    solve_checked defaultConfig (' ' :: 'A' :: 'U' :: List.replicate 99 'A') 101 = none := by
  refine ⟨by decide, ⟨_, build_match_chk_eq _ _ _, ?_, ?_, ⟨_, lcs_chk_in 101 1 2 _ _
    (by decide) (by decide) (by decide), ?_⟩, fun st => lcs_chk_none 101 _ st⟩,
    solve_checked_none _ _ _ (by decide)⟩
  · rw [build_match_eq]
    decide
  · rw [lcs_chk_in 101 1 1 _ _ (by decide) (by decide) (by decide)]
    rfl
  · rw [build_match_eq]
    decide

/-- C14 as amended: for every input sequence longer than the maximum length 100 the
program makes no length check. `solve` builds the whole match matrix, runs the calls
`lcs(1, j, match)` for `j ≤ 100` on the tables, and in the call `lcs(1, 101, match)` it
addresses a table cell with the index 101, outside the declared arrays; nothing detects
or reports the violation before, and the run of `solve` and of `main` has no defined
result. -/
theorem long_input_unchecked (cfg : Config) (input : List Char)
    (hlen : MAX_SEQ_LENGTH < input.length) :
    build_match_chk cfg (' ' :: input) input.length = some (run_match cfg input) ∧
    (∀ j st, 1 ≤ j → j ≤ MAX_SEQ_LENGTH →
      lcs_chk input.length 1 j (run_match cfg input) st =
        some (lcs 1 j (run_match cfg input) st)) ∧
    (∀ st, lcs_chk input.length 1 (MAX_SEQ_LENGTH + 1) (run_match cfg input) st = none) ∧
    lcs_phase_chk (run_match cfg input) input.length (fun _ _ _ _ => 0, fun _ _ _ _ => 0) = none ∧
    solve_checked cfg (' ' :: input) input.length = none ∧
    main_checked cfg input = none := by
  refine ⟨build_match_chk_eq _ _ _,
    fun j st h1 h2 => lcs_chk_in _ 1 j _ st h2 (le_refl _) (by omega),
    fun st => lcs_chk_none _ _ st, lcs_phase_chk_none _ _ _ hlen,
    solve_checked_none _ _ _ hlen, ?_⟩
  unfold main_checked
  rw [solve_checked_none _ _ _ hlen]

theorem long_input_unchecked_witness :
    MAX_SEQ_LENGTH < (List.replicate 101 'A').length ∧
    main_checked defaultConfig (List.replicate 101 'A') = none :=
  ⟨by decide, (long_input_unchecked defaultConfig (List.replicate 101 'A') (by decide)).2.2.2.2.2⟩

end RNA
